import Mathlib

/-!
Verification development for the Casspir minesweeper library
(`src/point/mod.rs`, `src/map/mod.rs`, `src/solver/mod.rs`).

Modelling conventions:
* Machine integers (`u8`, `u16`, `u32`, `usize`) are modelled as `Nat`.
  All counts appearing in the code are bounded far below their machine
  width (tile values and neighbour counts by 8, coordinates by `2^16`),
  so no wrap-around is reachable in the claims' scope; the one place the
  Rust code relies on `usize` wrap-around (the bounds check in
  `generate_map_with_mines` when `width*height = 0`) is modelled
  explicitly with `% 2^64`.
* Rust panics (out-of-bounds `Vec` indexing inside `flag`/`flip`,
  "failed to find a random tile") abort the whole program, so no state
  after them is observable; they are modelled as returning the state
  unchanged, and theorems about executions therefore describe exactly
  the executions that complete in Rust.  The panics of map generation
  are modelled faithfully with `Option` (`none` = abort).
* `HashSet` iteration order is unspecified in Rust; wherever the final
  result is order-sensitive only in ties (candidate sorting, tally
  iteration) we fix ascending index order and note it at the definition.
  The neighbour list is kept in the insertion order of
  `point::get_neighbours`.
* The recursive flood fill of `Map::flip_recurse` is modelled with
  explicit fuel; `Map.flip` supplies `tiles.length + 1`, which exceeds
  the recursion depth of every Rust execution (each recursion level
  flips a previously unflipped tile first).
-/

namespace Casspir

/-- A 2d point, from `point::Point` (fields `x y : u16` in Rust). -/
structure Point where
  x : Nat
  y : Nat
deriving DecidableEq, Repr

/-- Linear index of a point, from `Point::to_index`. -/
def Point.toIndex (p : Point) (width : Nat) : Nat :=
  p.y * width + p.x

/-- Inverse of `toIndex`, from `point::from_index`.  The Rust function
panics for `width = 0` (division by zero) and when `index / width`
exceeds `u16`; neither is reachable on the boards considered here
(positive dimensions, indices below `width*height`). -/
def fromIndex (index width : Nat) : Point :=
  ⟨index % width, index / width⟩

/-- The up-to-8 neighbours of a point, from `point::get_neighbours`,
in the insertion order of the Rust code (up, down, left, right, and the
four diagonals).  `height - 1` / `width - 1` are `Nat` truncated
subtraction; for `width = 0` or `height = 0` the Rust `u16` arithmetic
would wrap instead, but such boards abort during generation. -/
def getNeighbours (position : Point) (width height : Nat) : List Point :=
  (if 0 < position.y then [⟨position.x, position.y - 1⟩] else []) ++
  (if position.y < height - 1 then [⟨position.x, position.y + 1⟩] else []) ++
  (if 0 < position.x then [⟨position.x - 1, position.y⟩] else []) ++
  (if position.x < width - 1 then [⟨position.x + 1, position.y⟩] else []) ++
  (if 0 < position.y ∧ 0 < position.x then
    [⟨position.x - 1, position.y - 1⟩] else []) ++
  (if 0 < position.y ∧ position.x < width - 1 then
    [⟨position.x + 1, position.y - 1⟩] else []) ++
  (if position.y < height - 1 ∧ 0 < position.x then
    [⟨position.x - 1, position.y + 1⟩] else []) ++
  (if position.y < height - 1 ∧ position.x < width - 1 then
    [⟨position.x + 1, position.y + 1⟩] else [])

/-- Completion state of a puzzle, from `map::Status`. -/
inductive Status where
  | InProgress : Status
  | Failed : Status
  | Complete : Status
deriving DecidableEq, Repr

/-- State of a tile, from `map::Tile`. -/
structure Tile where
  value : Nat
  mine : Bool
  flagged : Bool
  flipped : Bool
deriving DecidableEq, Repr

instance : Inhabited Tile := ⟨⟨0, false, false, false⟩⟩

/-- Move kind, from `solver::MoveType`. -/
inductive MoveType where
  | Flip : MoveType
  | Flag : MoveType
deriving DecidableEq, Repr

/-- A recorded move, from `solver::Move`. -/
structure Move where
  position : Point
  moveType : MoveType
deriving DecidableEq, Repr

/-- State of a game board, from `map::Map`. -/
structure Map where
  width : Nat
  height : Nat
  totalMines : Nat
  minesRemaining : Nat
  tilesFlipped : Nat
  status : Status
  tiles : List Tile
deriving DecidableEq, Repr

/-- Tile accessor, from `Map::get_tile` (in-bounds in every execution
that completes; out of bounds it yields the default tile, where the
Rust indexing would panic). -/
def Map.getTile (m : Map) (index : Nat) : Tile :=
  m.tiles.getD index default

/-- Board size, from `Map::get_size`. -/
def Map.getSize (m : Map) : Nat :=
  m.width * m.height

/-- Flag or unflag a tile, from `Map::flag`. -/
def Map.flag (m : Map) (position : Point) : Map :=
  if m.status ≠ Status.InProgress then m
  else
    let index : Nat := position.toIndex m.width
    if index < m.tiles.length then
      let t := m.tiles.getD index default
      if t.flipped then m
      else if t.flagged then
        { m with tiles := m.tiles.set index { t with flagged := false },
                 minesRemaining := m.minesRemaining + 1 }
      else if 0 < m.minesRemaining then
        { m with tiles := m.tiles.set index { t with flagged := true },
                 minesRemaining := m.minesRemaining - 1 }
      else m
    else m

/-- Satisfaction check, from `Map::is_tile_satisfied`: the number of
flagged neighbours equals the tile's value. -/
def Map.isTileSatisfied (m : Map) (position : Point) : Bool :=
  let t := m.tiles.getD (position.toIndex m.width) default
  let flags :=
    ((getNeighbours position m.width m.height).filter
      (fun q => (m.tiles.getD (q.toIndex m.width) default).flagged)).length
  flags = t.value

/-- Completion check, from `Map::check_completed`. -/
def Map.checkCompleted (m : Map) : Map :=
  if m.status ≠ Status.InProgress then m
  else if m.tilesFlipped + m.totalMines = m.tiles.length then
    { m with status := Status.Complete }
  else m

/-- Recursive flood fill, from `Map::flip_recurse`, with explicit fuel
bounding the recursion depth (sufficient fuel is supplied by
`Map.flip`; the recursion is structural on the fuel so that the kernel
can evaluate it).  The neighbour loop accumulates the flip count. -/
def Map.flipRecurse : Nat → Map → Point → Map × Nat
  | 0, m, _ => (m, 0)
  | fuel + 1, m, position =>
    if m.status ≠ Status.InProgress then (m, 0)
    else
      let index : Nat := position.toIndex m.width
      if index < m.tiles.length then
        let t := m.tiles.getD index default
        if t.flipped ∨ t.flagged then (m, 0)
        else
          let m1 : Map :=
            { m with tiles := m.tiles.set index { t with flipped := true },
                     tilesFlipped := m.tilesFlipped + 1 }
          if t.mine then ({ m1 with status := Status.Failed }, 1)
          else if t.value ≠ 0 then (m1, 1)
          else
            (getNeighbours position m.width m.height).foldl
              (fun acc q =>
                let r := Map.flipRecurse fuel acc.1 q
                (r.1, acc.2 + r.2))
              (m1, 0)
      else (m, 0)

/-- Sequential flood fill of a list of points (the neighbour loops of
`Map::flip` and `Map::flip_recurse`), accumulating the flip count. -/
def Map.flipList (fuel : Nat) (m : Map) (l : List Point) : Map × Nat :=
  l.foldl
    (fun acc q =>
      let r := Map.flipRecurse fuel acc.1 q
      (r.1, acc.2 + r.2))
    (m, 0)

/-- Flip a tile, from `Map::flip`.  Returns the updated map and the
number of tiles flipped by the call. -/
def Map.flip (m : Map) (position : Point) : Map × Nat :=
  let index : Nat := position.toIndex m.width
  if index < m.tiles.length then
    let t := m.tiles.getD index default
    let r : Map × Nat :=
      if t.flipped then
        if m.isTileSatisfied position then
          Map.flipList (m.tiles.length + 1) m
            (getNeighbours position m.width m.height)
        else (m, 0)
      else if ¬t.flagged then
        Map.flipRecurse (m.tiles.length + 1) m position
      else (m, 0)
    (r.1.checkCompleted, r.2)
  else (m.checkCompleted, 0)

/-- Replay a queue of moves, from `Map::apply_moves`. -/
def Map.applyMoves : Map → List Move → Map
  | m, [] => m
  | m, play :: rest =>
    Map.applyMoves
      (if play.moveType = MoveType.Flip then (m.flip play.position).1
       else m.flag play.position)
      rest

/-- Fresh tile used to initialise the grid in the generators. -/
def emptyTile : Tile := ⟨0, false, false, false⟩

/-- Increment the `value` of each listed neighbour tile, from the
inner loop of `generate_map_with_mines`; `none` models the `Vec`
indexing panic on an out-of-bounds neighbour index. -/
def incrementNeighbours (width : Nat) : List Point → List Tile →
    Option (List Tile)
  | [], tiles => some tiles
  | q :: rest, tiles =>
    let qi := q.toIndex width
    if qi < tiles.length then
      incrementNeighbours width rest
        (tiles.set qi
          { tiles.getD qi default with
              value := (tiles.getD qi default).value + 1 })
    else none

/-- Place one mine during generation: bounds check, mine flag, and the
neighbour value increments, from the loop body of
`generate_map_with_mines`.  `none` models the Rust panics (the explicit
bounds panic, and the `Vec` indexing panic that fires instead when
`width*height = 0`, where the `usize` subtraction in the explicit check
wraps, modelled by the `% 2^64`). -/
def placeMine (width height : Nat) (tiles : List Tile) (mine : Point) :
    Option (List Tile) :=
  let index : Nat := mine.toIndex width
  if index > (width * height + 2 ^ 64 - 1) % 2 ^ 64 then none
  else if index < tiles.length then
    incrementNeighbours width (getNeighbours mine width height)
      (tiles.set index { tiles.getD index default with mine := true })
  else none

/-- Mine placement loop of `generate_map_with_mines`. -/
def placeMines (width height : Nat) : List Point → List Tile →
    Option (List Tile)
  | [], tiles => some tiles
  | mine :: rest, tiles =>
    match placeMine width height tiles mine with
    | none => none
    | some tiles1 => placeMines width height rest tiles1

/-- Board generation from explicit mine positions, from
`generate_map_with_mines`.  The Rust function takes a `HashSet`; the
list stands for its (distinct) elements, and the resulting board is
independent of the iteration order. -/
def generateMapWithMines (width height : Nat) (mines : List Point) :
    Option Map :=
  (placeMines width height mines
      (List.replicate (width * height) emptyTile)).map
    (fun tiles =>
      { width := width
        height := height
        totalMines := mines.length
        minesRemaining := mines.length
        tilesFlipped := 0
        status := Status.InProgress
        tiles := tiles })

/-! ## Solver (`src/solver/mod.rs`) -/

/-- Group size limit, from `solver::GROUP_SIZE_LIMIT`. -/
def GROUP_SIZE_LIMIT : Nat := 18

/-- Structural helper for `countOnes` (fuel bounds the number of
halvings; `n` halvings always suffice). -/
def countOnesAux : Nat → Nat → Nat
  | 0, _ => 0
  | fuel + 1, n => if n = 0 then 0 else n % 2 + countOnesAux fuel (n / 2)

/-- Number of set bits, modelling `usize::count_ones`. -/
def countOnes (n : Nat) : Nat := countOnesAux (n + 1) n

/-- Neighbour-flagging loop of the second branch of
`solver::evaluate_neighbours`: flag each unflagged unflipped listed
neighbour, recording one `Flag` move per tile (each move is applied to
the map at the moment it is recorded). -/
def flagNeighboursLoop (w : Nat) : List Point → Map × List Move →
    (Map × List Move)
  | [], acc => acc
  | nbr :: rest, acc =>
    let ni := nbr.toIndex w
    if ¬(acc.1.getTile ni).flagged ∧ ¬(acc.1.getTile ni).flipped then
      let position := fromIndex ni acc.1.width
      flagNeighboursLoop w rest
        (acc.1.flag position, acc.2 ++ [⟨position, MoveType.Flag⟩])
    else flagNeighboursLoop w rest acc

/-- Basic deduction at one flipped tile, from
`solver::evaluate_neighbours`.  Returns the updated map and the moves
recorded.  `unflipped - flagged` is the `u8` subtraction of the Rust
code under `Nat` truncation; on boards reachable from generation every
flagged tile is unflipped, so the subtraction never underflows there
(claim C10). -/
def evaluateNeighbours (m : Map) (index : Nat) : Map × List Move :=
  let nbrs := getNeighbours (fromIndex index m.width) m.width m.height
  let flagged :=
    (nbrs.filter (fun q => (m.getTile (q.toIndex m.width)).flagged)).length
  let unflipped :=
    (nbrs.filter (fun q => ¬(m.getTile (q.toIndex m.width)).flipped)).length
  if flagged = (m.getTile index).value ∧ 0 < unflipped - flagged then
    let position := fromIndex index m.width
    ((m.flip position).1, [⟨position, MoveType.Flip⟩])
  else if unflipped = (m.getTile index).value then
    flagNeighboursLoop m.width nbrs (m, [])
  else (m, [])

/-- Tile loop of `solver::basic_pass`. -/
def basicPassLoop : List Nat → Map × List Move → Map × List Move
  | [], acc => acc
  | i :: rest, acc =>
    if (acc.1.getTile i).flipped ∧ 0 < (acc.1.getTile i).value then
      let r := evaluateNeighbours acc.1 i
      basicPassLoop rest (r.1, acc.2 ++ r.2)
    else basicPassLoop rest acc

/-- One basic pass over all tiles, from `solver::basic_pass`. -/
def basicPass (m : Map) : Map × List Move :=
  basicPassLoop (List.range m.tiles.length) (m, [])

mutual

/-- Group membership traversal from a flipped border tile, from
`solver::recursive_border_grok_flipped`.  State is the pair
(visited, members); fuel bounds the recursion depth. -/
def grokFlipped : Nat → Map → Finset Nat → Finset Nat → Nat →
    Finset Nat × Finset Nat
  | 0, _, visited, members, _ => (visited, members)
  | fuel + 1, m, visited, members, flippedIndex =>
    grokFlippedNbrs fuel m
      (getNeighbours (fromIndex flippedIndex m.width) m.width m.height)
      visited members
termination_by fuel _ _ _ _ => (fuel, 0, 0)

/-- Neighbour loop of `recursive_border_grok_flipped`. -/
def grokFlippedNbrs : Nat → Map → List Point → Finset Nat → Finset Nat →
    Finset Nat × Finset Nat
  | _, _, [], visited, members => (visited, members)
  | fuel, m, q :: rest, visited, members =>
    let ni := q.toIndex m.width
    if ni ∈ visited then grokFlippedNbrs fuel m rest visited members
    else if ¬(m.getTile ni).flipped ∧ ¬(m.getTile ni).flagged then
      let r := grokUnflipped fuel m (insert ni visited) (insert ni members) ni
      grokFlippedNbrs fuel m rest r.1 r.2
    else grokFlippedNbrs fuel m rest visited members
termination_by fuel _ l _ _ => (fuel, 1, l.length)

/-- Group border traversal from an unflipped member tile, from
`solver::recursive_border_grok_unflipped`. -/
def grokUnflipped : Nat → Map → Finset Nat → Finset Nat → Nat →
    Finset Nat × Finset Nat
  | 0, _, visited, members, _ => (visited, members)
  | fuel + 1, m, visited, members, unflippedIndex =>
    grokUnflippedNbrs fuel m
      (getNeighbours (fromIndex unflippedIndex m.width) m.width m.height)
      visited members
termination_by fuel _ _ _ _ => (fuel, 0, 0)

/-- Neighbour loop of `recursive_border_grok_unflipped`. -/
def grokUnflippedNbrs : Nat → Map → List Point → Finset Nat → Finset Nat →
    Finset Nat × Finset Nat
  | _, _, [], visited, members => (visited, members)
  | fuel, m, q :: rest, visited, members =>
    let ni := q.toIndex m.width
    if ni ∈ visited then grokUnflippedNbrs fuel m rest visited members
    else if (m.getTile ni).flipped then
      let r := grokFlipped fuel m (insert ni visited) members ni
      grokUnflippedNbrs fuel m rest r.1 r.2
    else grokUnflippedNbrs fuel m rest visited members
termination_by fuel _ l _ _ => (fuel, 1, l.length)

end

mutual

/-- Frontier group discovery, from `solver::recursive_border_search`.
Returns the updated `visited` and `group_visited` sets together with
the discovered groups, in discovery order. -/
def recursiveBorderSearch : Nat → Map → Nat → Finset Nat → Finset Nat →
    Finset Nat × Finset Nat × List (Finset Nat)
  | 0, _, _, visited, groupVisited => (visited, groupVisited, [])
  | fuel + 1, m, index, visited, groupVisited =>
    if index ∈ visited ∨ (m.getTile index).flipped ∨
        (m.getTile index).flagged then
      (visited, groupVisited, [])
    else
      borderSearchNbrs fuel m
        (getNeighbours (fromIndex index m.width) m.width m.height)
        (insert index visited) groupVisited
termination_by fuel _ _ _ _ => (fuel, 0)

/-- Neighbour loop of `recursive_border_search`. -/
def borderSearchNbrs : Nat → Map → List Point → Finset Nat → Finset Nat →
    Finset Nat × Finset Nat × List (Finset Nat)
  | _, _, [], visited, groupVisited => (visited, groupVisited, [])
  | fuel, m, q :: rest, visited, groupVisited =>
    let ni := q.toIndex m.width
    if ni ∈ visited then borderSearchNbrs fuel m rest visited groupVisited
    else if (m.getTile ni).flipped then
      if ni ∈ groupVisited then
        borderSearchNbrs fuel m rest visited groupVisited
      else
        let r := grokFlipped (2 * m.tiles.length + 2) m groupVisited ∅ ni
        let rec1 := borderSearchNbrs fuel m rest visited r.1
        (rec1.1, rec1.2.1, r.2 :: rec1.2.2)
    else
      let r := recursiveBorderSearch fuel m ni visited groupVisited
      let rec1 := borderSearchNbrs fuel m rest r.1 r.2.1
      (rec1.1, rec1.2.1, r.2.2 ++ rec1.2.2)
termination_by fuel _ l _ _ => (fuel, l.length + 1)

end

/-- Insert a number into a duplicate-free list if not yet present
(modelling `HashSet::insert`). -/
def insertDedup (x : Nat) (l : List Nat) : List Nat :=
  if x ∈ l then l else l ++ [x]

/-- Insert into an ascending list of numbers. -/
def insertSortedNat (x : Nat) : List Nat → List Nat
  | [] => [x]
  | y :: rest => if x ≤ y then x :: y :: rest else y :: insertSortedNat x rest

/-- Insertion sort for index lists, modelling
`tiles_unflipped_sorted.sort()`. -/
def sortNat : List Nat → List Nat
  | [] => []
  | x :: rest => insertSortedNat x (sortNat rest)

/-- Flipped tiles bordering the group members, from the first loop of
`solver::evaluate_group` (a `HashSet` in Rust, modelled as a
duplicate-free list; only its membership is ever used). -/
def groupBorders (m : Map) (sorted : List Nat) : List Nat :=
  sorted.foldl
    (fun acc index =>
      (getNeighbours (fromIndex index m.width) m.width m.height).foldl
        (fun acc2 q =>
          if (m.getTile (q.toIndex m.width)).flipped then
            insertDedup (q.toIndex m.width) acc2
          else acc2)
        acc)
    []

/-- Flag normalisation for one permutation, from the inner member loop
of `solver::evaluate_group`: member slot `j` (ascending sorted order)
is flagged iff bit `j` of `i` is set, via `Map.flag` toggles. -/
def permUpdateAux (w : Nat) (i : Nat) : List Nat → Nat → Map → Map
  | [], _, st => st
  | index :: rest, j, st =>
    let st1 :=
      if 0 < i &&& (1 <<< j) then
        if ¬(st.getTile index).flagged then st.flag (fromIndex index w)
        else st
      else
        if (st.getTile index).flagged then st.flag (fromIndex index w)
        else st
    permUpdateAux w i rest (j + 1) st1

/-- Permutation loop of `solver::evaluate_group` over the given list of
bitmask values: prune by popcount, normalise the staging flags, check
every bordering flipped tile, and accumulate the valid-permutation
count and per-member tallies. -/
def permLoop (w : Nat) (sorted borders : List Nat) (maxMines : Nat) :
    List Nat → Map × Nat × (Nat → Nat) → Map × Nat × (Nat → Nat)
  | [], st => st
  | i :: rest, st =>
    if maxMines < countOnes i then permLoop w sorted borders maxMines rest st
    else
      let staging1 := permUpdateAux w i sorted 0 st.1
      if borders.all (fun b => staging1.isTileSatisfied (fromIndex b w)) then
        permLoop w sorted borders maxMines rest
          (staging1, st.2.1 + 1,
            fun t =>
              if t ∈ sorted ∧ (staging1.getTile t).flagged then st.2.2 t + 1
              else st.2.2 t)
      else permLoop w sorted borders maxMines rest (staging1, st.2.1, st.2.2)

/-- Permutation enumeration of `solver::evaluate_group`: final staging
map, valid-permutation count, and tally function.  The staging map is
the clone `staging_map`; the original map is not mutated.  The member
set (`HashSet<usize>` in Rust) is a duplicate-free list here. -/
def evaluateGroupCore (m : Map) (tilesUnflipped : List Nat) :
    Map × Nat × (Nat → Nat) :=
  let unflippedCount := min GROUP_SIZE_LIMIT tilesUnflipped.length
  let maxMines := min m.minesRemaining unflippedCount
  let sorted := sortNat tilesUnflipped
  let borders := groupBorders m sorted
  permLoop m.width sorted borders maxMines (List.range (2 ^ unflippedCount))
    (m, 0, fun _ => 0)

/-- Nomination derivation of `solver::evaluate_group`.  The Rust code
iterates the tally `HashMap` in unspecified order, which resolves ties
for the minimum tally arbitrarily; we iterate members in ascending
index order (all other outputs are order-independent).  The returned
nominations (`HashSet` in Rust) are a duplicate-free list. -/
def evaluateGroup (m : Map) (tilesUnflipped : List Nat) :
    List (Nat × Nat) :=
  let core := evaluateGroupCore m tilesUnflipped
  let valid := core.2.1
  let tallies := core.2.2
  let sorted := sortNat tilesUnflipped
  let r := sorted.foldl
    (fun (acc : List (Nat × Nat) × Nat × Nat) index =>
      let tally := tallies index
      if tally = 0 then (acc.1 ++ [(index, 0)], acc.2)
      else if tally = valid then (acc.1 ++ [(index, 256)], acc.2)
      else if tally < acc.2.2 then (acc.1, index, tally)
      else acc)
    ([], 0, valid + 1)
  if r.1 = [] ∧ 0 < valid then [(r.2.1, r.2.2 * (255 / valid))] else r.1

/-- Add each candidate pair not yet present (modelling
`HashSet::extend`). -/
def extendDedupPairs (a b : List (Nat × Nat)) : List (Nat × Nat) :=
  b.foldl (fun acc c => if c ∈ acc then acc else acc ++ [c]) a

/-- Group discovery and evaluation loop of `solver::enumerate_groups`
(the branch taken when many tiles remain). -/
def enumerateGroupsLoop (m : Map) : List (Nat × Nat) :=
  ((List.range m.getSize).foldl
    (fun (acc : Finset Nat × Finset Nat × List (Nat × Nat)) i =>
      if i ∈ acc.1 ∨ (m.getTile i).flipped then acc
      else
        let r := recursiveBorderSearch (2 * m.tiles.length + 2) m i acc.1 acc.2.1
        let cands := r.2.2.foldl
          (fun cs g =>
            if g.card < GROUP_SIZE_LIMIT then
              extendDedupPairs cs (evaluateGroup m (g.sort (· ≤ ·)))
            else cs)
          acc.2.2
        (r.1, r.2.1, cands))
    (∅, ∅, [])).2.2

/-- Ordering used to sort candidates, modelling
`candidates_sorted.sort_by(|a, b| a.1.cmp(&b.1))`: ascending risk.
The Rust sort is stable over an unspecified `HashSet` iteration order,
so ties between equal risks are arbitrary there; we additionally fix
ascending tile index within equal risks, making the order total and
the model deterministic. -/
def pairLe (a b : Nat × Nat) : Bool :=
  a.2 < b.2 ∨ (a.2 = b.2 ∧ a.1 ≤ b.1)

/-- Insert into a sorted candidate list. -/
def insertPair (a : Nat × Nat) : List (Nat × Nat) → List (Nat × Nat)
  | [] => [a]
  | b :: rest => if pairLe a b then a :: b :: rest else b :: insertPair a rest

/-- Insertion sort of the candidate list by `pairLe`. -/
def sortPairs : List (Nat × Nat) → List (Nat × Nat)
  | [] => []
  | a :: rest => insertPair a (sortPairs rest)

/-- Candidate application loop of `solver::enumerate_groups`: apply
every zero-risk flip and certain flag in risk order, remembering the
first uncertain candidate as the least risky one.  State is
(map, moves, least-risky candidate, least-risky-found flag). -/
def applyCandidates : List (Nat × Nat) →
    Map × List Move × (Nat × Nat) × Bool →
    (Map × List Move × (Nat × Nat) × Bool)
  | [], acc => acc
  | c :: rest, acc =>
    let position := fromIndex c.1 acc.1.width
    if c.2 = 0 then
      applyCandidates rest
        ((acc.1.flip position).1, acc.2.1 ++ [⟨position, MoveType.Flip⟩],
          acc.2.2.1, acc.2.2.2)
    else if c.2 = 256 then
      applyCandidates rest
        (acc.1.flag position, acc.2.1 ++ [⟨position, MoveType.Flag⟩],
          acc.2.2.1, acc.2.2.2)
    else if ¬acc.2.2.2 then applyCandidates rest (acc.1, acc.2.1, c, true)
    else applyCandidates rest acc

/-- Final selection of `solver::enumerate_groups`: run the candidate
application loop; if it produced no certain move but a least risky
candidate was found, flip that candidate. -/
def enumerateGroupsFinish (m : Map) (cands : List (Nat × Nat)) :
    Map × List Move :=
  let applied := applyCandidates cands (m, [], (0, 0), false)
  let position := fromIndex applied.2.2.1.1 applied.1.width
  if applied.2.1 = [] ∧ applied.2.2.2 then
    ((applied.1.flip position).1, [⟨position, MoveType.Flip⟩])
  else (applied.1, applied.2.1)

/-- Group pass, from `solver::enumerate_groups`: gather candidates,
sort, apply every certain move, else the single least risky flip. -/
def enumerateGroups (m : Map) : Map × List Move :=
  let mapSize := m.getSize
  let candidates : List (Nat × Nat) :=
    if mapSize - m.tilesFlipped < GROUP_SIZE_LIMIT then
      evaluateGroup m
        ((List.range mapSize).filter
          (fun i => ¬(m.getTile i).flipped ∧ ¬(m.getTile i).flagged))
    else enumerateGroupsLoop m
  enumerateGroupsFinish m (sortPairs candidates)

/-- Scan for the `target`-th unflipped tile, from the loop of
`solver::random_move`. -/
def randomScan (m : Map) (target : Nat) : List Nat → Nat → Option Nat
  | [], _ => none
  | i :: rest, cnt =>
    if ¬(m.getTile i).flipped then
      if cnt = target then some i else randomScan m target rest (cnt + 1)
    else randomScan m target rest cnt

/-- Random fallback, from `solver::random_move`, with the random draw
`r` passed in explicitly.  The Rust function panics when no unflipped
tile exists (and on `r % 0`); that arm is modelled as producing no move
and leaving the map unchanged. -/
def randomMove (m : Map) (r : Nat) : Map × List Move :=
  let randomIndex := r % (m.getSize - m.tilesFlipped)
  match randomScan m randomIndex (List.range m.tiles.length) 0 with
  | some i =>
    let position := fromIndex i m.width
    ((m.flip position).1, [⟨position, MoveType.Flip⟩])
  | none => (m, [])

/-- One iteration of the `solve` loop: basic pass, then group pass,
then random fallback. -/
def solveStep (m : Map) (r : Nat) : Map × List Move :=
  let b := basicPass m
  if b.2 ≠ [] then b
  else
    let g := enumerateGroups b.1
    if g.2 ≠ [] then g
    else
      let rm := randomMove g.1 r
      (rm.1, g.2 ++ rm.2)

/-- The solver loop of `solver::solve` on the staging clone, with
explicit fuel (the Rust loop has no bound) and an oracle supplying the
random draws (`k` counts the iterations already performed).  Returns
the recorded moves and the final staging map; the status of the
returned map is `InProgress` exactly when the fuel ran out before the
Rust loop would have exited. -/
def solveFuel : Nat → (Nat → Nat) → Nat → Map → List Move × Map
  | 0, _, _, m => ([], m)
  | fuel + 1, oracle, k, m =>
    if m.status = Status.InProgress then
      let s := solveStep m (oracle k)
      let rest := solveFuel fuel oracle (k + 1) s.1
      (s.2 ++ rest.1, rest.2)
    else ([], m)

/-- Entry point, from `solver::solve` (the staging clone is the
argument map itself; callers keep their original). -/
def solve (fuel : Nat) (oracle : Nat → Nat) (m : Map) : List Move × Map :=
  solveFuel fuel oracle 0 m

/-! ## Concrete boards used in counterexamples and witnesses -/

/-- Fallback map used only to strip the `Option` from the generator on
boards whose successful generation is proved by `decide`. -/
def defaultMap : Map := ⟨0, 0, 0, 0, 0, Status.InProgress, []⟩

/-- Generate a board from explicit mines, defaulting on abort. -/
def genBoard (w h : Nat) (mines : List Point) : Map :=
  (generateMapWithMines w h mines).getD defaultMap

/-- A failed board: the 1×1 board with one mine after flipping it. -/
def failedBoard : Map := ((genBoard 1 1 [⟨0, 0⟩]).flip ⟨0, 0⟩).1

/-- The stuck input board for claim C2: the 5×1 board with mines at
(2,0) and (4,0), after flagging (0,0) and (1,0) (exhausting the mine
budget on non-mines) and flipping (3,0). -/
def stuckBoard : Map :=
  ((((genBoard 5 1 [⟨2, 0⟩, ⟨4, 0⟩]).flag ⟨0, 0⟩).flag ⟨1, 0⟩).flip ⟨3, 0⟩).1

/-- The 3×1 board with a mine at (0,0) after flipping (1,0): tile 1 is
flipped with value 1, tiles 0 and 2 form a 2-tile group bordering it,
and `mines_remaining = 1`. -/
def riskBoard : Map := ((genBoard 3 1 [⟨0, 0⟩]).flip ⟨1, 0⟩).1

/-! ## Derived counting functions and invariants (not part of the
source; used to state and prove the reachable-board invariants) -/

/-- Number of flagged tiles on the board. -/
def flaggedCount (m : Map) : Nat :=
  (m.tiles.filter (fun t => t.flagged)).length

/-- Number of flipped tiles on the board. -/
def flippedCount (m : Map) : Nat :=
  (m.tiles.filter (fun t => t.flipped)).length

/-- Number of unflipped tiles on the board. -/
def unflippedCount (m : Map) : Nat :=
  (m.tiles.filter (fun t => ¬t.flipped)).length

/-- Invariant of every board reachable from `generate_map_with_mines`
by `flag`/`flip` calls: the mine budget accounts for the placed flags,
the flipped counter counts the flipped tiles, no tile is both flagged
and flipped, and the tile vector has `width*height` entries. -/
def Inv (m : Map) : Prop :=
  m.minesRemaining + flaggedCount m = m.totalMines ∧
  m.tilesFlipped = flippedCount m ∧
  (∀ i, (m.getTile i).flagged = true → (m.getTile i).flipped = false) ∧
  m.tiles.length = m.width * m.height

/-- Relation between a board and its state after any number of
flood-fill flip steps: all fields except `status`, `tilesFlipped` and
the tiles' `flipped` bits are unchanged, `flipped` grows monotonically,
flagged tiles are never flipped by the fill, and the `tilesFlipped`
counter advances in step with the number of flipped tiles. -/
structure Frame (m m' : Map) : Prop where
  width_eq : m'.width = m.width
  height_eq : m'.height = m.height
  totalMines_eq : m'.totalMines = m.totalMines
  minesRemaining_eq : m'.minesRemaining = m.minesRemaining
  length_eq : m'.tiles.length = m.tiles.length
  fields_eq : ∀ i, (m'.getTile i).value = (m.getTile i).value ∧
    (m'.getTile i).mine = (m.getTile i).mine ∧
    (m'.getTile i).flagged = (m.getTile i).flagged
  flipped_mono : ∀ i, (m.getTile i).flipped = true →
    (m'.getTile i).flipped = true
  flagged_frozen : ∀ i, (m.getTile i).flagged = true →
    (m'.getTile i).flipped = (m.getTile i).flipped
  counter_delta : m.tilesFlipped + flippedCount m' =
    m'.tilesFlipped + flippedCount m

/-- Budget and no-op guarantees of `Map::flag` on a board `m` (claim
C8): the flag budget never exceeds the total number of mines, and
`flag` leaves the board completely unchanged when the budget is
exhausted on an unflagged tile, when the game is over, or when the
target tile is already flipped. -/
def FlagBudgetOk (m : Map) : Prop :=
  m.minesRemaining ≤ m.totalMines ∧
  (∀ p : Point, m.minesRemaining = 0 →
    (m.getTile (p.toIndex m.width)).flagged = false → m.flag p = m) ∧
  (∀ p : Point, m.status ≠ Status.InProgress → m.flag p = m) ∧
  (∀ p : Point, (m.getTile (p.toIndex m.width)).flipped = true →
    m.flag p = m)

/-- Flag/flip exclusion and the neighbour-count comparison of claim
C10 on a board `m`: no tile is both flagged and flipped, and around
every tile the flagged-neighbour count (the `flagged` count of
`solver::evaluate_neighbours`) is at most the unflipped-neighbour
count (its `unflipped` count), so the `u8` subtraction
`unflipped - flagged` of the basic pass cannot underflow. -/
def FlagFlipExclusion (m : Map) : Prop :=
  (∀ i, (m.getTile i).flagged = true → (m.getTile i).flipped = false) ∧
  (∀ index : Nat,
    ((getNeighbours (fromIndex index m.width) m.width m.height).filter
        (fun q => (m.getTile (q.toIndex m.width)).flagged)).length ≤
      ((getNeighbours (fromIndex index m.width) m.width m.height).filter
        (fun q => ¬(m.getTile (q.toIndex m.width)).flipped)).length)

/-- Number of set bits among bits `0..n-1` of `p`. -/
def bitCount : Nat → Nat → Nat
  | 0, _ => 0
  | n + 1, p => (if p.testBit 0 then 1 else 0) + bitCount n (p / 2)

/-- Spec-side subset application for claim C3: set each member tile's
flag directly according to the bitmask (member in slot `j` of the
fixed order is flagged iff bit `j` of `i` is set), written from the
spec's words "apply it to the staging clone (set/clear flags
accordingly, in a fixed deterministic tile order)". -/
def setMemberFlags (i : Nat) : List Nat → Nat → List Tile → List Tile
  | [], _, tiles => tiles
  | idx :: rest, j, tiles =>
    setMemberFlags i rest (j + 1)
      (tiles.set idx
        { tiles.getD idx default with
            flagged := decide (0 < i &&& (1 <<< j)) })

/-- The board with exactly the subset `i` of members flagged
(spec-side, claim C3). -/
def withMemberFlags (m : Map) (sorted : List Nat) (i : Nat) : Map :=
  { m with tiles := setMemberFlags i sorted 0 m.tiles }

/-- Spec-side acceptance test for one subset (claim C3): with exactly
that subset of members flagged, every flipped tile bordering a group
member is satisfied. -/
def subsetSatisfied (m : Map) (sorted : List Nat) (i : Nat) : Bool :=
  sorted.all (fun t =>
    (getNeighbours (fromIndex t m.width) m.width m.height).all (fun q =>
      !(m.getTile (q.toIndex m.width)).flipped ||
        (withMemberFlags m sorted i).isTileSatisfied
          (fromIndex (q.toIndex m.width) m.width)))

/-- Relation between the original map and a staging state of the
permutation loop of `evaluate_group`: all fields agree except the
member tiles' flags, which follow `f` slot-wise, and
`minesRemaining`. -/
def MemberState (m0 st : Map) (sorted : List Nat) (f : Nat → Bool) :
    Prop :=
  st.width = m0.width ∧ st.height = m0.height ∧ st.status = m0.status ∧
  st.totalMines = m0.totalMines ∧ st.tilesFlipped = m0.tilesFlipped ∧
  st.tiles.length = m0.tiles.length ∧
  (∀ idx, idx ∉ sorted → st.getTile idx = m0.getTile idx) ∧
  (∀ k, k < sorted.length →
    st.getTile (sorted.getD k 0) =
      { m0.getTile (sorted.getD k 0) with flagged := f k })

/-- In-bounds position on the board. -/
def properPt (m : Map) (p : Point) : Prop :=
  p.x < m.width ∧ p.y < m.height

/-- Tile open for the flood fill: neither flipped nor flagged. -/
def OpenAt (m : Map) (p : Point) : Prop :=
  (m.getTile (p.toIndex m.width)).flipped = false ∧
  (m.getTile (p.toIndex m.width)).flagged = false

/-- The tile grid is consistent: it has `width*height` tiles and each
tile's `value` is its number of mine neighbours.  This is exactly the
state `generate_map_with_mines` establishes (claim C9), and `flag` and
`flip` never change `value` or `mine` bits, so it holds on every
reachable board. -/
def ValuesConsistent (m : Map) : Prop :=
  m.tiles.length = m.width * m.height ∧
  ∀ i, i < m.tiles.length →
    (m.getTile i).value =
      ((getNeighbours (fromIndex i m.width) m.width m.height).filter
        (fun q => (m.getTile (q.toIndex m.width)).mine)).length

instance (m : Map) (p : Point) : Decidable (properPt m p) :=
  inferInstanceAs (Decidable (p.x < m.width ∧ p.y < m.height))

instance (m : Map) (p : Point) : Decidable (OpenAt m p) :=
  inferInstanceAs (Decidable
    ((m.getTile (p.toIndex m.width)).flipped = false ∧
      (m.getTile (p.toIndex m.width)).flagged = false))

instance (m : Map) : Decidable (ValuesConsistent m) :=
  inferInstanceAs (Decidable
    (m.tiles.length = m.width * m.height ∧
      ∀ i, i < m.tiles.length →
        (m.getTile i).value =
          ((getNeighbours (fromIndex i m.width) m.width m.height).filter
            (fun q => (m.getTile (q.toIndex m.width)).mine)).length))

/-- The fan-out relation of the flood fill described by the spec:
`Reach m s q` holds when `q` is `s` itself or is a neighbour of a
zero-valued tile that is reachable from `s` through unflipped,
unflagged tiles.  The zero-valued reachable tiles are the spec's
connected region; the nonzero reachable tiles are its one-tile-thick
border. -/
inductive Reach (m : Map) (s : Point) : Point → Prop where
  | base : Reach m s s
  | step {p q : Point} : Reach m s p → OpenAt m p →
      (m.getTile (p.toIndex m.width)).value = 0 →
      q ∈ getNeighbours p m.width m.height → Reach m s q

/-! ## Counting lemmas -/

theorem length_filter_set (p : Tile → Bool) (l : List Tile) :
    ∀ (j : Nat) (t : Tile), j < l.length →
      ((l.set j t).filter p).length +
          (if p (l.getD j default) then 1 else 0) =
        (l.filter p).length + (if p t then 1 else 0) := by
  induction l with
  | nil => intro j t hj; simp at hj
  | cons a tail ih =>
    intro j t hj
    cases j with
    | zero =>
      simp only [List.set_cons_zero, List.filter_cons, List.getD_cons_zero]
      by_cases hpa : p a = true <;> by_cases hpt : p t = true <;>
        simp [hpa, hpt]
    | succ n =>
      simp only [List.set_cons_succ, List.filter_cons, List.getD_cons_succ]
      have hn : n < tail.length := by
        simp only [List.length_cons] at hj
        omega
      have hrec := ih n t hn
      by_cases hpa : p a = true
      · rw [if_pos hpa, if_pos hpa]
        simp only [List.length_cons]
        omega
      · rw [if_neg hpa, if_neg hpa]
        omega

theorem length_filter_eq_of_pointwise (p : Tile → Bool) :
    ∀ (l l' : List Tile), l'.length = l.length →
      (∀ i, i < l.length →
        p (l'.getD i default) = p (l.getD i default)) →
      (l'.filter p).length = (l.filter p).length := by
  intro l
  induction l with
  | nil =>
    intro l' hlen _
    rw [List.length_eq_zero.mp hlen]
  | cons a tail ih =>
    intro l' hlen hpt
    cases l' with
    | nil => simp at hlen
    | cons b tail' =>
      simp only [List.length_cons] at hlen
      have h0 := hpt 0 (by simp)
      simp only [List.getD_cons_zero] at h0
      have htail := ih tail' (by omega) (fun i hi => by
        have := hpt (i + 1) (by simp; omega)
        simpa using this)
      simp only [List.filter_cons, h0]
      by_cases hpa : p a = true <;> simp [hpa, htail]

theorem length_filter_le_of_imp {α : Type} (p q : α → Bool) (l : List α)
    (himp : ∀ t, p t = true → q t = true) :
    (l.filter p).length ≤ (l.filter q).length := by
  induction l with
  | nil => simp
  | cons a tail ih =>
    simp only [List.filter_cons]
    by_cases hpa : p a = true
    · rw [if_pos hpa, if_pos (himp a hpa)]
      simpa using ih
    · rw [if_neg hpa]
      by_cases hqa : q a = true
      · rw [if_pos hqa]
        simp only [List.length_cons]
        omega
      · rw [if_neg hqa]
        exact ih

/-! ## Equation lemmas for the flood fill -/

theorem flipList_shift (fuel : Nat) (l : List Point) (mm : Map) (c : Nat) :
    l.foldl
      (fun acc q =>
        let r := Map.flipRecurse fuel acc.1 q
        (r.1, acc.2 + r.2))
      (mm, c) =
    ((Map.flipList fuel mm l).1, c + (Map.flipList fuel mm l).2) := by
  induction l generalizing mm c with
  | nil => simp [Map.flipList]
  | cons q rest ih =>
    show List.foldl _ (_, c + _) rest = _
    rw [ih]
    unfold Map.flipList
    show _ = ((List.foldl _ (_, (0 : Nat) + _) rest).1,
      c + (List.foldl _ (_, (0 : Nat) + _) rest).2)
    rw [ih, ih]
    simp [Nat.add_assoc]

theorem flipList_nil (fuel : Nat) (m : Map) :
    Map.flipList fuel m [] = (m, 0) := rfl

theorem flipList_cons (fuel : Nat) (m : Map) (q : Point)
    (rest : List Point) :
    Map.flipList fuel m (q :: rest) =
      ((Map.flipList fuel (Map.flipRecurse fuel m q).1 rest).1,
        (Map.flipRecurse fuel m q).2 +
          (Map.flipList fuel (Map.flipRecurse fuel m q).1 rest).2) := by
  unfold Map.flipList
  show List.foldl _ (_, (0 : Nat) + _) rest = _
  rw [flipList_shift]
  simp only [Nat.zero_add, Prod.mk.injEq]
  exact ⟨rfl, rfl⟩

/-- The successor-fuel unfolding of `Map.flipRecurse`, with the
neighbour loop written via `Map.flipList`. -/
theorem flipRecurse_succ (fuel : Nat) (m : Map) (position : Point) :
    Map.flipRecurse (fuel + 1) m position =
      (if m.status ≠ Status.InProgress then (m, 0)
       else
        let index : Nat := position.toIndex m.width
        if index < m.tiles.length then
          let t := m.tiles.getD index default
          if t.flipped ∨ t.flagged then (m, 0)
          else
            let m1 : Map :=
              { m with tiles := m.tiles.set index { t with flipped := true },
                       tilesFlipped := m.tilesFlipped + 1 }
            if t.mine then ({ m1 with status := Status.Failed }, 1)
            else if t.value ≠ 0 then (m1, 1)
            else Map.flipList fuel m1 (getNeighbours position m.width m.height)
        else (m, 0)) := rfl

/-! ## Coordinate lemmas -/

theorem toIndex_lt (p : Point) (w h : Nat) (hx : p.x < w) (hy : p.y < h) :
    p.toIndex w < w * h := by
  unfold Point.toIndex
  calc p.y * w + p.x < p.y * w + w := by omega
  _ = (p.y + 1) * w := by ring
  _ ≤ h * w := Nat.mul_le_mul_right w hy
  _ = w * h := Nat.mul_comm h w

theorem fromIndex_toIndex (p : Point) (w : Nat) (hx : p.x < w) :
    fromIndex (p.toIndex w) w = p := by
  obtain ⟨x, y⟩ := p
  simp only [fromIndex, Point.toIndex, Point.mk.injEq]
  constructor
  · rw [Nat.mul_comm y w, Nat.mul_add_mod, Nat.mod_eq_of_lt hx]
  · rw [Nat.add_comm, Nat.add_mul_div_right _ _ (by omega : 0 < w),
      Nat.div_eq_of_lt hx]
    omega

theorem toIndex_fromIndex (i w : Nat) :
    (fromIndex i w).toIndex w = i := by
  simp only [fromIndex, Point.toIndex]
  exact Nat.div_add_mod' i w

theorem toIndex_inj (p q : Point) (w : Nat) (hp : p.x < w) (hq : q.x < w)
    (h : p.toIndex w = q.toIndex w) : p = q := by
  have hp2 := fromIndex_toIndex p w hp
  have hq2 := fromIndex_toIndex q w hq
  rw [← hp2, ← hq2, h]

/-- Membership of an if-guarded singleton. -/
theorem mem_if_singleton {c : Prop} [Decidable c] (a b : Point) :
    (a ∈ if c then [b] else []) ↔ c ∧ a = b := by
  split_ifs with hc <;> simp [hc]

/-- Raw membership unfolding of `getNeighbours`. -/
theorem mem_getNeighbours_iff (p q : Point) (w h : Nat) :
    q ∈ getNeighbours p w h ↔
      ((0 < p.y ∧ q = ⟨p.x, p.y - 1⟩) ∨
       (p.y < h - 1 ∧ q = ⟨p.x, p.y + 1⟩) ∨
       (0 < p.x ∧ q = ⟨p.x - 1, p.y⟩) ∨
       (p.x < w - 1 ∧ q = ⟨p.x + 1, p.y⟩) ∨
       ((0 < p.y ∧ 0 < p.x) ∧ q = ⟨p.x - 1, p.y - 1⟩) ∨
       ((0 < p.y ∧ p.x < w - 1) ∧ q = ⟨p.x + 1, p.y - 1⟩) ∨
       ((p.y < h - 1 ∧ 0 < p.x) ∧ q = ⟨p.x - 1, p.y + 1⟩) ∨
       ((p.y < h - 1 ∧ p.x < w - 1) ∧ q = ⟨p.x + 1, p.y + 1⟩)) := by
  unfold getNeighbours
  simp only [List.mem_append, mem_if_singleton, or_assoc]

/-- For an in-bounds point, neighbourhood membership is exactly
8-adjacency within bounds. -/
theorem mem_getNeighbours_proper (p q : Point) (w h : Nat)
    (hx : p.x < w) (hy : p.y < h) :
    q ∈ getNeighbours p w h ↔
      (q.x < w ∧ q.y < h ∧ ¬(q.x = p.x ∧ q.y = p.y) ∧
        q.x ≤ p.x + 1 ∧ p.x ≤ q.x + 1 ∧ q.y ≤ p.y + 1 ∧ p.y ≤ q.y + 1) := by
  obtain ⟨px, py⟩ := p
  obtain ⟨qx, qy⟩ := q
  rw [mem_getNeighbours_iff]
  simp only [Point.mk.injEq]
  dsimp only at hx hy ⊢
  constructor
  · intro hd
    rcases hd with ⟨h1, h2⟩ | ⟨h1, h2⟩ | ⟨h1, h2⟩ | ⟨h1, h2⟩ | ⟨h1, h2⟩ | ⟨h1, h2⟩ | ⟨h1, h2⟩ | ⟨h1, h2⟩ <;>
      (rcases h2 with ⟨rfl, rfl⟩) <;> omega
  · intro hc
    obtain ⟨hqx, hqy, hne, e1, e2, e3, e4⟩ := hc
    obtain hxc | hxc | hxc : qx + 1 = px ∨ qx = px ∨ qx = px + 1 := by omega
    all_goals obtain hyc | hyc | hyc : qy + 1 = py ∨ qy = py ∨ qy = py + 1 := by omega
    · exact Or.inr (Or.inr (Or.inr (Or.inr (Or.inl
        ⟨⟨by omega, by omega⟩, by omega, by omega⟩))))
    · exact Or.inr (Or.inr (Or.inl ⟨by omega, by omega, by omega⟩))
    · exact Or.inr (Or.inr (Or.inr (Or.inr (Or.inr (Or.inr (Or.inl
        ⟨⟨by omega, by omega⟩, by omega, by omega⟩))))))
    · exact Or.inl ⟨by omega, by omega, by omega⟩
    · exact absurd ⟨hxc, hyc⟩ hne
    · exact Or.inr (Or.inl ⟨by omega, by omega, by omega⟩)
    · exact Or.inr (Or.inr (Or.inr (Or.inr (Or.inr (Or.inl
        ⟨⟨by omega, by omega⟩, by omega, by omega⟩)))))
    · exact Or.inr (Or.inr (Or.inr (Or.inl ⟨by omega, by omega, by omega⟩)))
    · exact Or.inr (Or.inr (Or.inr (Or.inr (Or.inr (Or.inr (Or.inr
        ⟨⟨by omega, by omega⟩, by omega, by omega⟩))))))
theorem getNeighbours_bounds (p q : Point) (w h : Nat)
    (hx : p.x < w) (hy : p.y < h) (hq : q ∈ getNeighbours p w h) :
    q.x < w ∧ q.y < h := by
  have := (mem_getNeighbours_proper p q w h hx hy).mp hq
  exact ⟨this.1, this.2.1⟩

theorem getNeighbours_symm (p q : Point) (w h : Nat)
    (hpx : p.x < w) (hpy : p.y < h) (hqx : q.x < w) (hqy : q.y < h) :
    q ∈ getNeighbours p w h ↔ p ∈ getNeighbours q w h := by
  rw [mem_getNeighbours_proper p q w h hpx hpy,
    mem_getNeighbours_proper q p w h hqx hqy]
  obtain ⟨px, py⟩ := p
  obtain ⟨qx, qy⟩ := q
  dsimp only at hpx hpy hqx hqy ⊢
  omega

theorem not_self_mem_getNeighbours (p : Point) (w h : Nat)
    (hx : p.x < w) (hy : p.y < h) : p ∉ getNeighbours p w h := by
  intro hmem
  have := (mem_getNeighbours_proper p p w h hx hy).mp hmem
  exact this.2.2.1 ⟨rfl, rfl⟩

theorem getNeighbours_nodup (p : Point) (w h : Nat) :
    (getNeighbours p w h).Nodup := by
  obtain ⟨px, py⟩ := p
  unfold getNeighbours
  by_cases hu : 0 < py <;> by_cases hd : py < h - 1 <;>
    by_cases hl : 0 < px <;> by_cases hr : px < w - 1 <;>
    simp [hu, hd, hl, hr, List.nodup_cons, Point.mk.injEq] <;>
    omega

/-! ## List update helpers -/

theorem getD_set_self (l : List α) (j : Nat) (t d : α) (hj : j < l.length) :
    (l.set j t).getD j d = t := by
  rw [List.getD_eq_getElem?_getD, List.getElem?_set_eq_of_lt t hj]
  rfl

theorem getD_set_ne (l : List α) (i j : Nat) (t d : α) (h : j ≠ i) :
    (l.set j t).getD i d = l.getD i d := by
  rw [List.getD_eq_getElem?_getD, List.getD_eq_getElem?_getD,
    List.getElem?_set_ne h]

/-! ## Map generation (claim C9) -/

theorem incrementNeighbours_length (w : Nat) (l : List Point) :
    ∀ (tiles tiles' : List Tile),
      incrementNeighbours w l tiles = some tiles' →
      tiles'.length = tiles.length := by
  induction l with
  | nil =>
    intro tiles tiles' hsome
    unfold incrementNeighbours at hsome
    cases hsome
    rfl
  | cons q rest ih =>
    intro tiles tiles' hsome
    unfold incrementNeighbours at hsome
    dsimp only at hsome
    split_ifs at hsome with hq
    have := ih _ _ hsome
    rw [this, List.length_set]

theorem placeMine_length (w h : Nat) (tiles tiles' : List Tile) (p : Point)
    (hsome : placeMine w h tiles p = some tiles') :
    tiles'.length = tiles.length := by
  unfold placeMine at hsome
  dsimp only at hsome
  split_ifs at hsome with h1 h2
  have := incrementNeighbours_length w _ _ _ hsome
  rw [this, List.length_set]

theorem placeMines_length (w h : Nat) (mines : List Point) :
    ∀ (tiles tiles' : List Tile),
      placeMines w h mines tiles = some tiles' →
      tiles'.length = tiles.length := by
  induction mines with
  | nil =>
    intro tiles tiles' hsome
    unfold placeMines at hsome
    cases hsome
    rfl
  | cons mp rest ih =>
    intro tiles tiles' hsome
    unfold placeMines at hsome
    cases hpm : placeMine w h tiles mp with
    | none => rw [hpm] at hsome; cases hsome
    | some t1 =>
      rw [hpm] at hsome
      have h1 := placeMine_length w h tiles t1 mp hpm
      have h2 := ih t1 tiles' hsome
      omega

theorem placeMine_none_of_bad (w h : Nat) (tiles : List Tile) (p : Point)
    (hw : w ≤ 65535) (hh : h ≤ 65535) (hlen : tiles.length = w * h)
    (hbad : w * h ≤ p.toIndex w) : placeMine w h tiles p = none := by
  unfold placeMine
  dsimp only
  by_cases hz : w * h = 0
  · split_ifs with h1 h2
    · rfl
    · exact absurd h2 (by omega)
    · rfl
  · have hwh : w * h < 2 ^ 64 := by
      calc w * h ≤ 65535 * 65535 := Nat.mul_le_mul hw hh
      _ < 2 ^ 64 := by norm_num
    have hbound : (w * h + 2 ^ 64 - 1) % 2 ^ 64 = w * h - 1 := by
      rw [show w * h + 2 ^ 64 - 1 = (w * h - 1) + 2 ^ 64 by omega,
        Nat.add_mod_right, Nat.mod_eq_of_lt (by omega)]
    rw [hbound, if_pos (by omega)]

theorem placeMines_none_of_bad (w h : Nat) (mines : List Point)
    (hw : w ≤ 65535) (hh : h ≤ 65535) :
    ∀ (tiles : List Tile), tiles.length = w * h →
      (∃ p ∈ mines, w * h ≤ p.toIndex w) →
      placeMines w h mines tiles = none := by
  induction mines with
  | nil =>
    intro tiles _ hbad
    obtain ⟨p, hp, _⟩ := hbad
    cases hp
  | cons mp rest ih =>
    intro tiles hlen hbad
    unfold placeMines
    obtain ⟨p, hp, hpbad⟩ := hbad
    rcases List.mem_cons.mp hp with rfl | hrest
    · rw [placeMine_none_of_bad w h tiles p hw hh hlen hpbad]
    · cases hpm : placeMine w h tiles mp with
      | none => rfl
      | some t1 =>
        have hl1 : t1.length = w * h := by
          rw [placeMine_length w h tiles t1 mp hpm, hlen]
        exact ih t1 hl1 ⟨p, hrest, hpbad⟩

theorem incrementNeighbours_spec (w : Nat) (l : List Point) :
    ∀ (tiles : List Tile),
      (∀ q ∈ l, q.toIndex w < tiles.length) →
      ∃ tiles', incrementNeighbours w l tiles = some tiles' ∧
        tiles'.length = tiles.length ∧
        ∀ i, i < tiles.length →
          (tiles'.getD i default).value =
            (tiles.getD i default).value +
              (l.filter (fun q => decide (q.toIndex w = i))).length ∧
          (tiles'.getD i default).mine = (tiles.getD i default).mine ∧
          (tiles'.getD i default).flagged = (tiles.getD i default).flagged ∧
          (tiles'.getD i default).flipped = (tiles.getD i default).flipped := by
  induction l with
  | nil =>
    intro tiles _
    exact ⟨tiles, rfl, rfl, fun i _ => by simp⟩
  | cons q rest ih =>
    intro tiles hbounds
    have hq : q.toIndex w < tiles.length := hbounds q (List.mem_cons_self q rest)
    have hstep : incrementNeighbours w (q :: rest) tiles =
        incrementNeighbours w rest
          (tiles.set (q.toIndex w)
            { tiles.getD (q.toIndex w) default with
                value := (tiles.getD (q.toIndex w) default).value + 1 }) := by
      show (if q.toIndex w < tiles.length then
          incrementNeighbours w rest
            (tiles.set (q.toIndex w)
              { tiles.getD (q.toIndex w) default with
                  value := (tiles.getD (q.toIndex w) default).value + 1 })
        else none) = _
      rw [if_pos hq]
    obtain ⟨tiles', hrun, hlen', hspec⟩ := ih
      (tiles.set (q.toIndex w)
        { tiles.getD (q.toIndex w) default with
            value := (tiles.getD (q.toIndex w) default).value + 1 })
      (fun r hr => by
        rw [List.length_set]
        exact hbounds r (List.mem_cons_of_mem q hr))
    refine ⟨tiles', by rw [hstep]; exact hrun,
      by rw [hlen', List.length_set], ?_⟩
    intro i hi
    have hsp := hspec i (by rw [List.length_set]; exact hi)
    by_cases hqeq : q.toIndex w = i
    · rw [hqeq, getD_set_self _ _ _ _ (hqeq ▸ hq)] at hsp
      dsimp only at hsp
      obtain ⟨hv, hm, hfl, hfp⟩ := hsp
      simp only [List.filter_cons]
      rw [if_pos (by simp [hqeq])]
      simp only [List.length_cons]
      exact ⟨by omega, hm, hfl, hfp⟩
    · rw [getD_set_ne _ _ _ _ _ hqeq] at hsp
      simp only [List.filter_cons]
      rw [if_neg (by simp [hqeq])]
      exact hsp

theorem genBound (w h : Nat) (hw : w ≤ 65535) (hh : h ≤ 65535)
    (hz : w * h ≠ 0) : (w * h + 2 ^ 64 - 1) % 2 ^ 64 = w * h - 1 := by
  have hwh : w * h < 2 ^ 64 := by
    calc w * h ≤ 65535 * 65535 := Nat.mul_le_mul hw hh
    _ < 2 ^ 64 := by norm_num
  rw [show w * h + 2 ^ 64 - 1 = (w * h - 1) + 2 ^ 64 by omega,
    Nat.add_mod_right, Nat.mod_eq_of_lt (by omega)]

theorem fromIndex_proper (i w h : Nat) (hi : i < w * h) :
    (fromIndex i w).x < w ∧ (fromIndex i w).y < h := by
  have hw : 0 < w := by
    rcases Nat.eq_zero_or_pos w with h0 | h0
    · rw [h0] at hi; omega
    · exact h0
  constructor
  · exact Nat.mod_lt i hw
  · show i / w < h
    rw [Nat.div_lt_iff_lt_mul hw]
    rwa [Nat.mul_comm w h] at hi

theorem placeMine_spec (w h : Nat) (hw : w ≤ 65535) (hh : h ≤ 65535)
    (tiles : List Tile) (mp : Point) (hx : mp.x < w) (hy : mp.y < h)
    (hlen : tiles.length = w * h) :
    ∃ tiles', placeMine w h tiles mp = some tiles' ∧
      tiles'.length = w * h ∧
      ∀ i, i < w * h →
        (tiles'.getD i default).value =
          (tiles.getD i default).value +
            ((getNeighbours mp w h).filter
              (fun q => decide (q.toIndex w = i))).length ∧
        (tiles'.getD i default).mine =
          ((tiles.getD i default).mine || decide (mp.toIndex w = i)) ∧
        (tiles'.getD i default).flagged = (tiles.getD i default).flagged ∧
        (tiles'.getD i default).flipped = (tiles.getD i default).flipped := by
  have hidx : mp.toIndex w < w * h := toIndex_lt mp w h hx hy
  have hnb : ∀ q ∈ getNeighbours mp w h,
      q.toIndex w <
        (tiles.set (mp.toIndex w)
          { tiles.getD (mp.toIndex w) default with mine := true }).length := by
    intro q hq
    obtain ⟨hqx, hqy⟩ := getNeighbours_bounds mp q w h hx hy hq
    rw [List.length_set, hlen]
    exact toIndex_lt q w h hqx hqy
  obtain ⟨t', hrun, hlen', hspec⟩ := incrementNeighbours_spec w
    (getNeighbours mp w h)
    (tiles.set (mp.toIndex w)
      { tiles.getD (mp.toIndex w) default with mine := true }) hnb
  have hstep : placeMine w h tiles mp =
      incrementNeighbours w (getNeighbours mp w h)
        (tiles.set (mp.toIndex w)
          { tiles.getD (mp.toIndex w) default with mine := true }) := by
    unfold placeMine
    dsimp only
    rw [genBound w h hw hh (by omega), if_neg (by omega), if_pos (by omega)]
  refine ⟨t', by rw [hstep]; exact hrun,
    by rw [hlen', List.length_set, hlen], ?_⟩
  intro i hi
  have hsp := hspec i (by rw [List.length_set]; omega)
  by_cases hieq : mp.toIndex w = i
  · rw [hieq, getD_set_self _ _ _ _ (by omega)] at hsp
    dsimp only at hsp
    obtain ⟨hv, hm, hfl, hfp⟩ := hsp
    refine ⟨hv, ?_, hfl, hfp⟩
    rw [hm]
    simp [hieq]
  · rw [getD_set_ne _ _ _ _ _ hieq] at hsp
    obtain ⟨hv, hm, hfl, hfp⟩ := hsp
    refine ⟨hv, ?_, hfl, hfp⟩
    rw [hm, decide_eq_false hieq, Bool.or_false]

theorem count_nbrs_eq (w h : Nat) (mp : Point) (hx : mp.x < w)
    (hy : mp.y < h) (i : Nat) (hi : i < w * h) :
    ((getNeighbours mp w h).filter
      (fun q => decide (q.toIndex w = i))).length =
      if fromIndex i w ∈ getNeighbours mp w h then 1 else 0 := by
  have hw : 0 < w := by
    rcases Nat.eq_zero_or_pos w with h0 | h0
    · rw [h0] at hi; omega
    · exact h0
  have hcong : (getNeighbours mp w h).filter
      (fun q => decide (q.toIndex w = i)) =
      (getNeighbours mp w h).filter (fun q => q == fromIndex i w) := by
    apply List.filter_congr
    intro q hq
    obtain ⟨hqx, hqy⟩ := getNeighbours_bounds mp q w h hx hy hq
    rw [Bool.eq_iff_iff]
    simp only [decide_eq_true_eq, beq_iff_eq]
    constructor
    · intro he
      rw [← he, fromIndex_toIndex q w hqx]
    · intro he
      rw [he, toIndex_fromIndex]
  rw [hcong]
  rw [show (List.filter (fun q => q == fromIndex i w)
      (getNeighbours mp w h)).length =
      (getNeighbours mp w h).count (fromIndex i w) by
    rw [List.count, List.countP_eq_length_filter]]
  split_ifs with hmem
  · exact List.count_eq_one_of_mem (getNeighbours_nodup mp w h) hmem
  · exact List.count_eq_zero.mpr hmem

theorem placeMines_spec (w h : Nat) (hw : w ≤ 65535) (hh : h ≤ 65535) :
    ∀ (mines : List Point) (tiles : List Tile),
      (∀ p ∈ mines, p.x < w ∧ p.y < h) →
      tiles.length = w * h →
      ∃ tiles', placeMines w h mines tiles = some tiles' ∧
        tiles'.length = w * h ∧
        ∀ i, i < w * h →
          (tiles'.getD i default).value =
            (tiles.getD i default).value +
              (mines.filter
                (fun mp =>
                  decide (fromIndex i w ∈ getNeighbours mp w h))).length ∧
          (tiles'.getD i default).mine =
            ((tiles.getD i default).mine ||
              decide (∃ mp ∈ mines, mp.toIndex w = i)) ∧
          (tiles'.getD i default).flagged = (tiles.getD i default).flagged ∧
          (tiles'.getD i default).flipped = (tiles.getD i default).flipped := by
  intro mines
  induction mines with
  | nil =>
    intro tiles _ hlen
    refine ⟨tiles, rfl, hlen, fun i _ => by simp⟩
  | cons mp rest ih =>
    intro tiles hproper hlen
    have hmp := hproper mp (List.mem_cons_self mp rest)
    obtain ⟨t1, hrun1, hlen1, hspec1⟩ :=
      placeMine_spec w h hw hh tiles mp hmp.1 hmp.2 hlen
    obtain ⟨t', hrun, hlen', hspec⟩ := ih t1
      (fun p hp => hproper p (List.mem_cons_of_mem mp hp)) hlen1
    refine ⟨t', ?_, hlen', ?_⟩
    · unfold placeMines
      rw [hrun1]
      exact hrun
    · intro i hi
      obtain ⟨hv1, hm1, hfl1, hfp1⟩ := hspec1 i hi
      obtain ⟨hv, hm, hfl, hfp⟩ := hspec i hi
      refine ⟨?_, ?_, by rw [hfl, hfl1], by rw [hfp, hfp1]⟩
      · rw [hv, hv1, count_nbrs_eq w h mp hmp.1 hmp.2 i hi]
        simp only [List.filter_cons]
        by_cases hmem : fromIndex i w ∈ getNeighbours mp w h
        · rw [if_pos hmem, if_pos (by simpa using hmem)]
          simp only [List.length_cons]
          omega
        · rw [if_neg hmem, if_neg (by simpa using hmem)]
          omega
      · rw [hm, hm1]
        by_cases hex : mp.toIndex w = i
        · simp [hex]
        · simp only [decide_eq_false hex, Bool.or_false]
          by_cases hex2 : ∃ p ∈ rest, p.toIndex w = i
          · have hex3 : ∃ p ∈ mp :: rest, p.toIndex w = i := by
              obtain ⟨p, hp, he⟩ := hex2
              exact ⟨p, List.mem_cons_of_mem mp hp, he⟩
            rw [decide_eq_true hex2, decide_eq_true hex3]
          · have hex3 : ¬∃ p ∈ mp :: rest, p.toIndex w = i := by
              intro hcon
              obtain ⟨p, hp, he⟩ := hcon
              rcases List.mem_cons.mp hp with rfl | hp2
              · exact hex he
              · exact hex2 ⟨p, hp2, he⟩
            rw [decide_eq_false hex2, decide_eq_false hex3]

/-- Counterexample to claim C9: the mine position (7,0) on a 5×5 board
has `x = 7 ≥ width = 5`, yet `generate_map_with_mines` does **not**
abort — the code checks only the linear index `y*width + x = 7`, which
aliases into range, and silently places the mine at tile index 7
(position (2,1)). -/
theorem c9_counterexample :
    (5 ≤ (7 : Nat)) ∧
      (generateMapWithMines 5 5 [⟨7, 0⟩]).isSome = true ∧
      ((genBoard 5 5 [⟨7, 0⟩]).getTile 7).mine = true ∧
      (Point.toIndex ⟨7, 0⟩ 5 = 7) := by
  decide

/-- Claim C9 as amended: construction aborts whenever some mine's
linear index `y*width + x` lies outside `[0, width*height)` (proved as
the first conjunct); a mine position with `x ≥ width` whose linear
index aliases into range is not rejected (see the counterexample).
When every mine position is properly within bounds (`x < width` and
`y < height`), construction succeeds with status `InProgress`,
`mines_remaining = total_mines` = the number of mines, and each tile's
value equal to its count of mine neighbours. -/
theorem c9_generate_amended :
    (∀ (w h : Nat) (mines : List Point), w ≤ 65535 → h ≤ 65535 →
      (∃ p ∈ mines, w * h ≤ p.toIndex w) →
      generateMapWithMines w h mines = none) ∧
    (∀ (w h : Nat) (mines : List Point), w ≤ 65535 → h ≤ 65535 →
      mines.Nodup → (∀ p ∈ mines, p.x < w ∧ p.y < h) →
      ∃ b, generateMapWithMines w h mines = some b ∧
        b.status = Status.InProgress ∧
        b.totalMines = mines.length ∧
        b.minesRemaining = mines.length ∧
        b.tilesFlipped = 0 ∧
        b.tiles.length = w * h ∧
        ∀ i, i < w * h →
          b.getTile i =
            { value := (mines.filter
                (fun mp =>
                  decide (mp ∈ getNeighbours (fromIndex i w) w h))).length,
              mine := decide (fromIndex i w ∈ mines),
              flagged := false,
              flipped := false }) := by
  constructor
  · intro w h mines hw hh hbad
    unfold generateMapWithMines
    rw [placeMines_none_of_bad w h mines hw hh _
      (by rw [List.length_replicate]) hbad]
    rfl
  · intro w h mines hw hh hnodup hproper
    obtain ⟨tiles', hrun, hlen', hspec⟩ := placeMines_spec w h hw hh mines
      (List.replicate (w * h) emptyTile) hproper
      (by rw [List.length_replicate])
    refine ⟨_, by unfold generateMapWithMines; rw [hrun]; rfl,
      rfl, rfl, rfl, rfl, hlen', ?_⟩
    intro i hi
    obtain ⟨hv, hm, hfl, hfp⟩ := hspec i hi
    have hrepl : (List.replicate (w * h) emptyTile).getD i default =
        emptyTile := by
      rw [List.getD_eq_getElem?_getD, List.getElem?_replicate,
        if_pos hi]
      rfl
    rw [hrepl] at hv hm hfl hfp
    show tiles'.getD i default = _
    have hfp2 := fromIndex_proper i w h hi
    have hvalue : (mines.filter
        (fun mp => decide (fromIndex i w ∈ getNeighbours mp w h))).length =
        (mines.filter
          (fun mp =>
            decide (mp ∈ getNeighbours (fromIndex i w) w h))).length := by
      congr 1
      apply List.filter_congr
      intro mp hmp
      have hmpp := hproper mp hmp
      rw [Bool.eq_iff_iff]
      simp only [decide_eq_true_eq]
      rw [getNeighbours_symm (fromIndex i w) mp w h hfp2.1 hfp2.2
        hmpp.1 hmpp.2]
    have hmine : decide (∃ mp ∈ mines, mp.toIndex w = i) =
        decide (fromIndex i w ∈ mines) := by
      rw [Bool.eq_iff_iff]
      simp only [decide_eq_true_eq]
      constructor
      · intro hmex
        obtain ⟨mp, hmp, he⟩ := hmex
        have := hproper mp hmp
        rw [← he, fromIndex_toIndex mp w this.1]
        exact hmp
      · intro hmem
        exact ⟨fromIndex i w, hmem, toIndex_fromIndex i w⟩
    have hemp : emptyTile.value = 0 ∧ emptyTile.mine = false ∧
        emptyTile.flagged = false ∧ emptyTile.flipped = false :=
      ⟨rfl, rfl, rfl, rfl⟩
    have hT : ∀ t : Tile, t.value = (mines.filter
          (fun mp =>
            decide (mp ∈ getNeighbours (fromIndex i w) w h))).length →
        t.mine = decide (fromIndex i w ∈ mines) →
        t.flagged = false → t.flipped = false →
        t = { value := (mines.filter
                (fun mp =>
                  decide (mp ∈ getNeighbours (fromIndex i w) w h))).length,
              mine := decide (fromIndex i w ∈ mines),
              flagged := false, flipped := false } := by
      intro t h1 h2 h3 h4
      obtain ⟨tv, tm, tfl, tfp⟩ := t
      dsimp only at h1 h2 h3 h4
      rw [h1, h2, h3, h4]
    apply hT
    · rw [hv, hemp.1, Nat.zero_add, hvalue]
    · rw [hm, hemp.2.1, Bool.false_or, hmine]
    · rw [hfl, hemp.2.2.1]
    · rw [hfp, hemp.2.2.2]

/-- Witness for the amended C9 at concrete inputs: the 1×1 board with a
mine at (5,0) (linear index 5 ≥ 1) aborts, and the 2×1 board with one
proper mine at (1,0) generates successfully with the stated fields. -/
theorem c9_witness :
    generateMapWithMines 1 1 [⟨5, 0⟩] = none ∧
      (∃ b, generateMapWithMines 2 1 [⟨1, 0⟩] = some b ∧
        b.status = Status.InProgress ∧
        b.totalMines = 1 ∧
        b.minesRemaining = 1 ∧
        b.tilesFlipped = 0 ∧
        b.tiles.length = 2 * 1 ∧
        ∀ i, i < 2 * 1 →
          b.getTile i =
            { value := (([⟨1, 0⟩] : List Point).filter
                (fun mp =>
                  decide (mp ∈ getNeighbours (fromIndex i 2) 2 1))).length,
              mine := decide (fromIndex i 2 ∈ ([⟨1, 0⟩] : List Point)),
              flagged := false,
              flipped := false }) :=
  ⟨c9_generate_amended.1 1 1 [⟨5, 0⟩] (by decide) (by decide)
      ⟨⟨5, 0⟩, by decide, by decide⟩,
    c9_generate_amended.2 2 1 [⟨1, 0⟩] (by decide) (by decide) (by decide)
      (by decide)⟩

/-! ## Frame and invariant preservation -/

theorem frame_refl (m : Map) : Frame m m :=
  ⟨rfl, rfl, rfl, rfl, rfl, fun _ => ⟨rfl, rfl, rfl⟩,
    fun _ hf => hf, fun _ _ => rfl, by omega⟩

theorem frame_trans {a b c : Map} (h1 : Frame a b) (h2 : Frame b c) :
    Frame a c := by
  refine ⟨h2.width_eq.trans h1.width_eq, h2.height_eq.trans h1.height_eq,
    h2.totalMines_eq.trans h1.totalMines_eq,
    h2.minesRemaining_eq.trans h1.minesRemaining_eq,
    h2.length_eq.trans h1.length_eq, ?_, ?_, ?_, ?_⟩
  · intro i
    obtain ⟨v1, m1, f1⟩ := h1.fields_eq i
    obtain ⟨v2, m2, f2⟩ := h2.fields_eq i
    exact ⟨v2.trans v1, m2.trans m1, f2.trans f1⟩
  · intro i hf
    exact h2.flipped_mono i (h1.flipped_mono i hf)
  · intro i hg
    have hg2 : (b.getTile i).flagged = true := by
      rw [(h1.fields_eq i).2.2, hg]
    rw [h2.flagged_frozen i hg2, h1.flagged_frozen i hg]
  · have d1 := h1.counter_delta
    have d2 := h2.counter_delta
    omega

theorem frame_status {m : Map} (s : Status) :
    Frame m { m with status := s } :=
  ⟨rfl, rfl, rfl, rfl, rfl, fun _ => ⟨rfl, rfl, rfl⟩,
    fun _ hf => hf, fun _ _ => rfl, rfl⟩

theorem frame_set_flipped (m : Map) (idx : Nat)
    (hidx : idx < m.tiles.length)
    (hf : (m.getTile idx).flipped = false)
    (hg : (m.getTile idx).flagged = false) :
    Frame m
      { m with tiles := m.tiles.set idx { m.getTile idx with flipped := true },
               tilesFlipped := m.tilesFlipped + 1 } := by
  have hcount := length_filter_set (fun t => t.flipped) m.tiles idx
    { m.getTile idx with flipped := true } hidx
  have hf0 : (m.tiles.getD idx default).flipped = false := hf
  have hcount' :
      (List.filter (fun t => t.flipped)
          (m.tiles.set idx { m.getTile idx with flipped := true })).length =
        (List.filter (fun t => t.flipped) m.tiles).length + 1 := by
    rw [if_neg (by simpa using hf0), if_pos (by rfl)] at hcount
    omega
  refine ⟨rfl, rfl, rfl, rfl, by simp [List.length_set], ?_, ?_, ?_, ?_⟩
  · intro i
    simp only [Map.getTile]
    by_cases hieq : idx = i
    · subst hieq
      rw [getD_set_self _ _ _ _ hidx]
      exact ⟨rfl, rfl, rfl⟩
    · rw [getD_set_ne _ _ _ _ _ hieq]
      exact ⟨rfl, rfl, rfl⟩
  · intro i hfi
    simp only [Map.getTile] at hfi ⊢
    by_cases hieq : idx = i
    · subst hieq
      rw [getD_set_self _ _ _ _ hidx]
    · rw [getD_set_ne _ _ _ _ _ hieq]
      exact hfi
  · intro i hgi
    by_cases hieq : idx = i
    · subst hieq
      rw [hgi] at hg
      cases hg
    · simp only [Map.getTile] at hgi ⊢
      rw [getD_set_ne _ _ _ _ _ hieq]
  · show m.tilesFlipped +
      (List.filter (fun t => t.flipped)
        (m.tiles.set idx { m.getTile idx with flipped := true })).length =
      m.tilesFlipped + 1 +
        (List.filter (fun t => t.flipped) m.tiles).length
    omega

theorem flipList_frame_of (n : Nat)
    (hrec : ∀ (m : Map) (p : Point), Frame m (Map.flipRecurse n m p).1) :
    ∀ (l : List Point) (m : Map), Frame m (Map.flipList n m l).1 := by
  intro l
  induction l with
  | nil => intro m; exact frame_refl m
  | cons q rest ih =>
    intro m
    rw [flipList_cons]
    exact frame_trans (hrec m q) (ih _)

theorem flipRecurse_frame :
    ∀ (fuel : Nat) (m : Map) (p : Point),
      Frame m (Map.flipRecurse fuel m p).1 := by
  intro fuel
  induction fuel with
  | zero => intro m p; exact frame_refl m
  | succ n ih =>
    intro m p
    rw [flipRecurse_succ]
    dsimp only
    split_ifs with h1 h2 h3 h4 h5
    · exact frame_refl m
    · exact frame_refl m
    · simp only [not_or, Bool.not_eq_true] at h3
      have hflip : (m.getTile (p.toIndex m.width)).flipped = false := h3.1
      have hflag : (m.getTile (p.toIndex m.width)).flagged = false := h3.2
      exact frame_trans (frame_set_flipped m _ h2 hflip hflag)
        (frame_status Status.Failed)
    · simp only [not_or, Bool.not_eq_true] at h3
      have hflip : (m.getTile (p.toIndex m.width)).flipped = false := h3.1
      have hflag : (m.getTile (p.toIndex m.width)).flagged = false := h3.2
      exact frame_set_flipped m _ h2 hflip hflag
    · simp only [not_or, Bool.not_eq_true] at h3
      have hflip : (m.getTile (p.toIndex m.width)).flipped = false := h3.1
      have hflag : (m.getTile (p.toIndex m.width)).flagged = false := h3.2
      exact frame_trans (frame_set_flipped m _ h2 hflip hflag)
        (flipList_frame_of n ih _ _)
    · exact frame_refl m

theorem flipList_frame (fuel : Nat) (l : List Point) (m : Map) :
    Frame m (Map.flipList fuel m l).1 :=
  flipList_frame_of fuel (flipRecurse_frame fuel) l m

theorem checkCompleted_cases (m : Map) :
    m.checkCompleted = m ∨
      m.checkCompleted = { m with status := Status.Complete } := by
  unfold Map.checkCompleted
  split_ifs with h1 h2
  · exact Or.inl rfl
  · exact Or.inr rfl
  · exact Or.inl rfl

theorem flip_frame (m : Map) (p : Point) : Frame m (m.flip p).1 := by
  unfold Map.flip
  dsimp only
  have hbase : ∀ m' : Map, Frame m m' → Frame m m'.checkCompleted := by
    intro m' hF
    rcases checkCompleted_cases m' with he | he
    · rw [he]; exact hF
    · rw [he]; exact frame_trans hF (frame_status Status.Complete)
  split_ifs with h1 h2 h3 h4
  · exact hbase _ (flipList_frame _ _ m)
  · exact hbase _ (frame_refl m)
  · exact hbase _ (frame_refl m)
  · exact hbase _ (flipRecurse_frame _ m p)
  · exact hbase _ (frame_refl m)

theorem inv_of_frame {m m' : Map} (hI : Inv m) (hF : Frame m m') :
    Inv m' := by
  obtain ⟨h1, h2, h3, h4⟩ := hI
  have hflagcount : flaggedCount m' = flaggedCount m := by
    unfold flaggedCount
    exact length_filter_eq_of_pointwise _ m.tiles m'.tiles hF.length_eq
      (fun i _ => (hF.fields_eq i).2.2)
  refine ⟨?_, ?_, ?_, ?_⟩
  · rw [hF.minesRemaining_eq, hF.totalMines_eq, hflagcount]
    exact h1
  · have := hF.counter_delta
    unfold flippedCount at this h2 ⊢
    omega
  · intro i hg
    have hg0 : (m.getTile i).flagged = true := by
      rw [← (hF.fields_eq i).2.2]
      exact hg
    rw [hF.flagged_frozen i hg0]
    exact h3 i hg0
  · rw [hF.length_eq, hF.width_eq, hF.height_eq]
    exact h4

theorem flip_inv {m : Map} (hI : Inv m) (p : Point) :
    Inv (m.flip p).1 :=
  inv_of_frame hI (flip_frame m p)

theorem flag_inv {m : Map} (hI : Inv m) (p : Point) :
    Inv (m.flag p) := by
  obtain ⟨h1, h2, h3, h4⟩ := hI
  unfold Map.flag
  dsimp only
  split_ifs with hs hb hf hg hr
  · exact ⟨h1, h2, h3, h4⟩
  · exact ⟨h1, h2, h3, h4⟩
  · -- unflag branch
    have hcount := length_filter_set (fun t => t.flagged) m.tiles
      (p.toIndex m.width)
      { m.tiles.getD (p.toIndex m.width) default with flagged := false } hb
    rw [if_pos (by simpa using hg), if_neg (by simp)] at hcount
    have hfcount := length_filter_set (fun t => t.flipped) m.tiles
      (p.toIndex m.width)
      { m.tiles.getD (p.toIndex m.width) default with flagged := false } hb
    refine ⟨?_, ?_, ?_, ?_⟩
    · show m.minesRemaining + 1 + flaggedCount _ = m.totalMines
      unfold flaggedCount at h1 ⊢
      dsimp only at hcount ⊢
      omega
    · show m.tilesFlipped = flippedCount _
      unfold flippedCount at h2 ⊢
      dsimp only at hfcount ⊢
      omega
    · intro i hgi
      by_cases hieq : p.toIndex m.width = i
      · subst hieq
        simp only [Map.getTile] at hgi
        rw [getD_set_self _ _ _ _ hb] at hgi
        cases hgi
      · simp only [Map.getTile] at hgi ⊢
        rw [getD_set_ne _ _ _ _ _ hieq] at hgi ⊢
        exact h3 i hgi
    · show (m.tiles.set _ _).length = m.width * m.height
      rw [List.length_set]
      exact h4
  · -- flag branch
    have hcount := length_filter_set (fun t => t.flagged) m.tiles
      (p.toIndex m.width)
      { m.tiles.getD (p.toIndex m.width) default with flagged := true } hb
    rw [if_neg (by simpa using hg), if_pos (by simp)] at hcount
    have hfcount := length_filter_set (fun t => t.flipped) m.tiles
      (p.toIndex m.width)
      { m.tiles.getD (p.toIndex m.width) default with flagged := true } hb
    refine ⟨?_, ?_, ?_, ?_⟩
    · show m.minesRemaining - 1 + flaggedCount _ = m.totalMines
      unfold flaggedCount at h1 ⊢
      dsimp only at hcount ⊢
      omega
    · show m.tilesFlipped = flippedCount _
      unfold flippedCount at h2 ⊢
      dsimp only at hfcount ⊢
      omega
    · intro i hgi
      by_cases hieq : p.toIndex m.width = i
      · subst hieq
        simp only [Map.getTile] at hgi ⊢
        rw [getD_set_self _ _ _ _ hb] at hgi ⊢
        show (m.tiles.getD (p.toIndex m.width) default).flipped = false
        simp only [Bool.not_eq_true] at hf
        exact hf
      · simp only [Map.getTile] at hgi ⊢
        rw [getD_set_ne _ _ _ _ _ hieq] at hgi ⊢
        exact h3 i hgi
    · show (m.tiles.set _ _).length = m.width * m.height
      rw [List.length_set]
      exact h4
  · exact ⟨h1, h2, h3, h4⟩
  · exact ⟨h1, h2, h3, h4⟩

theorem applyMoves_inv {m : Map} (hI : Inv m) (moves : List Move) :
    Inv (m.applyMoves moves) := by
  induction moves generalizing m with
  | nil => exact hI
  | cons mv rest ih =>
    unfold Map.applyMoves
    by_cases hk : mv.moveType = MoveType.Flip
    · rw [if_pos hk]
      exact ih (flip_inv hI mv.position)
    · rw [if_neg hk]
      exact ih (flag_inv hI mv.position)

theorem incrementNeighbours_preserve (width : Nat) :
    ∀ (l : List Point) (tiles tiles' : List Tile),
      incrementNeighbours width l tiles = some tiles' →
      ∀ i,
        (tiles'.getD i default).flagged = (tiles.getD i default).flagged ∧
        (tiles'.getD i default).flipped = (tiles.getD i default).flipped := by
  intro l
  induction l with
  | nil =>
    intro tiles tiles' h i
    simp only [incrementNeighbours, Option.some.injEq] at h
    subst h
    exact ⟨rfl, rfl⟩
  | cons q rest ih =>
    intro tiles tiles' h i
    unfold incrementNeighbours at h
    dsimp only at h
    split_ifs at h with hq
    · have hstep := ih _ _ h i
      by_cases hieq : q.toIndex width = i
      · subst hieq
        rw [getD_set_self _ _ _ _ hq] at hstep
        exact hstep
      · rw [getD_set_ne _ _ _ _ _ hieq] at hstep
        exact hstep

theorem placeMine_preserve (width height : Nat) (tiles : List Tile)
    (mine : Point) (tiles' : List Tile)
    (h : placeMine width height tiles mine = some tiles') :
    ∀ i,
      (tiles'.getD i default).flagged = (tiles.getD i default).flagged ∧
      (tiles'.getD i default).flipped = (tiles.getD i default).flipped := by
  unfold placeMine at h
  dsimp only at h
  split_ifs at h with h1 h2
  intro i
  have hstep := incrementNeighbours_preserve width _ _ _ h i
  by_cases hieq : mine.toIndex width = i
  · subst hieq
    rw [getD_set_self _ _ _ _ h2] at hstep
    exact hstep
  · rw [getD_set_ne _ _ _ _ _ hieq] at hstep
    exact hstep

theorem placeMines_preserve (width height : Nat) :
    ∀ (mines : List Point) (tiles tiles' : List Tile),
      placeMines width height mines tiles = some tiles' →
      ∀ i,
        (tiles'.getD i default).flagged = (tiles.getD i default).flagged ∧
        (tiles'.getD i default).flipped = (tiles.getD i default).flipped := by
  intro mines
  induction mines with
  | nil =>
    intro tiles tiles' h i
    simp only [placeMines, Option.some.injEq] at h
    subst h
    exact ⟨rfl, rfl⟩
  | cons mn rest ih =>
    intro tiles tiles' h i
    unfold placeMines at h
    cases hpm : placeMine width height tiles mn with
    | none =>
      rw [hpm] at h
      exact Option.noConfusion h
    | some tiles1 =>
      rw [hpm] at h
      obtain ⟨e1f, e1p⟩ := placeMine_preserve width height tiles mn tiles1 hpm i
      obtain ⟨e2f, e2p⟩ := ih tiles1 tiles' h i
      exact ⟨e2f.trans e1f, e2p.trans e1p⟩

theorem getD_replicate_flags (n i : Nat) :
    ((List.replicate n emptyTile).getD i default).flagged = false ∧
    ((List.replicate n emptyTile).getD i default).flipped = false := by
  rw [List.getD_eq_getElem?_getD, List.getElem?_replicate]
  by_cases hi : i < n
  · rw [if_pos hi]
    exact ⟨rfl, rfl⟩
  · rw [if_neg hi]
    exact ⟨rfl, rfl⟩

theorem generate_inv (w h : Nat) (mines : List Point) (b : Map)
    (hg : generateMapWithMines w h mines = some b) : Inv b := by
  unfold generateMapWithMines at hg
  cases hpl : placeMines w h mines (List.replicate (w * h) emptyTile) with
  | none =>
    rw [hpl] at hg
    exact Option.noConfusion hg
  | some tiles1 =>
    rw [hpl] at hg
    simp only [Option.map_some', Option.some.injEq] at hg
    subst hg
    have hlen : tiles1.length = w * h := by
      have := placeMines_length w h mines _ _ hpl
      simpa using this
    have hpres := placeMines_preserve w h mines _ _ hpl
    have hfilterflag :
        (tiles1.filter (fun t => t.flagged)).length = 0 := by
      have heq := length_filter_eq_of_pointwise (fun t => t.flagged)
        (List.replicate (w * h) emptyTile) tiles1
        (by simpa using hlen)
        (fun i _ => by
          simp only [(hpres i).1, (getD_replicate_flags (w * h) i).1])
      rw [heq]
      simp [List.filter_replicate, emptyTile]
    have hfilterflip :
        (tiles1.filter (fun t => t.flipped)).length = 0 := by
      have heq := length_filter_eq_of_pointwise (fun t => t.flipped)
        (List.replicate (w * h) emptyTile) tiles1
        (by simpa using hlen)
        (fun i _ => by
          simp only [(hpres i).2, (getD_replicate_flags (w * h) i).2])
      rw [heq]
      simp [List.filter_replicate, emptyTile]
    refine ⟨?_, ?_, ?_, ?_⟩
    · show mines.length + flaggedCount _ = mines.length
      unfold flaggedCount
      dsimp only
      omega
    · show 0 = flippedCount _
      unfold flippedCount
      dsimp only
      omega
    · intro i hgi
      simp only [Map.getTile] at hgi
      rw [(hpres i).1, (getD_replicate_flags (w * h) i).1] at hgi
      cases hgi
    · exact hlen

/-! ## Reach: the fan-out relation of the flood fill -/

theorem reach_trans {m : Map} {s p q : Point} (h1 : Reach m s p)
    (h2 : Reach m p q) : Reach m s q := by
  induction h2 with
  | base => exact h1
  | step hr ho hz hn ih => exact Reach.step ih ho hz hn

theorem reach_proper {m : Map} {s : Point} (hs : properPt m s) :
    ∀ {q : Point}, Reach m s q → properPt m q := by
  intro q hreach
  induction hreach with
  | base => exact hs
  | step hr ho hz hn ih =>
    exact ⟨(getNeighbours_bounds _ _ _ _ ih.1 ih.2 hn).1,
      (getNeighbours_bounds _ _ _ _ ih.1 ih.2 hn).2⟩

theorem vc_zero_nbrs {m : Map} (hvc : ValuesConsistent m) {p : Point}
    (hp : properPt m p)
    (hz : (m.getTile (p.toIndex m.width)).value = 0) :
    ∀ q ∈ getNeighbours p m.width m.height,
      (m.getTile (q.toIndex m.width)).mine = false := by
  intro q hq
  obtain ⟨hlen, hval⟩ := hvc
  have hi : p.toIndex m.width < m.tiles.length := by
    rw [hlen]
    exact toIndex_lt p m.width m.height hp.1 hp.2
  have hv := hval _ hi
  rw [hz, fromIndex_toIndex p m.width hp.1] at hv
  have hnil : (getNeighbours p m.width m.height).filter
      (fun q => (m.getTile (q.toIndex m.width)).mine) = [] :=
    List.length_eq_zero.mp hv.symm
  have hnot := List.filter_eq_nil_iff.mp hnil q hq
  simpa using hnot

theorem reach_nonmine {m : Map} {s : Point} (hvc : ValuesConsistent m)
    (hs : properPt m s) :
    (m.getTile (s.toIndex m.width)).mine = false →
    ∀ {q : Point}, Reach m s q →
      (m.getTile (q.toIndex m.width)).mine = false := by
  intro hnm q hreach
  induction hreach with
  | base => exact hnm
  | step hr ho hz hn _ =>
    exact vc_zero_nbrs hvc (reach_proper hs hr) hz _ hn

theorem reach_mono {m m' : Map} (hF : Frame m m') {s q : Point}
    (hreach : Reach m' s q) : Reach m s q := by
  induction hreach with
  | base => exact Reach.base
  | step hr ho hz hn ih =>
    rw [OpenAt, hF.width_eq] at ho
    rw [hF.width_eq] at hz
    rw [hF.width_eq, hF.height_eq] at hn
    obtain ⟨ho1, ho2⟩ := ho
    refine Reach.step ih ⟨?_, ?_⟩ ?_ hn
    · by_contra hc
      rw [Bool.not_eq_false] at hc
      rw [hF.flipped_mono _ hc] at ho1
      cases ho1
    · rw [← (hF.fields_eq _).2.2]
      exact ho2
    · rw [← (hF.fields_eq _).1]
      exact hz

theorem vc_of_frame {m m' : Map} (hF : Frame m m')
    (hvc : ValuesConsistent m) : ValuesConsistent m' := by
  obtain ⟨hlen, hval⟩ := hvc
  refine ⟨by rw [hF.length_eq, hF.width_eq, hF.height_eq]; exact hlen, ?_⟩
  intro i hi
  rw [hF.length_eq] at hi
  rw [(hF.fields_eq i).1, hF.width_eq, hF.height_eq, hval i hi]
  congr 1
  apply List.filter_congr
  intro q _
  exact ((hF.fields_eq (q.toIndex m.width)).2.1).symm

/-! ## More counting lemmas -/

theorem length_filter_le_of_pointwise (p q : Tile → Bool) :
    ∀ (l l' : List Tile), l'.length = l.length →
      (∀ i, i < l.length →
        p (l'.getD i default) = true → q (l.getD i default) = true) →
      (l'.filter p).length ≤ (l.filter q).length := by
  intro l
  induction l with
  | nil =>
    intro l' hlen _
    rw [List.length_eq_zero.mp hlen]
    simp
  | cons a tail ih =>
    intro l' hlen hpt
    cases l' with
    | nil => simp at hlen
    | cons b tail' =>
      simp only [List.length_cons] at hlen
      have hhead := hpt 0 (by simp)
      simp only [List.getD_cons_zero] at hhead
      have htail : ∀ i, i < tail.length →
          p (tail'.getD i default) = true →
          q (tail.getD i default) = true := by
        intro i hi hp
        have := hpt (i + 1) (by simp only [List.length_cons]; omega)
        simp only [List.getD_cons_succ] at this
        exact this hp
      have hle := ih tail' (by omega) htail
      simp only [List.filter_cons]
      by_cases hpb : p b = true
      · rw [if_pos hpb, if_pos (hhead hpb)]
        simp only [List.length_cons]
        omega
      · rw [if_neg hpb]
        by_cases hqa : q a = true
        · rw [if_pos hqa]
          simp only [List.length_cons]
          omega
        · rw [if_neg hqa]
          exact hle

theorem length_filter_all (p : Tile → Bool) :
    ∀ (l : List Tile),
      (∀ i, i < l.length → p (l.getD i default) = true) →
      (l.filter p).length = l.length := by
  intro l
  induction l with
  | nil => intro _; rfl
  | cons a tail ih =>
    intro hall
    have h0 := hall 0 (by simp)
    simp only [List.getD_cons_zero] at h0
    have htail : ∀ i, i < tail.length → p (tail.getD i default) = true := by
      intro i hi
      have := hall (i + 1) (by simp only [List.length_cons]; omega)
      simpa only [List.getD_cons_succ] using this
    simp only [List.filter_cons, if_pos h0, List.length_cons]
    rw [ih htail]

theorem unflipped_mono_of_frame {m m' : Map} (hF : Frame m m') :
    unflippedCount m' ≤ unflippedCount m := by
  unfold unflippedCount
  apply length_filter_le_of_pointwise _ _ m.tiles m'.tiles hF.length_eq
  intro i _ hp
  simp only [decide_eq_true_eq] at hp ⊢
  intro hc
  exact hp (hF.flipped_mono i hc)

theorem unflippedCount_pos (m : Map) (idx : Nat)
    (hidx : idx < m.tiles.length)
    (hf : (m.getTile idx).flipped = false) : 0 < unflippedCount m := by
  unfold unflippedCount
  have hmem : m.tiles.getD idx default ∈ m.tiles := by
    rw [List.getD_eq_getElem _ _ hidx]
    exact List.getElem_mem _
  have hmf : m.tiles.getD idx default ∈
      m.tiles.filter (fun t => ¬t.flipped) := by
    rw [List.mem_filter]
    refine ⟨hmem, ?_⟩
    have hf' : (m.tiles.getD idx default).flipped = false := hf
    simpa using hf'
  exact List.length_pos.mpr (List.ne_nil_of_mem hmf)

theorem unflipped_set_flipped (m : Map) (idx : Nat)
    (hidx : idx < m.tiles.length)
    (hf : (m.getTile idx).flipped = false) :
    unflippedCount
        { m with
          tiles := m.tiles.set idx { m.getTile idx with flipped := true },
          tilesFlipped := m.tilesFlipped + 1 } + 1 =
      unflippedCount m := by
  have hcount := length_filter_set (fun t => ¬t.flipped) m.tiles idx
    { m.getTile idx with flipped := true } hidx
  have hf' : (m.tiles.getD idx default).flipped = false := hf
  dsimp only at hcount
  rw [if_pos (by simpa using hf'), if_neg (by simp)] at hcount
  unfold unflippedCount
  dsimp only
  omega

theorem getD_replicate_zero (n i : Nat) :
    ((List.replicate n emptyTile).getD i default).value = 0 ∧
    ((List.replicate n emptyTile).getD i default).mine = false := by
  rw [List.getD_eq_getElem?_getD, List.getElem?_replicate]
  by_cases hi : i < n
  · rw [if_pos hi]
    exact ⟨rfl, rfl⟩
  · rw [if_neg hi]
    exact ⟨rfl, rfl⟩

/-! ## Soundness of the flood fill -/

theorem flipRecurse_flips (fuel : Nat) (m : Map) (p : Point)
    (hst : m.status = Status.InProgress)
    (hidx : p.toIndex m.width < m.tiles.length)
    (hflip : (m.getTile (p.toIndex m.width)).flipped = false)
    (hflag : (m.getTile (p.toIndex m.width)).flagged = false) :
    ((Map.flipRecurse (fuel + 1) m p).1.getTile
      (p.toIndex m.width)).flipped = true := by
  have hflip' : (m.tiles.getD (p.toIndex m.width) default).flipped
      = false := hflip
  have hflag' : (m.tiles.getD (p.toIndex m.width) default).flagged
      = false := hflag
  rw [flipRecurse_succ]
  dsimp only
  rw [if_neg (by simp [hst]), if_pos hidx,
    if_neg (by simp only [not_or, Bool.not_eq_true]; exact ⟨hflip', hflag'⟩)]
  split_ifs with hm hv
  · show ((m.tiles.set _ _).getD _ default).flipped = true
    rw [getD_set_self _ _ _ _ hidx]
  · show ((m.tiles.set _ _).getD _ default).flipped = true
    rw [getD_set_self _ _ _ _ hidx]
  · have hm1 : (({ m with
        tiles := m.tiles.set (p.toIndex m.width)
          { m.tiles.getD (p.toIndex m.width) default with flipped := true },
        tilesFlipped := m.tilesFlipped + 1 } : Map).getTile
          (p.toIndex m.width)).flipped = true := by
      simp only [Map.getTile]
      rw [getD_set_self _ _ _ _ hidx]
    exact (flipList_frame fuel _ _).flipped_mono _ hm1

theorem flipList_sound_of (n : Nat)
    (hrec : ∀ (m : Map) (p : Point),
      m.status = Status.InProgress → ValuesConsistent m →
      properPt m p →
      (m.getTile (p.toIndex m.width)).mine = false →
      ((Map.flipRecurse n m p).1.status = Status.InProgress ∧
        ∀ q : Point, properPt m q →
          ((Map.flipRecurse n m p).1.getTile
            (q.toIndex m.width)).flipped = true →
          (m.getTile (q.toIndex m.width)).flipped = true ∨
            (Reach m p q ∧
              (m.getTile (q.toIndex m.width)).flagged = false)))
    (m0 : Map) (s : Point) (hvc0 : ValuesConsistent m0) :
    ∀ (l : List Point) (m : Map), Frame m0 m →
      m.status = Status.InProgress →
      (∀ r ∈ l, properPt m0 r ∧
        (m0.getTile (r.toIndex m0.width)).mine = false ∧ Reach m0 s r) →
      ((Map.flipList n m l).1.status = Status.InProgress ∧
        ∀ q : Point, properPt m0 q →
          ((Map.flipList n m l).1.getTile
            (q.toIndex m0.width)).flipped = true →
          (m.getTile (q.toIndex m0.width)).flipped = true ∨
            (Reach m0 s q ∧
              (m0.getTile (q.toIndex m0.width)).flagged = false)) := by
  intro l
  induction l with
  | nil =>
    intro m hF hst _
    rw [flipList_nil]
    exact ⟨hst, fun q _ hq => Or.inl hq⟩
  | cons r rest ih =>
    intro m hF hst hl
    obtain ⟨hrp, hrm, hrs⟩ := hl r (List.mem_cons_self r rest)
    have hrp' : properPt m r :=
      ⟨by rw [hF.width_eq]; exact hrp.1,
       by rw [hF.height_eq]; exact hrp.2⟩
    have hrm' : (m.getTile (r.toIndex m.width)).mine = false := by
      rw [hF.width_eq, (hF.fields_eq _).2.1]
      exact hrm
    have hvc : ValuesConsistent m := vc_of_frame hF hvc0
    have hr := hrec m r hst hvc hrp' hrm'
    have hF1 : Frame m0 (Map.flipRecurse n m r).1 :=
      frame_trans hF (flipRecurse_frame n m r)
    have hIH := ih (Map.flipRecurse n m r).1 hF1 hr.1
      (fun x hx => hl x (List.mem_cons_of_mem r hx))
    rw [flipList_cons]
    dsimp only
    refine ⟨hIH.1, ?_⟩
    intro q hq hflip
    rcases hIH.2 q hq hflip with h1 | h1
    · have hq' : properPt m q :=
        ⟨by rw [hF.width_eq]; exact hq.1,
         by rw [hF.height_eq]; exact hq.2⟩
      rw [← hF.width_eq] at h1
      rcases hr.2 q hq' h1 with h2 | h2
      · left
        rw [← hF.width_eq]
        exact h2
      · right
        obtain ⟨hre, hfl⟩ := h2
        refine ⟨reach_trans hrs (reach_mono hF hre), ?_⟩
        rw [hF.width_eq, (hF.fields_eq _).2.2] at hfl
        exact hfl
    · exact Or.inr h1

theorem flipRecurse_sound :
    ∀ (fuel : Nat) (m : Map) (p : Point),
      m.status = Status.InProgress → ValuesConsistent m →
      properPt m p →
      (m.getTile (p.toIndex m.width)).mine = false →
      ((Map.flipRecurse fuel m p).1.status = Status.InProgress ∧
        ∀ q : Point, properPt m q →
          ((Map.flipRecurse fuel m p).1.getTile
            (q.toIndex m.width)).flipped = true →
          (m.getTile (q.toIndex m.width)).flipped = true ∨
            (Reach m p q ∧
              (m.getTile (q.toIndex m.width)).flagged = false)) := by
  intro fuel
  induction fuel with
  | zero =>
    intro m p hst _ _ _
    exact ⟨hst, fun q _ hq => Or.inl hq⟩
  | succ n ih =>
    intro m p hst hvc hp hnm
    have hidx : p.toIndex m.width < m.tiles.length := by
      rw [hvc.1]
      exact toIndex_lt p m.width m.height hp.1 hp.2
    have hnm' : (m.tiles.getD (p.toIndex m.width) default).mine
        = false := hnm
    rw [flipRecurse_succ]
    dsimp only
    rw [if_neg (by simp [hst]), if_pos hidx]
    by_cases hob :
        (m.tiles.getD (p.toIndex m.width) default).flipped = true ∨
        (m.tiles.getD (p.toIndex m.width) default).flagged = true
    · rw [if_pos hob]
      exact ⟨hst, fun q _ hq => Or.inl hq⟩
    · rw [if_neg hob]
      have hob' := hob
      simp only [not_or, Bool.not_eq_true] at hob'
      obtain ⟨hof, hog⟩ := hob'
      rw [if_neg (by simp only [Bool.not_eq_true]; exact hnm')]
      by_cases hv : (m.tiles.getD (p.toIndex m.width) default).value ≠ 0
      · rw [if_pos hv]
        refine ⟨hst, ?_⟩
        intro q hq hflip
        by_cases hqi : p.toIndex m.width = q.toIndex m.width
        · have hqp : q = p := toIndex_inj q p m.width hq.1 hp.1 hqi.symm
          subst hqp
          exact Or.inr ⟨Reach.base, hog⟩
        · left
          simp only [Map.getTile] at hflip ⊢
          rw [getD_set_ne _ _ _ _ _ hqi] at hflip
          exact hflip
      · rw [if_neg hv]
        have hv0 : (m.getTile (p.toIndex m.width)).value = 0 :=
          not_not.mp hv
        have hFrame := frame_set_flipped m (p.toIndex m.width) hidx hof hog
        have hconds : ∀ r ∈ getNeighbours p m.width m.height,
            properPt m r ∧
            (m.getTile (r.toIndex m.width)).mine = false ∧
            Reach m p r := by
          intro r hrmem
          have hb := getNeighbours_bounds p r m.width m.height hp.1 hp.2 hrmem
          exact ⟨⟨hb.1, hb.2⟩, vc_zero_nbrs hvc hp hv0 r hrmem,
            Reach.step Reach.base ⟨hof, hog⟩ hv0 hrmem⟩
        have hsound := flipList_sound_of n ih m p hvc
          (getNeighbours p m.width m.height)
          { m with
            tiles := m.tiles.set (p.toIndex m.width)
              { m.tiles.getD (p.toIndex m.width) default with
                  flipped := true },
            tilesFlipped := m.tilesFlipped + 1 }
          hFrame hst hconds
        refine ⟨hsound.1, ?_⟩
        intro q hq hflip
        rcases hsound.2 q hq hflip with h1 | h1
        · by_cases hqi : p.toIndex m.width = q.toIndex m.width
          · have hqp : q = p := toIndex_inj q p m.width hq.1 hp.1 hqi.symm
            subst hqp
            exact Or.inr ⟨Reach.base, hog⟩
          · left
            simp only [Map.getTile] at h1 ⊢
            rw [getD_set_ne _ _ _ _ _ hqi] at h1
            exact h1
        · exact Or.inr h1

/-! ## Saturation of the flood fill -/

theorem flipList_saturate_of (n : Nat)
    (hrec : ∀ (m : Map) (p : Point),
      m.status = Status.InProgress → ValuesConsistent m →
      properPt m p →
      (m.getTile (p.toIndex m.width)).mine = false →
      unflippedCount m < n →
      ∀ z : Point, properPt m z →
        ((Map.flipRecurse n m p).1.getTile
          (z.toIndex m.width)).flipped = true →
        (m.getTile (z.toIndex m.width)).flipped = false →
        (m.getTile (z.toIndex m.width)).value = 0 →
        ∀ r ∈ getNeighbours z m.width m.height,
          (m.getTile (r.toIndex m.width)).flagged = false →
          ((Map.flipRecurse n m p).1.getTile
            (r.toIndex m.width)).flipped = true)
    (m0 : Map) (hvc0 : ValuesConsistent m0) :
    ∀ (l : List Point) (m : Map), Frame m0 m →
      m.status = Status.InProgress →
      (∀ r ∈ l, properPt m0 r ∧
        (m0.getTile (r.toIndex m0.width)).mine = false) →
      unflippedCount m < n →
      ((∀ r ∈ l, (m0.getTile (r.toIndex m0.width)).flagged = false →
          ((Map.flipList n m l).1.getTile
            (r.toIndex m0.width)).flipped = true) ∧
        ∀ z : Point, properPt m0 z →
          ((Map.flipList n m l).1.getTile
            (z.toIndex m0.width)).flipped = true →
          (m.getTile (z.toIndex m0.width)).flipped = false →
          (m0.getTile (z.toIndex m0.width)).value = 0 →
          ∀ r ∈ getNeighbours z m0.width m0.height,
            (m0.getTile (r.toIndex m0.width)).flagged = false →
            ((Map.flipList n m l).1.getTile
              (r.toIndex m0.width)).flipped = true) := by
  intro l
  induction l with
  | nil =>
    intro m _ _ _ _
    rw [flipList_nil]
    dsimp only
    constructor
    · intro r hr
      exact absurd hr (List.not_mem_nil r)
    · intro z _ hflz hnfz _ r _ _
      rw [hnfz] at hflz
      exact Bool.noConfusion hflz
  | cons a rest ih =>
    intro m hF hst hl hbud
    obtain ⟨hap0, ham0⟩ := hl a (List.mem_cons_self a rest)
    have hap : properPt m a :=
      ⟨by rw [hF.width_eq]; exact hap0.1,
       by rw [hF.height_eq]; exact hap0.2⟩
    have ham : (m.getTile (a.toIndex m.width)).mine = false := by
      rw [hF.width_eq, (hF.fields_eq _).2.1]
      exact ham0
    have hvc : ValuesConsistent m := vc_of_frame hF hvc0
    have hsound := flipRecurse_sound n m a hst hvc hap ham
    have hF1 : Frame m (Map.flipRecurse n m a).1 := flipRecurse_frame n m a
    have hF01 : Frame m0 (Map.flipRecurse n m a).1 := frame_trans hF hF1
    have hbud1 : unflippedCount (Map.flipRecurse n m a).1 < n :=
      Nat.lt_of_le_of_lt (unflipped_mono_of_frame hF1) hbud
    have hIH := ih (Map.flipRecurse n m a).1 hF01 hsound.1
      (fun x hx => hl x (List.mem_cons_of_mem a hx)) hbud1
    rw [flipList_cons]
    dsimp only
    have hFL : Frame (Map.flipRecurse n m a).1
        (Map.flipList n (Map.flipRecurse n m a).1 rest).1 :=
      flipList_frame n rest (Map.flipRecurse n m a).1
    constructor
    · intro r hrm hrflag
      rcases List.mem_cons.mp hrm with rfl | hrrest
      · have hrflag' : (m.getTile (r.toIndex m.width)).flagged = false := by
          rw [hF.width_eq, (hF.fields_eq _).2.2]
          exact hrflag
        have hidxa : r.toIndex m.width < m.tiles.length := by
          rw [hvc.1]
          exact toIndex_lt r m.width m.height hap.1 hap.2
        by_cases haf : (m.getTile (r.toIndex m.width)).flipped = true
        · have h2 := hFL.flipped_mono _ (hF1.flipped_mono _ haf)
          rw [← hF.width_eq]
          exact h2
        · have haf' : (m.getTile (r.toIndex m.width)).flipped = false := by
            simp only [Bool.not_eq_true] at haf
            exact haf
          obtain ⟨k, rfl⟩ : ∃ k, n = k + 1 := by
            have hpos := unflippedCount_pos m (r.toIndex m.width) hidxa haf'
            exact ⟨n - 1, by omega⟩
          have hfl := flipRecurse_flips k m r hst hidxa haf' hrflag'
          have h2 := hFL.flipped_mono _ hfl
          rw [← hF.width_eq]
          exact h2
      · exact hIH.1 r hrrest hrflag
    · intro z hz hflz hnfz hzv r hrmem hrflag
      by_cases hz1 : ((Map.flipRecurse n m a).1.getTile
          (z.toIndex m0.width)).flipped = true
      · have hz' : properPt m z :=
          ⟨by rw [hF.width_eq]; exact hz.1,
           by rw [hF.height_eq]; exact hz.2⟩
        have hz1m : ((Map.flipRecurse n m a).1.getTile
            (z.toIndex m.width)).flipped = true := by
          rw [hF.width_eq]
          exact hz1
        have hnfzm : (m.getTile (z.toIndex m.width)).flipped = false := by
          rw [hF.width_eq]
          exact hnfz
        have hzvm : (m.getTile (z.toIndex m.width)).value = 0 := by
          rw [hF.width_eq, (hF.fields_eq _).1]
          exact hzv
        have hrmemm : r ∈ getNeighbours z m.width m.height := by
          rw [hF.width_eq, hF.height_eq]
          exact hrmem
        have hrflagm : (m.getTile (r.toIndex m.width)).flagged = false := by
          rw [hF.width_eq, (hF.fields_eq _).2.2]
          exact hrflag
        have hres := hrec m a hst hvc hap ham hbud z hz' hz1m hnfzm hzvm
          r hrmemm hrflagm
        have h2 := hFL.flipped_mono _ hres
        rw [← hF.width_eq]
        exact h2
      · have hz1' : ((Map.flipRecurse n m a).1.getTile
            (z.toIndex m0.width)).flipped = false := by
          simp only [Bool.not_eq_true] at hz1
          exact hz1
        exact hIH.2 z hz hflz hz1' hzv r hrmem hrflag

theorem flipRecurse_saturate :
    ∀ (fuel : Nat) (m : Map) (p : Point),
      m.status = Status.InProgress → ValuesConsistent m →
      properPt m p →
      (m.getTile (p.toIndex m.width)).mine = false →
      unflippedCount m < fuel →
      ∀ z : Point, properPt m z →
        ((Map.flipRecurse fuel m p).1.getTile
          (z.toIndex m.width)).flipped = true →
        (m.getTile (z.toIndex m.width)).flipped = false →
        (m.getTile (z.toIndex m.width)).value = 0 →
        ∀ r ∈ getNeighbours z m.width m.height,
          (m.getTile (r.toIndex m.width)).flagged = false →
          ((Map.flipRecurse fuel m p).1.getTile
            (r.toIndex m.width)).flipped = true := by
  intro fuel
  induction fuel with
  | zero =>
    intro m p _ _ _ _ hbud
    exact absurd hbud (Nat.not_lt_zero _)
  | succ n ih =>
    intro m p hst hvc hp hnm hbud z hz hflz hnfz hzv r hrmem hrflag
    have hidx : p.toIndex m.width < m.tiles.length := by
      rw [hvc.1]
      exact toIndex_lt p m.width m.height hp.1 hp.2
    have hnm' : (m.tiles.getD (p.toIndex m.width) default).mine
        = false := hnm
    rw [flipRecurse_succ] at hflz ⊢
    dsimp only at hflz ⊢
    rw [if_neg (by simp [hst]), if_pos hidx] at hflz ⊢
    by_cases hob :
        (m.tiles.getD (p.toIndex m.width) default).flipped = true ∨
        (m.tiles.getD (p.toIndex m.width) default).flagged = true
    · rw [if_pos hob] at hflz ⊢
      dsimp only at hflz
      rw [hnfz] at hflz
      exact Bool.noConfusion hflz
    · rw [if_neg hob] at hflz ⊢
      have hob' := hob
      simp only [not_or, Bool.not_eq_true] at hob'
      obtain ⟨hof, hog⟩ := hob'
      rw [if_neg (by simp only [Bool.not_eq_true]; exact hnm')] at hflz ⊢
      by_cases hv : (m.tiles.getD (p.toIndex m.width) default).value ≠ 0
      · rw [if_pos hv] at hflz ⊢
        dsimp only at hflz
        by_cases hqi : p.toIndex m.width = z.toIndex m.width
        · rw [← hqi] at hzv
          exact absurd hzv hv
        · simp only [Map.getTile] at hflz
          rw [getD_set_ne _ _ _ _ _ hqi] at hflz
          have hnfz' : (m.tiles.getD (z.toIndex m.width) default).flipped
              = false := hnfz
          rw [hnfz'] at hflz
          exact Bool.noConfusion hflz
      · rw [if_neg hv] at hflz ⊢
        have hv0 : (m.getTile (p.toIndex m.width)).value = 0 :=
          not_not.mp hv
        have hFrame := frame_set_flipped m (p.toIndex m.width) hidx hof hog
        have hbud1 : unflippedCount
            { m with
              tiles := m.tiles.set (p.toIndex m.width)
                { m.getTile (p.toIndex m.width) with flipped := true },
              tilesFlipped := m.tilesFlipped + 1 } < n := by
          have hset := unflipped_set_flipped m (p.toIndex m.width) hidx hof
          omega
        have hconds : ∀ x ∈ getNeighbours p m.width m.height,
            properPt m x ∧
            (m.getTile (x.toIndex m.width)).mine = false := by
          intro x hx
          have hb := getNeighbours_bounds p x m.width m.height hp.1 hp.2 hx
          exact ⟨⟨hb.1, hb.2⟩, vc_zero_nbrs hvc hp hv0 x hx⟩
        have hlist := flipList_saturate_of n ih m hvc
          (getNeighbours p m.width m.height)
          { m with
            tiles := m.tiles.set (p.toIndex m.width)
              { m.getTile (p.toIndex m.width) with flipped := true },
            tilesFlipped := m.tilesFlipped + 1 }
          hFrame hst hconds hbud1
        by_cases hqi : p.toIndex m.width = z.toIndex m.width
        · have hzp : z = p := toIndex_inj z p m.width hz.1 hp.1 hqi.symm
          subst hzp
          exact hlist.1 r hrmem hrflag
        · have hnfzM1 : (({ m with
              tiles := m.tiles.set (p.toIndex m.width)
                { m.getTile (p.toIndex m.width) with flipped := true },
              tilesFlipped := m.tilesFlipped + 1 } : Map).getTile
                (z.toIndex m.width)).flipped = false := by
            simp only [Map.getTile]
            rw [getD_set_ne _ _ _ _ _ hqi]
            exact hnfz
          exact hlist.2 z hz hflz hnfzM1 hzv r hrmem hrflag

/-! ## Completeness of the flood fill and the `flip` characterization -/

theorem flipRecurse_complete (m : Map) (p : Point)
    (hst : m.status = Status.InProgress) (hvc : ValuesConsistent m)
    (hp : properPt m p) (hopen : OpenAt m p)
    (hnm : (m.getTile (p.toIndex m.width)).mine = false)
    (fuel : Nat) (hbud : unflippedCount m < fuel) :
    ∀ q : Point, Reach m p q →
      (m.getTile (q.toIndex m.width)).flagged = false →
      ((Map.flipRecurse fuel m p).1.getTile
        (q.toIndex m.width)).flipped = true := by
  intro q hreach
  induction hreach with
  | base =>
    intro hqflag
    have hidx : p.toIndex m.width < m.tiles.length := by
      rw [hvc.1]
      exact toIndex_lt p m.width m.height hp.1 hp.2
    obtain ⟨k, rfl⟩ : ∃ k, fuel = k + 1 := by
      have hpos := unflippedCount_pos m (p.toIndex m.width) hidx hopen.1
      exact ⟨fuel - 1, by omega⟩
    exact flipRecurse_flips k m p hst hidx hopen.1 hqflag
  | step hr ho hz hn ih =>
    intro hqflag
    exact flipRecurse_saturate fuel m p hst hvc hp hnm hbud _
      (reach_proper hp hr) (ih ho.2) ho.1 hz _ hn hqflag

theorem checkCompleted_getTile (m : Map) (i : Nat) :
    m.checkCompleted.getTile i = m.getTile i := by
  rcases checkCompleted_cases m with he | he
  · rw [he]
  · rw [he]
    rfl

theorem flip_open_eq (m : Map) (p : Point)
    (hidx : p.toIndex m.width < m.tiles.length)
    (hflip : (m.getTile (p.toIndex m.width)).flipped = false)
    (hflag : (m.getTile (p.toIndex m.width)).flagged = false) :
    (m.flip p).1 =
      (Map.flipRecurse (m.tiles.length + 1) m p).1.checkCompleted := by
  have hflip' : (m.tiles.getD (p.toIndex m.width) default).flipped
      = false := hflip
  have hflag' : (m.tiles.getD (p.toIndex m.width) default).flagged
      = false := hflag
  unfold Map.flip
  dsimp only
  rw [if_pos hidx,
    if_neg (by simp only [Bool.not_eq_true]; exact hflip'),
    if_pos (by simp only [Bool.not_eq_true]; exact hflag')]

theorem flip_characterization (m : Map) (s : Point)
    (hst : m.status = Status.InProgress) (hvc : ValuesConsistent m)
    (hs : properPt m s) (hopen : OpenAt m s)
    (hnm : (m.getTile (s.toIndex m.width)).mine = false) :
    ∀ q : Point, properPt m q →
      (((m.flip s).1.getTile (q.toIndex m.width)).flipped = true ↔
        ((m.getTile (q.toIndex m.width)).flipped = true ∨
          (Reach m s q ∧
            (m.getTile (q.toIndex m.width)).flagged = false))) := by
  intro q hq
  have hidx : s.toIndex m.width < m.tiles.length := by
    rw [hvc.1]
    exact toIndex_lt s m.width m.height hs.1 hs.2
  have hbud : unflippedCount m < m.tiles.length + 1 := by
    have hle := List.length_filter_le (fun t => ¬t.flipped) m.tiles
    unfold unflippedCount
    omega
  rw [flip_open_eq m s hidx hopen.1 hopen.2, checkCompleted_getTile]
  constructor
  · intro hflip
    exact (flipRecurse_sound (m.tiles.length + 1) m s hst hvc hs hnm).2
      q hq hflip
  · intro hcase
    rcases hcase with h1 | ⟨h1, h2⟩
    · exact (flipRecurse_frame _ m s).flipped_mono _ h1
    · exact flipRecurse_complete m s hst hvc hs hopen hnm _ hbud q h1 h2

/-! ## Completion machinery (claim C5) -/

theorem flag_status (m : Map) (p : Point) :
    (m.flag p).status = m.status := by
  unfold Map.flag
  dsimp only
  split_ifs <;> rfl

theorem checkCompleted_complete_iff (m : Map) :
    m.checkCompleted.status = Status.Complete ↔
      (m.status = Status.Complete ∨
        (m.status = Status.InProgress ∧
          m.tilesFlipped + m.totalMines = m.tiles.length)) := by
  unfold Map.checkCompleted
  split_ifs with h1 h2
  · constructor
    · intro hc
      exact Or.inl hc
    · rintro (hc | ⟨hi, _⟩)
      · exact hc
      · exact absurd hi h1
  · have hi : m.status = Status.InProgress := not_not.mp h1
    constructor
    · intro _
      exact Or.inr ⟨hi, h2⟩
    · intro _
      rfl
  · have hi : m.status = Status.InProgress := not_not.mp h1
    rw [hi]
    constructor
    · intro hc
      exact Or.inl hc
    · rintro (hc | ⟨_, hc2⟩)
      · exact hc
      · exact absurd hc2 h2

/-- On a board where every in-bounds tile is open and has value 0, the
fan-out relation reaches every in-bounds tile (the 8-neighbourhood
grid is connected). -/
theorem reach_all_of_all_zero_open (m : Map) (s : Point)
    (hall : ∀ q : Point, properPt m q →
      OpenAt m q ∧ (m.getTile (q.toIndex m.width)).value = 0)
    (hs : properPt m s) :
    ∀ q : Point, properPt m q → Reach m s q := by
  obtain ⟨sx, sy⟩ := s
  have hsx : sx < m.width := hs.1
  have hsy : sy < m.height := hs.2
  suffices haux : ∀ (d qx qy : Nat), qx < m.width → qy < m.height →
      (sx - qx) + (qx - sx) + ((sy - qy) + (qy - sy)) ≤ d →
      Reach m ⟨sx, sy⟩ ⟨qx, qy⟩ by
    intro q hq
    obtain ⟨qx, qy⟩ := q
    exact haux _ qx qy hq.1 hq.2 le_rfl
  intro d
  induction d with
  | zero =>
    intro qx qy _ _ hd
    have hx : qx = sx := by omega
    have hy : qy = sy := by omega
    rw [hx, hy]
    exact Reach.base
  | succ n ihd =>
    intro qx qy hqx hqy hd
    by_cases hxeq : qx = sx
    · by_cases hyeq : qy = sy
      · rw [hxeq, hyeq]
        exact Reach.base
      · have hy' : (if qy < sy then qy + 1 else qy - 1) < m.height := by
          split_ifs <;> omega
        have hstep := ihd qx (if qy < sy then qy + 1 else qy - 1) hqx hy'
          (by split_ifs <;> omega)
        have hprop : properPt m
            ⟨qx, if qy < sy then qy + 1 else qy - 1⟩ := ⟨hqx, hy'⟩
        have hmem : (⟨qx, qy⟩ : Point) ∈ getNeighbours
            ⟨qx, if qy < sy then qy + 1 else qy - 1⟩
            m.width m.height := by
          rw [mem_getNeighbours_proper _ _ _ _ hprop.1 hprop.2]
          dsimp only
          refine ⟨hqx, hqy, ?_, ?_, ?_, ?_, ?_⟩
          · rintro ⟨_, h2⟩
            split_ifs at h2 <;> omega
          · omega
          · omega
          · split_ifs <;> omega
          · split_ifs <;> omega
        exact Reach.step hstep (hall _ hprop).1 (hall _ hprop).2 hmem
    · have hx' : (if qx < sx then qx + 1 else qx - 1) < m.width := by
        split_ifs <;> omega
      have hstep := ihd (if qx < sx then qx + 1 else qx - 1) qy hx' hqy
        (by split_ifs <;> omega)
      have hprop : properPt m
          ⟨if qx < sx then qx + 1 else qx - 1, qy⟩ := ⟨hx', hqy⟩
      have hmem : (⟨qx, qy⟩ : Point) ∈ getNeighbours
          ⟨if qx < sx then qx + 1 else qx - 1, qy⟩ m.width m.height := by
        rw [mem_getNeighbours_proper _ _ _ _ hprop.1 hprop.2]
        dsimp only
        refine ⟨hqx, hqy, ?_, ?_, ?_, ?_, ?_⟩
        · rintro ⟨h1, _⟩
          split_ifs at h1 <;> omega
        · split_ifs <;> omega
        · split_ifs <;> omega
        · omega
        · omega
      exact Reach.step hstep (hall _ hprop).1 (hall _ hprop).2 hmem

theorem generate_empty (w h : Nat) :
    generateMapWithMines w h [] =
      some { width := w, height := h, totalMines := 0,
             minesRemaining := 0, tilesFlipped := 0,
             status := Status.InProgress,
             tiles := List.replicate (w * h) emptyTile } := rfl

theorem flip_completes_empty (w h : Nat) (b : Map) (p : Point)
    (hg : generateMapWithMines w h [] = some b) (hp : properPt b p) :
    (b.flip p).1.status = Status.Complete := by
  have hb : b =
      { width := w, height := h, totalMines := 0,
        minesRemaining := 0, tilesFlipped := 0,
        status := Status.InProgress,
        tiles := List.replicate (w * h) emptyTile } := by
    have hg' := hg
    rw [generate_empty] at hg'
    injection hg' with hb'
    exact hb'.symm
  have hw : b.width = w := by rw [hb]
  have hh : b.height = h := by rw [hb]
  have hlen : b.tiles.length = w * h := by
    rw [hb]
    exact List.length_replicate _ _
  have hst : b.status = Status.InProgress := by rw [hb]
  have htm : b.totalMines = 0 := by rw [hb]
  have htiles : ∀ i, b.getTile i =
      (List.replicate (w * h) emptyTile).getD i default := by
    intro i
    rw [hb]
    rfl
  have hall : ∀ q : Point, properPt b q →
      OpenAt b q ∧ (b.getTile (q.toIndex b.width)).value = 0 := by
    intro q _
    refine ⟨⟨?_, ?_⟩, ?_⟩
    · rw [htiles]
      exact (getD_replicate_flags _ _).2
    · rw [htiles]
      exact (getD_replicate_flags _ _).1
    · rw [htiles]
      exact (getD_replicate_zero _ _).1
  have hnm : ∀ q : Point, (b.getTile (q.toIndex b.width)).mine = false := by
    intro q
    rw [htiles]
    exact (getD_replicate_zero _ _).2
  have hvc : ValuesConsistent b := by
    refine ⟨by rw [hlen, hw, hh], ?_⟩
    intro i hi
    rw [htiles, (getD_replicate_zero _ _).1, hw, hh]
    symm
    rw [List.length_eq_zero]
    apply List.filter_eq_nil_iff.mpr
    intro x _
    show ¬((b.getTile (x.toIndex w)).mine = true)
    have := htiles (x.toIndex w)
    rw [this, (getD_replicate_zero _ _).2]
    simp
  have hchar := flip_characterization b p hst hvc hp (hall p hp).1 (hnm p)
  have hreach := reach_all_of_all_zero_open b p hall hp
  have hpx : p.x < w := by rw [← hw]; exact hp.1
  have hpy : p.y < h := by rw [← hh]; exact hp.2
  have hidx : p.toIndex b.width < b.tiles.length := by
    rw [hw, hlen]
    exact toIndex_lt p w h hpx hpy
  have hopenp := (hall p hp).1
  have hRflipped : ∀ i, i < w * h →
      ((Map.flipRecurse (b.tiles.length + 1) b p).1.getTile i).flipped
        = true := by
    intro i hi
    have hq := fromIndex_proper i w h hi
    have hqp : properPt b (fromIndex i w) :=
      ⟨by rw [hw]; exact hq.1, by rw [hh]; exact hq.2⟩
    have hc := (hchar (fromIndex i w) hqp).mpr
      (Or.inr ⟨hreach _ hqp, by
        rw [htiles]
        exact (getD_replicate_flags _ _).1⟩)
    rw [flip_open_eq b p hidx hopenp.1 hopenp.2,
      checkCompleted_getTile, hw, toIndex_fromIndex i w] at hc
    exact hc
  have hRst : (Map.flipRecurse (b.tiles.length + 1) b p).1.status
      = Status.InProgress :=
    (flipRecurse_sound _ b p hst hvc hp (hnm p)).1
  have hFrame := flipRecurse_frame (b.tiles.length + 1) b p
  have hRinv : Inv (Map.flipRecurse (b.tiles.length + 1) b p).1 :=
    inv_of_frame (generate_inv w h [] b hg) hFrame
  have hRlen : (Map.flipRecurse (b.tiles.length + 1) b p).1.tiles.length
      = w * h := by
    rw [hFrame.length_eq, hlen]
  have hcount : flippedCount (Map.flipRecurse (b.tiles.length + 1) b p).1
      = w * h := by
    unfold flippedCount
    rw [← hRlen]
    apply length_filter_all
    intro i hi
    rw [hRlen] at hi
    exact hRflipped i hi
  have htmR : (Map.flipRecurse (b.tiles.length + 1) b p).1.totalMines
      = 0 := by
    rw [hFrame.totalMines_eq, htm]
  have heq : (Map.flipRecurse (b.tiles.length + 1) b p).1.tilesFlipped +
      (Map.flipRecurse (b.tiles.length + 1) b p).1.totalMines =
      (Map.flipRecurse (b.tiles.length + 1) b p).1.tiles.length := by
    have h2 := hRinv.2.1
    omega
  rw [flip_open_eq b p hidx hopenp.1 hopenp.2]
  unfold Map.checkCompleted
  rw [if_neg (by simp [hRst]), if_pos heq]

/-! ## Terminal states are frozen -/

theorem flag_of_not_inProgress (m : Map) (p : Point)
    (h : m.status ≠ Status.InProgress) : m.flag p = m := by
  unfold Map.flag
  simp [h]

theorem checkCompleted_of_not_inProgress (m : Map)
    (h : m.status ≠ Status.InProgress) : m.checkCompleted = m := by
  unfold Map.checkCompleted
  simp [h]

theorem flipRecurse_of_not_inProgress (fuel : Nat) (m : Map) (p : Point)
    (h : m.status ≠ Status.InProgress) :
    Map.flipRecurse fuel m p = (m, 0) := by
  cases fuel with
  | zero => simp [Map.flipRecurse]
  | succ n =>
    unfold Map.flipRecurse
    simp [h]

theorem flipList_of_not_inProgress (fuel : Nat) (m : Map) (l : List Point)
    (h : m.status ≠ Status.InProgress) :
    Map.flipList fuel m l = (m, 0) := by
  induction l with
  | nil => rfl
  | cons q rest ih =>
    rw [flipList_cons, flipRecurse_of_not_inProgress fuel m q h]
    simpa using ih

theorem flip_of_not_inProgress (m : Map) (p : Point)
    (h : m.status ≠ Status.InProgress) : m.flip p = (m, 0) := by
  unfold Map.flip
  simp only [flipRecurse_of_not_inProgress _ _ _ h,
    flipList_of_not_inProgress _ _ _ h]
  split_ifs <;> simp [checkCompleted_of_not_inProgress _ h]

theorem applyMoves_of_not_inProgress (m : Map) (moves : List Move)
    (h : m.status ≠ Status.InProgress) : m.applyMoves moves = m := by
  induction moves with
  | nil => rfl
  | cons mv rest ih =>
    unfold Map.applyMoves
    by_cases hk : mv.moveType = MoveType.Flip
    · simp only [hk, if_true]
      rw [show (m.flip mv.position).1 = m by rw [flip_of_not_inProgress m _ h]]
      exact ih
    · simp only [hk, if_false]
      rw [flag_of_not_inProgress m _ h]
      exact ih

/-! ## Replayability of the solver's move log (claim C1)

Every pass applies each move to the staging map at the moment it is
recorded, so the staging map always equals the original with the
recorded moves replayed. -/

theorem applyMoves_append (m : Map) (a b : List Move) :
    m.applyMoves (a ++ b) = (m.applyMoves a).applyMoves b := by
  induction a generalizing m with
  | nil => rfl
  | cons mv rest ih =>
    show Map.applyMoves
        (if mv.moveType = MoveType.Flip then (m.flip mv.position).1
         else m.flag mv.position) (rest ++ b) =
      Map.applyMoves
        (Map.applyMoves
          (if mv.moveType = MoveType.Flip then (m.flip mv.position).1
           else m.flag mv.position) rest) b
    exact ih _

theorem applyMoves_flip (m : Map) (p : Point) :
    m.applyMoves [⟨p, MoveType.Flip⟩] = (m.flip p).1 := rfl

theorem applyMoves_flag (m : Map) (p : Point) :
    m.applyMoves [⟨p, MoveType.Flag⟩] = m.flag p := rfl

theorem flagNeighboursLoop_replay (w : Nat) (nbrs : List Point)
    (m0 : Map) :
    ∀ acc : Map × List Move, acc.1 = m0.applyMoves acc.2 →
      (flagNeighboursLoop w nbrs acc).1 =
        m0.applyMoves (flagNeighboursLoop w nbrs acc).2 := by
  induction nbrs with
  | nil => intro acc h; exact h
  | cons nbr rest ih =>
    intro acc h
    unfold flagNeighboursLoop
    by_cases hc : ¬(acc.1.getTile (nbr.toIndex w)).flagged ∧
        ¬(acc.1.getTile (nbr.toIndex w)).flipped
    · simp only [hc, if_true]
      apply ih
      simp only [applyMoves_append, ← h, applyMoves_flag]
    · simp only [hc, if_false]
      exact ih acc h

theorem evaluateNeighbours_replay (m : Map) (i : Nat) :
    (evaluateNeighbours m i).1 = m.applyMoves (evaluateNeighbours m i).2 := by
  unfold evaluateNeighbours
  dsimp only
  split_ifs with h1 h2
  · exact (applyMoves_flip m _).symm
  · exact flagNeighboursLoop_replay _ _ m (m, []) rfl
  · rfl

theorem basicPassLoop_replay (l : List Nat) (m0 : Map) :
    ∀ acc : Map × List Move, acc.1 = m0.applyMoves acc.2 →
      (basicPassLoop l acc).1 = m0.applyMoves (basicPassLoop l acc).2 := by
  induction l with
  | nil => intro acc h; exact h
  | cons i rest ih =>
    intro acc h
    unfold basicPassLoop
    by_cases hc : (acc.1.getTile i).flipped ∧ 0 < (acc.1.getTile i).value
    · simp only [hc, if_true]
      apply ih
      simp only [applyMoves_append, ← h]
      exact evaluateNeighbours_replay acc.1 i
    · simp only [hc, if_false]
      exact ih acc h

theorem basicPass_replay (m : Map) :
    (basicPass m).1 = m.applyMoves (basicPass m).2 :=
  basicPassLoop_replay _ m (m, []) rfl

theorem applyCandidates_replay (l : List (Nat × Nat)) (m0 : Map) :
    ∀ acc : Map × List Move × (Nat × Nat) × Bool,
      acc.1 = m0.applyMoves acc.2.1 →
      (applyCandidates l acc).1 =
        m0.applyMoves (applyCandidates l acc).2.1 := by
  induction l with
  | nil => intro acc h; exact h
  | cons c rest ih =>
    intro acc h
    unfold applyCandidates
    by_cases h0 : c.2 = 0
    · simp only [h0, if_true]
      apply ih
      simp only [applyMoves_append, ← h, applyMoves_flip]
    · by_cases h256 : c.2 = 256
      · simp only [h0, h256, if_true, if_false]
        apply ih
        simp only [applyMoves_append, ← h, applyMoves_flag]
      · by_cases hfound : ¬acc.2.2.2
        · simp only [h0, h256, hfound, if_true, if_false]
          exact ih _ h
        · simp only [h0, h256, hfound, if_false]
          exact ih acc h

theorem enumerateGroupsFinish_replay (m : Map) (cands : List (Nat × Nat)) :
    (enumerateGroupsFinish m cands).1 =
      m.applyMoves (enumerateGroupsFinish m cands).2 := by
  unfold enumerateGroupsFinish
  dsimp only
  have happ := applyCandidates_replay cands m (m, [], (0, 0), false) rfl
  generalize hA : applyCandidates cands (m, [], (0, 0), false) = A at happ ⊢
  split_ifs with hc
  · have hA1 : A.1 = m := by rw [hc.1] at happ; exact happ
    rw [hA1]
    rfl
  · exact happ

theorem enumerateGroups_replay (m : Map) :
    (enumerateGroups m).1 = m.applyMoves (enumerateGroups m).2 := by
  unfold enumerateGroups
  exact enumerateGroupsFinish_replay m _

theorem randomMove_replay (m : Map) (r : Nat) :
    (randomMove m r).1 = m.applyMoves (randomMove m r).2 := by
  unfold randomMove
  dsimp only
  cases hscan : randomScan m (r % (m.getSize - m.tilesFlipped))
      (List.range m.tiles.length) 0 with
  | none => rfl
  | some i => rfl

theorem solveStep_replay (m : Map) (r : Nat) :
    (solveStep m r).1 = m.applyMoves (solveStep m r).2 := by
  unfold solveStep
  dsimp only
  split_ifs with h1 h2
  · exact basicPass_replay m
  · have hb2 : (basicPass m).2 = [] := not_not.mp h1
    have hb1 : (basicPass m).1 = m := by
      have h := basicPass_replay m
      rw [hb2] at h
      exact h
    rw [enumerateGroups_replay (basicPass m).1, hb1]
  · have hb2 : (basicPass m).2 = [] := not_not.mp h1
    have hb1 : (basicPass m).1 = m := by
      have h := basicPass_replay m
      rw [hb2] at h
      exact h
    have hg2 : (enumerateGroups (basicPass m).1).2 = [] := not_not.mp h2
    have hg1 : (enumerateGroups (basicPass m).1).1 = m := by
      have h := enumerateGroups_replay (basicPass m).1
      rw [hg2] at h
      exact h.trans hb1
    show (randomMove (enumerateGroups (basicPass m).1).1 r).1 =
      m.applyMoves ((enumerateGroups (basicPass m).1).2 ++
        (randomMove (enumerateGroups (basicPass m).1).1 r).2)
    rw [hg2, hg1, List.nil_append]
    exact randomMove_replay m r

theorem solveFuel_replay (fuel : Nat) (oracle : Nat → Nat) (k : Nat)
    (m : Map) :
    (solveFuel fuel oracle k m).2 =
      m.applyMoves (solveFuel fuel oracle k m).1 := by
  induction fuel generalizing k m with
  | zero => rfl
  | succ n ih =>
    unfold solveFuel
    by_cases h : m.status = Status.InProgress
    · simp only [h, if_true]
      rw [applyMoves_append, ← solveStep_replay m (oracle k)]
      exact ih (k + 1) (solveStep m (oracle k)).1
    · simp only [h, if_false]
      rfl

/-- Claim C1: for every board and every move sequence returned by
`solve` (any fuel, any random oracle), replaying the sequence on a
fresh board equal to the input reproduces the solver's internal staging
map exactly — the same status (in particular the same terminal status
when the solve loop finished) and the same per-tile flipped/flagged
state, since the two maps are equal as a whole. -/
theorem c1_solve_replay (fuel : Nat) (oracle : Nat → Nat) (m : Map) :
    m.applyMoves (solve fuel oracle m).1 = (solve fuel oracle m).2 :=
  (solveFuel_replay fuel oracle 0 m).symm

/-- Claim C6: for every board and any sequence of flag/flip calls, once
the status is not `InProgress` the board (and in particular its status)
never changes again: every later `flag` or `flip` is a complete no-op. -/
theorem c6_terminal_status_frozen (m : Map) (moves : List Move)
    (h : m.status ≠ Status.InProgress) :
    m.applyMoves moves = m ∧ (m.applyMoves moves).status = m.status := by
  have hmv := applyMoves_of_not_inProgress m moves h
  exact ⟨hmv, by rw [hmv]⟩

/-- Witness for C6 at a concrete input: the flipped-mine 1×1 board is
`Failed`, and replaying further moves on it changes nothing. -/
theorem c6_witness :
    failedBoard.status ≠ Status.InProgress ∧
      failedBoard.applyMoves
        [⟨⟨0, 0⟩, MoveType.Flip⟩, ⟨⟨0, 0⟩, MoveType.Flag⟩] = failedBoard :=
  ⟨by decide, (c6_terminal_status_frozen _ _ (by decide)).1⟩

/-! ## Claim C2: a board on which `solve` never terminates

On the 5×1 board with mines at (2,0) and (4,0), after the player flags
(0,0) and (1,0) (exhausting the mine budget on wrong tiles) and flips
(3,0) (value 2), the basic pass finds `unflipped == value` at (3,0) and
records `Flag` moves for (2,0) and (4,0) — but `Map::flag` silently
refuses both because `mines_remaining == 0`.  The pass thus returns a
non-empty move list while leaving the staging board unchanged, and the
`solve` loop repeats it forever. -/

theorem stuckBoard_basicPass :
    basicPass stuckBoard =
      (stuckBoard,
        [⟨⟨2, 0⟩, MoveType.Flag⟩, ⟨⟨4, 0⟩, MoveType.Flag⟩]) := by
  decide

theorem stuckBoard_solveStep (r : Nat) :
    solveStep stuckBoard r =
      (stuckBoard,
        [⟨⟨2, 0⟩, MoveType.Flag⟩, ⟨⟨4, 0⟩, MoveType.Flag⟩]) := by
  unfold solveStep
  rw [stuckBoard_basicPass]
  simp

theorem solveFuel_stuck (fuel : Nat) (oracle : Nat → Nat) (k : Nat) :
    (solveFuel fuel oracle k stuckBoard).2 = stuckBoard := by
  induction fuel generalizing k with
  | zero => rfl
  | succ n ih =>
    unfold solveFuel
    rw [if_pos (by decide : stuckBoard.status = Status.InProgress)]
    rw [stuckBoard_solveStep (oracle k)]
    exact ih (k + 1)

/-- Claim C2 (refuted by the code): on `stuckBoard` — an in-progress
board reachable by legal flag/flip calls from a generated board — the
basic pass returns a non-empty move list while leaving the staging
board unchanged (its two `Flag` moves are silently refused because
`mines_remaining = 0`), so the `solve` loop never terminates: for every
fuel bound the staging board is still `InProgress` and unchanged. -/
theorem c2_solve_diverges :
    stuckBoard.status = Status.InProgress ∧
      stuckBoard.minesRemaining = 0 ∧
      basicPass stuckBoard =
        (stuckBoard,
          [⟨⟨2, 0⟩, MoveType.Flag⟩, ⟨⟨4, 0⟩, MoveType.Flag⟩]) ∧
      ∀ fuel oracle k,
        (solveFuel fuel oracle k stuckBoard).2.status =
          Status.InProgress := by
  refine ⟨by decide, by decide, stuckBoard_basicPass, ?_⟩
  intro fuel oracle k
  rw [solveFuel_stuck fuel oracle k]
  decide

/-! ## Claim C4: risk score of the 2-tile group -/

/-- Counterexample to claim C4: on a group of exactly 2 unflipped tiles
bordering one flipped tile of value 1 with `mines_remaining = 1`, group
enumeration does **not** nominate both tiles with risk 128: it
nominates exactly one tile, with risk 127 (the code computes
`min_tally * (255 / valid_permutations) = 1 * (255 / 2) = 127`,
truncating the division first, and keeps only the single least risky
member). -/
theorem c4_counterexample :
    riskBoard.status = Status.InProgress ∧
      riskBoard.minesRemaining = 1 ∧
      (riskBoard.getTile 1).flipped = true ∧
      (riskBoard.getTile 1).value = 1 ∧
      (riskBoard.getTile 0).flipped = false ∧
      (riskBoard.getTile 2).flipped = false ∧
      evaluateGroup riskBoard [0, 2] = [(0, 127)] ∧
      ¬((0, 128) ∈ evaluateGroup riskBoard [0, 2] ∧
        (2, 128) ∈ evaluateGroup riskBoard [0, 2]) := by
  decide

/-- Claim C4 as amended: in the same scenario both member tiles tally 1
against 2 valid permutations, but the enumeration nominates exactly one
member tile (the minimum-tally one; ties are resolved by the unordered
tally-map iteration in Rust, ascending index here), with risk score
`1 * (255 / 2) = 127` — the integer division `255 / valid_permutations`
is performed first — and nominates no tile as certain (no risk-0 and no
risk-256 nomination). -/
theorem c4_amended_risk127 :
    (evaluateGroupCore riskBoard [0, 2]).2.1 = 2 ∧
      (evaluateGroupCore riskBoard [0, 2]).2.2 0 = 1 ∧
      (evaluateGroupCore riskBoard [0, 2]).2.2 2 = 1 ∧
      evaluateGroup riskBoard [0, 2] = [(0, 1 * (255 / 2))] ∧
      (1 : Nat) * (255 / 2) = 127 ∧
      ∀ c ∈ evaluateGroup riskBoard [0, 2], c.2 ≠ 0 ∧ c.2 ≠ 256 := by
  decide

/-! ## Bit lemmas for the permutation loop (claim C3) -/

theorem pos_and_shift_iff (i j : Nat) :
    0 < i &&& (1 <<< j) ↔ i.testBit j = true := by
  rw [Nat.shiftLeft_eq, Nat.one_mul, Nat.and_two_pow]
  cases h : i.testBit j
  · simp
  · simp [Nat.pos_pow_of_pos]

theorem bitCount_zero_arg : ∀ n, bitCount n 0 = 0
  | 0 => rfl
  | n + 1 => by
    show (if (0 : Nat).testBit 0 then 1 else 0) + bitCount n (0 / 2) = 0
    rw [Nat.zero_testBit]
    simpa using bitCount_zero_arg n

theorem bitCount_succ : ∀ (j x : Nat), bitCount (j + 1) x =
    bitCount j x + (if x.testBit j then 1 else 0) := by
  intro j
  induction j with
  | zero =>
    intro x
    show (if x.testBit 0 then 1 else 0) + bitCount 0 (x / 2) =
      bitCount 0 x + (if x.testBit 0 then 1 else 0)
    show (if x.testBit 0 then 1 else 0) + 0 =
      0 + (if x.testBit 0 then 1 else 0)
    omega
  | succ k ih =>
    intro x
    show (if x.testBit 0 then 1 else 0) + bitCount (k + 1) (x / 2) =
      ((if x.testBit 0 then 1 else 0) + bitCount k (x / 2)) +
        (if x.testBit (k + 1) then 1 else 0)
    rw [ih (x / 2), Nat.testBit_succ]
    omega

theorem bitCount_congr_above (x y : Nat) :
    ∀ (n j : Nat), j ≤ n →
      (∀ k, j ≤ k → k < n → x.testBit k = y.testBit k) →
      bitCount n x + bitCount j y = bitCount n y + bitCount j x := by
  intro n
  induction n with
  | zero =>
    intro j hj _
    have hj0 : j = 0 := by omega
    subst hj0
    rfl
  | succ k ihn =>
    intro j hj hagree
    by_cases hjk : j = k + 1
    · subst hjk
      exact Nat.add_comm _ _
    · have hjk' : j ≤ k := by omega
      rw [bitCount_succ k x, bitCount_succ k y,
        hagree k (by omega) (by omega)]
      have hrec := ihn j hjk' (fun t ht1 ht2 => hagree t ht1 (by omega))
      omega

theorem bitCount_eq_zero_of_low (x : Nat) :
    ∀ j, (∀ k, k < j → x.testBit k = false) → bitCount j x = 0 := by
  intro j
  induction j with
  | zero => intro _; rfl
  | succ k ih =>
    intro hlow
    rw [bitCount_succ, hlow k (by omega),
      ih (fun t ht => hlow t (by omega))]
    simp

theorem countOnesAux_congr : ∀ (f g p : Nat), p < f → p < g →
    countOnesAux f p = countOnesAux g p := by
  intro f
  induction f with
  | zero =>
    intro g p hf
    exact absurd hf (Nat.not_lt_zero p)
  | succ k ih =>
    intro g p hf hg
    obtain ⟨g', rfl⟩ : ∃ g'', g = g'' + 1 := ⟨g - 1, by omega⟩
    show (if p = 0 then 0 else p % 2 + countOnesAux k (p / 2)) =
      (if p = 0 then 0 else p % 2 + countOnesAux g' (p / 2))
    by_cases hp : p = 0
    · rw [if_pos hp, if_pos hp]
    · rw [if_neg hp, if_neg hp, ih g' (p / 2) (by omega) (by omega)]

theorem countOnes_eq_bitCount : ∀ (n p : Nat), p < 2 ^ n →
    countOnes p = bitCount n p := by
  intro n
  induction n with
  | zero =>
    intro p hp
    have h1 : (2 : Nat) ^ 0 = 1 := rfl
    have hp0 : p = 0 := by omega
    subst hp0
    rfl
  | succ k ih =>
    intro p hp
    by_cases hp0 : p = 0
    · subst hp0
      rw [bitCount_zero_arg]
      rfl
    · show countOnesAux (p + 1) p = _
      rw [show countOnesAux (p + 1) p = p % 2 + countOnesAux p (p / 2)
          from by
        show (if p = 0 then 0 else p % 2 + countOnesAux p (p / 2)) = _
        rw [if_neg hp0]]
      have h2 : countOnesAux p (p / 2) = countOnes (p / 2) :=
        countOnesAux_congr p (p / 2 + 1) (p / 2) (by omega) (by omega)
      have hpow : (2 : Nat) ^ (k + 1) = 2 * 2 ^ k := by ring
      rw [h2, ih (p / 2) (by omega)]
      show p % 2 + bitCount k (p / 2) =
        (if p.testBit 0 then 1 else 0) + bitCount k (p / 2)
      rw [Nat.testBit_zero]
      rcases Nat.mod_two_eq_zero_or_one p with h | h <;> simp [h]

theorem odd_part : ∀ (i : Nat), 0 < i →
    ∃ lb h, i = 2 ^ (lb + 1) * h + 2 ^ lb := by
  intro i
  induction i using Nat.strong_induction_on with
  | _ i ih =>
    intro hi
    rcases Nat.even_or_odd i with he | ho
    · obtain ⟨k, hk⟩ := he
      have hk2 : i = 2 * k := by omega
      have hkpos : 0 < k := by omega
      obtain ⟨lb, h, hh⟩ := ih k (by omega) hkpos
      refine ⟨lb + 1, h, ?_⟩
      rw [hk2, hh]
      ring
    · obtain ⟨k, hk⟩ := ho
      refine ⟨0, k, ?_⟩
      have h20 : (2 : Nat) ^ 0 = 1 := rfl
      have h21 : (2 : Nat) ^ (0 + 1) = 2 := rfl
      omega

theorem div_pow_interval (lb h p : Nat)
    (hlo : 2 ^ (lb + 1) * h ≤ p)
    (hhi : p < 2 ^ (lb + 1) * h + 2 ^ (lb + 1)) :
    p / 2 ^ (lb + 1) = h := by
  have hpos : 0 < 2 ^ (lb + 1) := Nat.pos_pow_of_pos _ (by omega)
  rw [Nat.div_eq_of_lt_le (by rw [Nat.mul_comm]; exact hlo)
    (by rw [Nat.succ_mul, Nat.mul_comm]; omega)]

theorem interval_testBit_lb (lb h p : Nat)
    (hlo : 2 ^ (lb + 1) * h ≤ p)
    (hhi : p < 2 ^ (lb + 1) * h + 2 ^ lb) :
    p.testBit lb = false := by
  rw [Nat.testBit_to_div_mod]
  have hp2 : (2 : Nat) ^ (lb + 1) = 2 ^ lb * 2 := by ring
  have hdiv : p / 2 ^ lb = 2 * h := by
    apply Nat.div_eq_of_lt_le
    · rw [Nat.mul_comm (2 * h) (2 ^ lb)]
      rw [hp2] at hlo
      calc 2 ^ lb * (2 * h) = 2 ^ lb * 2 * h := by ring
      _ ≤ p := hlo
    · rw [Nat.succ_mul, Nat.mul_comm (2 * h) (2 ^ lb)]
      rw [hp2] at hhi
      calc p < 2 ^ lb * 2 * h + 2 ^ lb := hhi
      _ = 2 ^ lb * (2 * h) + 2 ^ lb := by ring
  rw [hdiv]
  simp [Nat.mul_mod_right]

theorem interval_testBit_high (lb h p j : Nat) (hj : lb < j)
    (hlo : 2 ^ (lb + 1) * h ≤ p)
    (hhi : p < 2 ^ (lb + 1) * h + 2 ^ lb) :
    p.testBit j = (2 ^ (lb + 1) * h + 2 ^ lb).testBit j := by
  have hpow : (2 : Nat) ^ lb < 2 ^ (lb + 1) := by
    have : (2 : Nat) ^ (lb + 1) = 2 ^ lb * 2 := by ring
    have hp : 0 < (2 : Nat) ^ lb := Nat.pos_pow_of_pos _ (by omega)
    omega
  have hdiv1 : p / 2 ^ (lb + 1) = h :=
    div_pow_interval lb h p hlo (by omega)
  have hdiv2 : (2 ^ (lb + 1) * h + 2 ^ lb) / 2 ^ (lb + 1) = h :=
    div_pow_interval lb h _ (by omega) (by omega)
  rw [Nat.testBit_to_div_mod, Nat.testBit_to_div_mod]
  obtain ⟨d, rfl⟩ : ∃ d, j = (lb + 1) + d := ⟨j - (lb + 1), by omega⟩
  rw [pow_add, ← Nat.div_div_eq_div_mul, ← Nat.div_div_eq_div_mul,
    hdiv1, hdiv2]

theorem odd_form_testBit_lb (lb h : Nat) :
    (2 ^ (lb + 1) * h + 2 ^ lb).testBit lb = true := by
  rw [Nat.testBit_to_div_mod]
  have hdiv : (2 ^ (lb + 1) * h + 2 ^ lb) / 2 ^ lb = 2 * h + 1 := by
    have hform : 2 ^ (lb + 1) * h + 2 ^ lb = 2 ^ lb * (2 * h + 1) := by
      ring
    rw [hform, Nat.mul_div_cancel_left _ (Nat.pos_pow_of_pos _ (by omega))]
  rw [hdiv]
  have hm : (2 * h + 1) % 2 = 1 := by omega
  simp [hm]

theorem odd_form_testBit_low (lb h j : Nat) (hj : j < lb) :
    (2 ^ (lb + 1) * h + 2 ^ lb).testBit j = false := by
  obtain ⟨e, rfl⟩ : ∃ e, lb = j + e + 1 := ⟨lb - j - 1, by omega⟩
  rw [Nat.testBit_to_div_mod]
  have hform : 2 ^ (j + e + 1 + 1) * h + 2 ^ (j + e + 1) =
      2 ^ j * (2 ^ (e + 2) * h + 2 ^ (e + 1)) := by
    ring
  have hdiv : (2 ^ (j + e + 1 + 1) * h + 2 ^ (j + e + 1)) / 2 ^ j =
      2 ^ (e + 2) * h + 2 ^ (e + 1) := by
    rw [hform, Nat.mul_div_cancel_left _ (Nat.pos_pow_of_pos _ (by omega))]
  rw [hdiv]
  have heven : 2 ^ (e + 2) * h + 2 ^ (e + 1) =
      2 * (2 ^ (e + 1) * h + 2 ^ e) := by ring
  rw [heven]
  simp [Nat.mul_mod_right]

/-! ## Insertion-sort lemmas (claim C3) -/

theorem mem_insertSortedNat (x y : Nat) :
    ∀ l, y ∈ insertSortedNat x l ↔ y = x ∨ y ∈ l := by
  intro l
  induction l with
  | nil => simp [insertSortedNat]
  | cons a rest ih =>
    show y ∈ (if x ≤ a then x :: a :: rest else a :: insertSortedNat x rest)
      ↔ _
    split_ifs with hle
    · simp [List.mem_cons]
    · simp only [List.mem_cons, ih]
      tauto

theorem length_insertSortedNat (x : Nat) :
    ∀ l, (insertSortedNat x l).length = l.length + 1 := by
  intro l
  induction l with
  | nil => rfl
  | cons a rest ih =>
    show (if x ≤ a then x :: a :: rest
      else a :: insertSortedNat x rest).length = _
    split_ifs with hle
    · simp
    · simp [ih]

theorem nodup_insertSortedNat (x : Nat) :
    ∀ l : List Nat, l.Nodup → x ∉ l → (insertSortedNat x l).Nodup := by
  intro l
  induction l with
  | nil =>
    intro _ _
    simp [insertSortedNat]
  | cons a rest ih =>
    intro hnd hx
    show (if x ≤ a then x :: a :: rest
      else a :: insertSortedNat x rest).Nodup
    rw [List.nodup_cons] at hnd
    split_ifs with hle
    · rw [List.nodup_cons, List.nodup_cons]
      exact ⟨by simpa using hx, hnd.1, hnd.2⟩
    · rw [List.nodup_cons]
      refine ⟨?_, ih hnd.2 (by simp at hx; exact hx.2)⟩
      rw [mem_insertSortedNat]
      push_neg
      refine ⟨?_, hnd.1⟩
      intro hax
      simp [hax] at hx

theorem mem_sortNat (y : Nat) : ∀ l, y ∈ sortNat l ↔ y ∈ l := by
  intro l
  induction l with
  | nil => simp [sortNat]
  | cons a rest ih =>
    show y ∈ insertSortedNat a (sortNat rest) ↔ _
    rw [mem_insertSortedNat, ih]
    simp [List.mem_cons]

theorem length_sortNat : ∀ l : List Nat, (sortNat l).length = l.length := by
  intro l
  induction l with
  | nil => rfl
  | cons a rest ih =>
    show (insertSortedNat a (sortNat rest)).length = _
    rw [length_insertSortedNat, ih]
    rfl

theorem nodup_sortNat : ∀ l : List Nat, l.Nodup → (sortNat l).Nodup := by
  intro l
  induction l with
  | nil => intro _; simp [sortNat]
  | cons a rest ih =>
    intro hnd
    rw [List.nodup_cons] at hnd
    exact nodup_insertSortedNat a (sortNat rest) (ih hnd.2)
      (by rw [mem_sortNat]; exact hnd.1)

/-! ## Exact effect of one `flag` call (claim C3) -/

theorem flag_sets (st : Map) (idx w : Nat) (hw : st.width = w)
    (hst : st.status = Status.InProgress)
    (hidx : idx < st.tiles.length)
    (hfl : (st.getTile idx).flipped = false)
    (hfg : (st.getTile idx).flagged = false)
    (hmr : 0 < st.minesRemaining) :
    st.flag (fromIndex idx w) =
      { st with
        tiles := st.tiles.set idx { st.getTile idx with flagged := true },
        minesRemaining := st.minesRemaining - 1 } := by
  have hfl' : (st.tiles.getD idx default).flipped = false := hfl
  have hfg' : (st.tiles.getD idx default).flagged = false := hfg
  unfold Map.flag
  dsimp only
  rw [hw, toIndex_fromIndex idx w]
  rw [if_neg (by simp [hst]), if_pos hidx,
    if_neg (by simp only [Bool.not_eq_true]; exact hfl'),
    if_neg (by simp only [Bool.not_eq_true]; exact hfg'),
    if_pos hmr]
  rfl

theorem flag_clears (st : Map) (idx w : Nat) (hw : st.width = w)
    (hst : st.status = Status.InProgress)
    (hidx : idx < st.tiles.length)
    (hfl : (st.getTile idx).flipped = false)
    (hfg : (st.getTile idx).flagged = true) :
    st.flag (fromIndex idx w) =
      { st with
        tiles := st.tiles.set idx { st.getTile idx with flagged := false },
        minesRemaining := st.minesRemaining + 1 } := by
  have hfl' : (st.tiles.getD idx default).flipped = false := hfl
  have hfg' : (st.tiles.getD idx default).flagged = true := hfg
  unfold Map.flag
  dsimp only
  rw [hw, toIndex_fromIndex idx w]
  rw [if_neg (by simp [hst]), if_pos hidx,
    if_neg (by simp only [Bool.not_eq_true]; exact hfl'),
    if_pos hfg']
  rfl

/-! ## Member-flag state lemmas (claim C3) -/

theorem getD_mem_of_lt (l : List Nat) (k : Nat) (hk : k < l.length) :
    l.getD k 0 ∈ l := by
  rw [List.getD_eq_getElem l 0 hk]
  exact List.getElem_mem _

theorem nodup_getD_ne (l : List Nat) (hnd : l.Nodup) (a b : Nat)
    (ha : a < l.length) (hb : b < l.length) (hab : a ≠ b) :
    l.getD a 0 ≠ l.getD b 0 := by
  rw [List.getD_eq_getElem l 0 ha, List.getD_eq_getElem l 0 hb]
  intro hc
  exact hab (List.Nodup.getElem_inj_iff hnd |>.mp hc)

theorem setMemberFlags_not_mem (i : Nat) :
    ∀ (rest : List Nat) (j : Nat) (tiles : List Tile) (idx : Nat),
      idx ∉ rest →
      (setMemberFlags i rest j tiles).getD idx default =
        tiles.getD idx default := by
  intro rest
  induction rest with
  | nil => intro j tiles idx _; rfl
  | cons a rest' ih =>
    intro j tiles idx hmem
    have h2 : idx ≠ a ∧ idx ∉ rest' := by
      simpa [List.mem_cons, not_or] using hmem
    show (setMemberFlags i rest' (j + 1) _).getD idx default = _
    rw [ih (j + 1) _ idx h2.2, getD_set_ne _ _ _ _ _ (Ne.symm h2.1)]

theorem setMemberFlags_length (i : Nat) :
    ∀ (rest : List Nat) (j : Nat) (tiles : List Tile),
      (setMemberFlags i rest j tiles).length = tiles.length := by
  intro rest
  induction rest with
  | nil => intro j tiles; rfl
  | cons a rest' ih =>
    intro j tiles
    show (setMemberFlags i rest' (j + 1) _).length = _
    rw [ih]
    simp [List.length_set]

theorem setMemberFlags_mem (i : Nat) :
    ∀ (rest : List Nat) (j k : Nat) (tiles : List Tile),
      rest.Nodup → (∀ x ∈ rest, x < tiles.length) → k < rest.length →
      (setMemberFlags i rest j tiles).getD (rest.getD k 0) default =
        { tiles.getD (rest.getD k 0) default with
            flagged := decide (0 < i &&& (1 <<< (j + k))) } := by
  intro rest
  induction rest with
  | nil => intro j k tiles _ _ hk; simp at hk
  | cons a rest' ih =>
    intro j k tiles hnd hrange hk
    rw [List.nodup_cons] at hnd
    cases k with
    | zero =>
      show (setMemberFlags i rest' (j + 1) _).getD a default = _
      rw [setMemberFlags_not_mem i rest' (j + 1) _ a hnd.1,
        getD_set_self _ _ _ _ (hrange a (by simp))]
      rfl
    | succ k' =>
      have hgd : (a :: rest').getD (k' + 1) 0 = rest'.getD k' 0 :=
        List.getD_cons_succ
      rw [hgd]
      have hk' : k' < rest'.length := by
        simp only [List.length_cons] at hk
        omega
      show (setMemberFlags i rest' (j + 1) _).getD _ default = _
      rw [ih (j + 1) k' _ hnd.2
        (fun x hx => by rw [List.length_set]; exact hrange x (by simp [hx]))
        hk']
      have hne : a ≠ rest'.getD k' 0 := fun hc =>
        hnd.1 (hc ▸ getD_mem_of_lt rest' k' hk')
      rw [getD_set_ne _ _ _ _ _ hne,
        show j + 1 + k' = j + (k' + 1) from by omega]

theorem withMemberFlags_getTile_not_mem (m : Map) (sorted : List Nat)
    (i idx : Nat) (h : idx ∉ sorted) :
    (withMemberFlags m sorted i).getTile idx = m.getTile idx :=
  setMemberFlags_not_mem i sorted 0 m.tiles idx h

theorem withMemberFlags_getTile_mem (m : Map) (sorted : List Nat)
    (i k : Nat) (hnd : sorted.Nodup)
    (hrange : ∀ x ∈ sorted, x < m.tiles.length)
    (hk : k < sorted.length) :
    (withMemberFlags m sorted i).getTile (sorted.getD k 0) =
      { m.getTile (sorted.getD k 0) with
          flagged := decide (0 < i &&& (1 <<< k)) } := by
  have := setMemberFlags_mem i sorted 0 k m.tiles hnd hrange hk
  rw [Nat.zero_add] at this
  exact this

theorem isTileSatisfied_congr (m1 m2 : Map) (pos : Point)
    (hw : m1.width = m2.width) (hh : m1.height = m2.height)
    (ht : ∀ idx, m1.tiles.getD idx default = m2.tiles.getD idx default) :
    m1.isTileSatisfied pos = m2.isTileSatisfied pos := by
  unfold Map.isTileSatisfied
  dsimp only
  simp only [hw, hh, ht]

theorem memberState_refl (m0 : Map) (sorted : List Nat) :
    MemberState m0 m0 sorted
      (fun k => (m0.getTile (sorted.getD k 0)).flagged) :=
  ⟨rfl, rfl, rfl, rfl, rfl, rfl, fun _ _ => rfl, fun _ _ => rfl⟩

theorem memberState_congr (m0 st : Map) (sorted : List Nat)
    (f g : Nat → Bool) (hms : MemberState m0 st sorted f)
    (hfg : ∀ t, t < sorted.length → f t = g t) :
    MemberState m0 st sorted g := by
  obtain ⟨hw, hh, hs, htm, htf, hlen, hoff, hmem⟩ := hms
  exact ⟨hw, hh, hs, htm, htf, hlen, hoff,
    fun t ht => by rw [hmem t ht, hfg t ht]⟩

theorem memberState_set (m0 st : Map) (sorted : List Nat)
    (f : Nat → Bool) (hms : MemberState m0 st sorted f) (k : Nat)
    (hk : k < sorted.length) (hnd : sorted.Nodup)
    (hrange : ∀ t ∈ sorted, t < m0.tiles.length) (b : Bool) (mr : Nat) :
    MemberState m0
      { st with
        tiles := st.tiles.set (sorted.getD k 0)
          { st.getTile (sorted.getD k 0) with flagged := b },
        minesRemaining := mr }
      sorted (fun t => if t = k then b else f t) := by
  obtain ⟨hw, hh, hs, htm, htf, hlen, hoff, hmem⟩ := hms
  refine ⟨hw, hh, hs, htm, htf, by simp [List.length_set, hlen], ?_, ?_⟩
  · intro idx hidx
    have hne : sorted.getD k 0 ≠ idx := fun hc =>
      hidx (hc ▸ getD_mem_of_lt sorted k hk)
    show (st.tiles.set _ _).getD idx default = _
    rw [getD_set_ne _ _ _ _ _ hne]
    exact hoff idx hidx
  · intro t ht
    by_cases htk : t = k
    · subst htk
      show (st.tiles.set _ _).getD (sorted.getD t 0) default = _
      rw [getD_set_self _ _ _ _
        (by rw [hlen]; exact hrange _ (getD_mem_of_lt sorted t ht)),
        hmem t ht]
      simp
    · have hne : sorted.getD k 0 ≠ sorted.getD t 0 :=
        nodup_getD_ne sorted hnd k t hk ht (fun hc => htk hc.symm)
      show (st.tiles.set _ _).getD (sorted.getD t 0) default = _
      rw [getD_set_ne _ _ _ _ _ hne]
      show st.getTile (sorted.getD t 0) = _
      rw [hmem t ht]
      simp [htk]

/-! ## The permutation flag-update loop (claim C3) -/

theorem permUpdateAux_zero (w : Nat) :
    ∀ (rest : List Nat) (j : Nat) (st : Map),
      st.status = Status.InProgress → st.width = w →
      rest.Nodup →
      (∀ x ∈ rest, x < st.tiles.length) →
      (∀ x ∈ rest, (st.getTile x).flipped = false) →
      ((permUpdateAux w 0 rest j st).width = st.width ∧
        (permUpdateAux w 0 rest j st).height = st.height ∧
        (permUpdateAux w 0 rest j st).status = st.status ∧
        (permUpdateAux w 0 rest j st).totalMines = st.totalMines ∧
        (permUpdateAux w 0 rest j st).tilesFlipped = st.tilesFlipped ∧
        (permUpdateAux w 0 rest j st).tiles.length = st.tiles.length) ∧
      (∀ idx, idx ∉ rest →
        (permUpdateAux w 0 rest j st).getTile idx = st.getTile idx) ∧
      (∀ x ∈ rest, (permUpdateAux w 0 rest j st).getTile x =
        { st.getTile x with flagged := false }) ∧
      (permUpdateAux w 0 rest j st).minesRemaining =
        st.minesRemaining +
          (rest.filter (fun x => (st.getTile x).flagged)).length := by
  intro rest
  induction rest with
  | nil =>
    intro j st _ _ _ _ _
    exact ⟨⟨rfl, rfl, rfl, rfl, rfl, rfl⟩,
      fun _ _ => rfl, fun x hx => absurd hx (List.not_mem_nil x),
      rfl⟩
  | cons a rest' ih =>
    intro j st hst hw hnd hrange hunfl
    rw [List.nodup_cons] at hnd
    have hcond : ¬(0 < (0 : Nat) &&& (1 <<< j)) := by
      rw [Nat.zero_and]
      omega
    have hunf : permUpdateAux w 0 (a :: rest') j st =
        permUpdateAux w 0 rest' (j + 1)
          (if (st.getTile a).flagged = true then st.flag (fromIndex a w)
           else st) := by
      show permUpdateAux w 0 rest' (j + 1)
          (if 0 < (0 : Nat) &&& (1 <<< j) then
            if ¬(st.getTile a).flagged = true then st.flag (fromIndex a w)
            else st
          else
            if (st.getTile a).flagged = true then st.flag (fromIndex a w)
            else st) = _
      rw [if_neg hcond]
    rw [hunf]
    by_cases hfg : (st.getTile a).flagged = true
    · rw [if_pos hfg]
      rw [flag_clears st a w hw hst (hrange a (by simp))
        (hunfl a (by simp)) hfg]
      have hih := ih (j + 1)
        { st with
          tiles := st.tiles.set a
            { st.getTile a with flagged := false },
          minesRemaining := st.minesRemaining + 1 }
        hst hw hnd.2
        (fun x hx => by
          show x < (st.tiles.set _ _).length
          rw [List.length_set]
          exact hrange x (by simp [hx]))
        (fun x hx => by
          have hne : a ≠ x := fun hc => hnd.1 (hc ▸ hx)
          show ((st.tiles.set _ _).getD x default).flipped = false
          rw [getD_set_ne _ _ _ _ _ hne]
          exact hunfl x (by simp [hx]))
      obtain ⟨hfields, hoff, hmem, hmr⟩ := hih
      refine ⟨?_, ?_, ?_, ?_⟩
      · refine ⟨hfields.1, hfields.2.1, hfields.2.2.1, hfields.2.2.2.1,
          hfields.2.2.2.2.1, ?_⟩
        rw [hfields.2.2.2.2.2]
        simp [List.length_set]
      · intro idx hidx
        have h2 : idx ≠ a ∧ idx ∉ rest' := by
          simpa [List.mem_cons, not_or] using hidx
        rw [hoff idx h2.2]
        show (st.tiles.set _ _).getD idx default = _
        rw [getD_set_ne _ _ _ _ _ (Ne.symm h2.1)]
        rfl
      · intro x hx
        rcases List.mem_cons.mp hx with rfl | hx'
        · rw [hoff x hnd.1]
          show (st.tiles.set _ _).getD x default = _
          rw [getD_set_self _ _ _ _ (hrange x (by simp))]
        · have hne : a ≠ x := fun hc => hnd.1 (hc ▸ hx')
          rw [hmem x hx']
          show { ((st.tiles.set _ _).getD x default : Tile)
              with flagged := false } = _
          rw [getD_set_ne _ _ _ _ _ hne]
          rfl
      · rw [hmr]
        have hfilter :
            (rest'.filter (fun x =>
              (({ st with
                tiles := st.tiles.set a
                  { st.getTile a with flagged := false },
                minesRemaining := st.minesRemaining + 1 } : Map).getTile
                  x).flagged)).length =
            (rest'.filter (fun x => (st.getTile x).flagged)).length := by
          congr 1
          apply List.filter_congr
          intro x hx
          have hne : a ≠ x := fun hc => hnd.1 (hc ▸ hx)
          show ((st.tiles.set _ _).getD x default).flagged =
            (st.getTile x).flagged
          rw [getD_set_ne _ _ _ _ _ hne]
          rfl
        rw [hfilter]
        rw [List.filter_cons, if_pos (by simpa using hfg)]
        simp only [List.length_cons]
        omega
    · rw [if_neg hfg]
      have hih := ih (j + 1) st hst hw hnd.2
        (fun x hx => hrange x (by simp [hx]))
        (fun x hx => hunfl x (by simp [hx]))
      obtain ⟨hfields, hoff, hmem, hmr⟩ := hih
      refine ⟨hfields, ?_, ?_, ?_⟩
      · intro idx hidx
        have h2 : idx ≠ a ∧ idx ∉ rest' := by
          simpa [List.mem_cons, not_or] using hidx
        exact hoff idx h2.2
      · intro x hx
        rcases List.mem_cons.mp hx with rfl | hx'
        · rw [hoff x hnd.1]
          have hfg' : (st.getTile x).flagged = false := by
            simpa using hfg
          rw [← hfg']
        · exact hmem x hx'
      · rw [hmr]
        rw [List.filter_cons, if_neg (by simpa using hfg)]

theorem permUpdateAux_spec (m0 : Map) (w : Nat) (hw0 : m0.width = w)
    (sorted : List Nat) (hnd : sorted.Nodup)
    (hrange : ∀ t ∈ sorted, t < m0.tiles.length)
    (hunfl : ∀ t ∈ sorted, (m0.getTile t).flipped = false)
    (hst0 : m0.status = Status.InProgress)
    (i p lb B : Nat)
    (hbitlb : i.testBit lb = true)
    (hbitlow : ∀ j, j < lb → i.testBit j = false)
    (hplb : p.testBit lb = false)
    (hphigh : ∀ j, lb < j → p.testBit j = i.testBit j)
    (hbudget : bitCount sorted.length i ≤ B) :
    ∀ (rest : List Nat) (k : Nat) (st : Map),
      rest = sorted.drop k → k ≤ sorted.length →
      MemberState m0 st sorted
        (fun t => if t < k then i.testBit t else p.testBit t) →
      st.minesRemaining + bitCount k i + bitCount sorted.length p =
        B + bitCount k p →
      MemberState m0 (permUpdateAux w i rest k st) sorted
          (fun t => i.testBit t) ∧
        (permUpdateAux w i rest k st).minesRemaining +
          bitCount sorted.length i = B := by
  have hbcp : ∀ j, lb + 1 ≤ j → j ≤ sorted.length →
      bitCount j p + 1 = bitCount j i + bitCount (lb + 1) p := by
    intro j hj1 hj2
    have hcong := bitCount_congr_above p i j (lb + 1) hj1
      (fun t ht1 ht2 => hphigh t (by omega))
    have hlb_i : bitCount (lb + 1) i = 1 := by
      rw [bitCount_succ, hbitlb, bitCount_eq_zero_of_low i lb hbitlow]
      simp
    have hlb_p : bitCount (lb + 1) p = bitCount lb p := by
      rw [bitCount_succ, hplb]
      simp
    omega
  intro rest
  induction rest with
  | nil =>
    intro k st hrest hk hms heq
    have hkn : k = sorted.length := by
      have := congrArg List.length hrest
      simp only [List.length_nil, List.length_drop] at this
      omega
    subst hkn
    refine ⟨memberState_congr m0 st sorted _ _ hms ?_, ?_⟩
    · intro t ht
      simp [ht]
    · show st.minesRemaining + bitCount sorted.length i = B
      omega
  | cons a rest' ih =>
    intro k st hrest hk hms heq
    have hklen : k < sorted.length := by
      by_contra hc
      rw [List.drop_eq_nil_of_le (by omega)] at hrest
      exact List.noConfusion hrest
    have hdrop := List.drop_eq_getElem_cons hklen
    rw [← hrest] at hdrop
    have ha : a = sorted.getD k 0 := by
      rw [List.getD_eq_getElem sorted 0 hklen]
      exact (List.cons.injEq _ _ _ _ ▸ hdrop).1
    have hrest' : rest' = sorted.drop (k + 1) :=
      (List.cons.injEq _ _ _ _ ▸ hdrop).2
    obtain ⟨hwst, hhst, hsst, htmst, htfst, hlenst, hoff, hmem⟩ := hms
    have hamem : a ∈ sorted := ha ▸ getD_mem_of_lt sorted k hklen
    have haidx : a < st.tiles.length := by
      rw [hlenst]
      exact hrange a hamem
    have hafl : (st.getTile a).flipped = false := by
      rw [ha, hmem k hklen]
      show (m0.getTile (sorted.getD k 0)).flipped = false
      exact hunfl _ (getD_mem_of_lt sorted k hklen)
    have hflag_cur : (st.getTile a).flagged =
        (if k < k then i.testBit k else p.testBit k) := by
      rw [ha, hmem k hklen]
    rw [if_neg (by omega)] at hflag_cur
    have hwst' : st.width = w := by rw [hwst, hw0]
    have hsst' : st.status = Status.InProgress := by rw [hsst, hst0]
    have hunf : permUpdateAux w i (a :: rest') k st =
        permUpdateAux w i rest' (k + 1)
          (if 0 < i &&& (1 <<< k) then
            if ¬(st.getTile a).flagged = true then st.flag (fromIndex a w)
            else st
          else
            if (st.getTile a).flagged = true then st.flag (fromIndex a w)
            else st) := rfl
    rw [hunf]
    by_cases hik : i.testBit k = true
    · have hklb : lb ≤ k := by
        by_contra hc
        rw [hbitlow k (by omega)] at hik
        exact Bool.noConfusion hik
      rw [if_pos ((pos_and_shift_iff i k).mpr hik)]
      by_cases hkeq : k = lb
      · -- the single SET
        subst hkeq
        rw [hplb] at hflag_cur
        rw [if_pos (by rw [hflag_cur]; simp)]
        have hmrpos : 0 < st.minesRemaining := by
          have h1 := hbcp sorted.length (by omega) le_rfl
          have h2 : bitCount k i = 0 := bitCount_eq_zero_of_low i k hbitlow
          have h3 : bitCount (k + 1) p = bitCount k p := by
            rw [bitCount_succ, hplb]
            simp
          omega
        rw [flag_sets st a w hwst' hsst' haidx hafl hflag_cur hmrpos]
        have hmsnew := memberState_set m0 st sorted _
          ⟨hwst, hhst, hsst, htmst, htfst, hlenst, hoff, hmem⟩
          k hklen hnd hrange true (st.minesRemaining - 1)
        rw [← ha] at hmsnew
        refine ih (k + 1) _ hrest' (by omega)
          (memberState_congr m0 _ sorted _ _ hmsnew ?_) ?_
        · intro t ht
          by_cases htk : t = k
          · subst htk
            simp [hik]
          · by_cases htlt : t < k + 1
            · have hlt : t < k := by omega
              simp [htk, hlt, htlt]
            · have h1 : ¬(t < k) := by omega
              simp [htk, htlt, h1]
        · show st.minesRemaining - 1 + bitCount (k + 1) i +
            bitCount sorted.length p = B + bitCount (k + 1) p
          have h2 : bitCount (k + 1) i = bitCount k i + 1 := by
            rw [bitCount_succ, hik]
            simp
          have h3 : bitCount (k + 1) p = bitCount k p := by
            rw [bitCount_succ, hplb]
            simp
          omega
      · -- k > lb, bit already set in p
        have hklb' : lb < k := by omega
        have hpk : p.testBit k = true := by
          rw [hphigh k hklb', hik]
        rw [hpk] at hflag_cur
        rw [if_neg (by rw [hflag_cur]; simp)]
        refine ih (k + 1) st hrest' (by omega)
          (memberState_congr m0 st sorted _ _
            ⟨hwst, hhst, hsst, htmst, htfst, hlenst, hoff, hmem⟩ ?_) ?_
        · intro t ht
          by_cases htlt : t < k
          · simp [htlt, show t < k + 1 from by omega]
          · by_cases htk : t = k
            · subst htk
              simp [htlt, show t < t + 1 from by omega, hpk, hik]
            · simp [htlt, show ¬(t < k + 1) from by omega]
        · have h2 : bitCount (k + 1) i = bitCount k i + 1 := by
            rw [bitCount_succ, hik]
            simp
          have h3 : bitCount (k + 1) p = bitCount k p + 1 := by
            rw [bitCount_succ, hpk]
            simp
          omega
    · have hik' : i.testBit k = false := by
        simpa using hik
      rw [if_neg (by rw [pos_and_shift_iff]; simp [hik'])]
      by_cases hpk : p.testBit k = true
      · -- CLEAR
        rw [hpk] at hflag_cur
        rw [if_pos (by rw [hflag_cur])]
        rw [flag_clears st a w hwst' hsst' haidx hafl hflag_cur]
        have hmsnew := memberState_set m0 st sorted _
          ⟨hwst, hhst, hsst, htmst, htfst, hlenst, hoff, hmem⟩
          k hklen hnd hrange false (st.minesRemaining + 1)
        rw [← ha] at hmsnew
        refine ih (k + 1) _ hrest' (by omega)
          (memberState_congr m0 _ sorted _ _ hmsnew ?_) ?_
        · intro t ht
          by_cases htk : t = k
          · subst htk
            simp [hik']
          · by_cases htlt : t < k + 1
            · have hlt : t < k := by omega
              simp [htk, hlt, htlt]
            · have h1 : ¬(t < k) := by omega
              simp [htk, htlt, h1]
        · show st.minesRemaining + 1 + bitCount (k + 1) i +
            bitCount sorted.length p = B + bitCount (k + 1) p
          have h2 : bitCount (k + 1) i = bitCount k i := by
            rw [bitCount_succ, hik']
            simp
          have h3 : bitCount (k + 1) p = bitCount k p + 1 := by
            rw [bitCount_succ, hpk]
            simp
          omega
      · -- no-op
        have hpk' : p.testBit k = false := by
          simpa using hpk
        rw [hpk'] at hflag_cur
        rw [if_neg (by rw [hflag_cur]; simp)]
        refine ih (k + 1) st hrest' (by omega)
          (memberState_congr m0 st sorted _ _
            ⟨hwst, hhst, hsst, htmst, htfst, hlenst, hoff, hmem⟩ ?_) ?_
        · intro t ht
          by_cases htlt : t < k
          · simp [htlt, show t < k + 1 from by omega]
          · by_cases htk : t = k
            · subst htk
              simp [htlt, show t < t + 1 from by omega, hpk', hik']
            · simp [htlt, show ¬(t < k + 1) from by omega]
        · have h2 : bitCount (k + 1) i = bitCount k i := by
            rw [bitCount_succ, hik']
            simp
          have h3 : bitCount (k + 1) p = bitCount k p := by
            rw [bitCount_succ, hpk']
            simp
          omega

/-! ## Borders and the per-subset check (claim C3) -/

theorem memberState_eq_withMemberFlags (m0 st1 : Map) (sorted : List Nat)
    (i : Nat) (hnd : sorted.Nodup)
    (hrange : ∀ x ∈ sorted, x < m0.tiles.length)
    (hms : MemberState m0 st1 sorted (fun t => i.testBit t)) :
    ∀ idx, st1.getTile idx = (withMemberFlags m0 sorted i).getTile idx := by
  intro idx
  by_cases hmem : idx ∈ sorted
  · obtain ⟨k, hklt, hkeq⟩ := List.getElem_of_mem hmem
    have hkgd : sorted.getD k 0 = idx := by
      rw [List.getD_eq_getElem sorted 0 hklt]
      exact hkeq
    have h1 := hms.2.2.2.2.2.2.2 k hklt
    have h2 := withMemberFlags_getTile_mem m0 sorted i k hnd hrange hklt
    rw [hkgd] at h1 h2
    rw [h1, h2]
    by_cases hbit : i.testBit k = true
    · have hdec : decide (0 < i &&& (1 <<< k)) = true := by
        rw [decide_eq_true_eq]
        exact (pos_and_shift_iff i k).mpr hbit
      simp only [hbit, hdec]
    · have hbit' : i.testBit k = false := by simpa using hbit
      have hdec : decide (0 < i &&& (1 <<< k)) = false := by
        rw [decide_eq_false_iff_not]
        intro hc
        rw [(pos_and_shift_iff i k).mp hc] at hbit'
        exact Bool.noConfusion hbit'
      simp only [hbit', hdec]
  · rw [hms.2.2.2.2.2.2.1 idx hmem,
      withMemberFlags_getTile_not_mem m0 sorted i idx hmem]

theorem mem_insertDedup (b x : Nat) (l : List Nat) :
    b ∈ insertDedup x l ↔ b ∈ l ∨ b = x := by
  unfold insertDedup
  split_ifs with hx
  · constructor
    · exact Or.inl
    · rintro (h | rfl)
      · exact h
      · exact hx
  · simp [List.mem_append]

theorem mem_border_inner (m : Map) (nbrs : List Point) :
    ∀ (acc : List Nat) (b : Nat),
      (b ∈ nbrs.foldl (fun acc2 q =>
        if (m.getTile (q.toIndex m.width)).flipped then
          insertDedup (q.toIndex m.width) acc2
        else acc2) acc) ↔
      (b ∈ acc ∨ ∃ q ∈ nbrs, q.toIndex m.width = b ∧
        (m.getTile b).flipped = true) := by
  induction nbrs with
  | nil =>
    intro acc b
    simp
  | cons q rest ih =>
    intro acc b
    show b ∈ List.foldl _
      (if (m.getTile (q.toIndex m.width)).flipped then
        insertDedup (q.toIndex m.width) acc else acc) rest ↔ _
    rw [ih]
    by_cases hf : (m.getTile (q.toIndex m.width)).flipped = true
    · rw [if_pos hf, mem_insertDedup]
      constructor
      · rintro ((hacc | rfl) | h)
        · exact Or.inl hacc
        · exact Or.inr ⟨q, List.mem_cons_self q rest, rfl, hf⟩
        · obtain ⟨q', hq', hqi, hfl⟩ := h
          exact Or.inr ⟨q', List.mem_cons_of_mem q hq', hqi, hfl⟩
      · rintro (hacc | h)
        · exact Or.inl (Or.inl hacc)
        · obtain ⟨q', hq', hqi, hfl⟩ := h
          rcases List.mem_cons.mp hq' with rfl | hq''
          · exact Or.inl (Or.inr hqi.symm)
          · exact Or.inr ⟨q', hq'', hqi, hfl⟩
    · rw [if_neg hf]
      constructor
      · rintro (hacc | h)
        · exact Or.inl hacc
        · obtain ⟨q', hq', hqi, hfl⟩ := h
          exact Or.inr ⟨q', List.mem_cons_of_mem q hq', hqi, hfl⟩
      · rintro (hacc | h)
        · exact Or.inl hacc
        · obtain ⟨q', hq', hqi, hfl⟩ := h
          rcases List.mem_cons.mp hq' with rfl | hq''
          · have hc : (m.getTile (q'.toIndex m.width)).flipped = true := by
              rw [hqi]
              exact hfl
            exact absurd hc hf
          · exact Or.inr ⟨q', hq'', hqi, hfl⟩

theorem mem_groupBorders (m : Map) (sorted : List Nat) (b : Nat) :
    b ∈ groupBorders m sorted ↔
      ∃ t ∈ sorted,
        ∃ q ∈ getNeighbours (fromIndex t m.width) m.width m.height,
          q.toIndex m.width = b ∧ (m.getTile b).flipped = true := by
  unfold groupBorders
  suffices haux : ∀ acc,
      (b ∈ sorted.foldl (fun acc index =>
        (getNeighbours (fromIndex index m.width) m.width m.height).foldl
          (fun acc2 q =>
            if (m.getTile (q.toIndex m.width)).flipped then
              insertDedup (q.toIndex m.width) acc2
            else acc2)
          acc) acc) ↔
      (b ∈ acc ∨ ∃ t ∈ sorted,
        ∃ q ∈ getNeighbours (fromIndex t m.width) m.width m.height,
          q.toIndex m.width = b ∧ (m.getTile b).flipped = true) by
    rw [haux []]
    simp
  induction sorted with
  | nil =>
    intro acc
    simp
  | cons t rest ih =>
    intro acc
    show b ∈ List.foldl _ (List.foldl _ acc _) rest ↔ _
    rw [ih, mem_border_inner]
    constructor
    · rintro ((hacc | h) | h)
      · exact Or.inl hacc
      · obtain ⟨q, hq, hqi, hfl⟩ := h
        exact Or.inr ⟨t, List.mem_cons_self t rest, q, hq, hqi, hfl⟩
      · obtain ⟨t', ht', rest'⟩ := h
        exact Or.inr ⟨t', List.mem_cons_of_mem t ht', rest'⟩
    · rintro (hacc | h)
      · exact Or.inl (Or.inl hacc)
      · obtain ⟨t', ht', q, hq, hqi, hfl⟩ := h
        rcases List.mem_cons.mp ht' with rfl | ht''
        · exact Or.inl (Or.inr ⟨q, hq, hqi, hfl⟩)
        · exact Or.inr ⟨t', ht'', q, hq, hqi, hfl⟩

theorem borders_all_iff (m : Map) (sorted : List Nat) (P : Nat → Bool) :
    (groupBorders m sorted).all P =
      sorted.all (fun t =>
        (getNeighbours (fromIndex t m.width) m.width m.height).all
          (fun q => !(m.getTile (q.toIndex m.width)).flipped ||
            P (q.toIndex m.width))) := by
  rw [Bool.eq_iff_iff, List.all_eq_true, List.all_eq_true]
  constructor
  · intro hall t ht
    rw [List.all_eq_true]
    intro q hq
    by_cases hf : (m.getTile (q.toIndex m.width)).flipped = true
    · have hb : q.toIndex m.width ∈ groupBorders m sorted :=
        (mem_groupBorders m sorted _).mpr ⟨t, ht, q, hq, rfl, hf⟩
      have := hall _ hb
      simp [this]
    · have hf' : (m.getTile (q.toIndex m.width)).flipped = false := by
        simpa using hf
      simp [hf']
  · intro hall b hb
    obtain ⟨t, ht, q, hq, hqi, hfl⟩ := (mem_groupBorders m sorted b).mp hb
    have h1 := hall t ht
    rw [List.all_eq_true] at h1
    have h2 := h1 q hq
    rw [hqi] at h2
    rw [hfl] at h2
    simpa using h2

theorem loop_check_eq (m0 : Map) (w : Nat) (hw0 : m0.width = w)
    (sorted : List Nat) (i : Nat) (st1 : Map)
    (hnd : sorted.Nodup) (hrange : ∀ x ∈ sorted, x < m0.tiles.length)
    (hms : MemberState m0 st1 sorted (fun t => i.testBit t)) :
    (groupBorders m0 sorted).all
        (fun b => st1.isTileSatisfied (fromIndex b w)) =
      subsetSatisfied m0 sorted i := by
  subst hw0
  have heqt := memberState_eq_withMemberFlags m0 st1 sorted i hnd hrange hms
  have hsat : ∀ pos : Point, st1.isTileSatisfied pos =
      (withMemberFlags m0 sorted i).isTileSatisfied pos :=
    fun pos => isTileSatisfied_congr st1 (withMemberFlags m0 sorted i) pos
      hms.1 hms.2.1 (fun idx => heqt idx)
  rw [borders_all_iff]
  unfold subsetSatisfied
  simp only [hsat]

theorem testBit_mul_pow_low (lb h j : Nat) (hj : j ≤ lb) :
    (2 ^ (lb + 1) * h).testBit j = false := by
  obtain ⟨e, rfl⟩ : ∃ e, lb = j + e := ⟨lb - j, by omega⟩
  rw [Nat.testBit_to_div_mod]
  have hform : 2 ^ (j + e + 1) * h = 2 ^ j * (2 ^ (e + 1) * h) := by
    ring
  rw [hform, Nat.mul_div_cancel_left _ (Nat.pos_pow_of_pos _ (by omega))]
  have heven : 2 ^ (e + 1) * h = 2 * (2 ^ e * h) := by ring
  rw [heven]
  simp [Nat.mul_mod_right]

theorem permLoop_spec (m0 : Map) (w : Nat) (hw0 : m0.width = w)
    (sorted : List Nat) (hnd : sorted.Nodup)
    (hrange : ∀ t ∈ sorted, t < m0.tiles.length)
    (hunfl : ∀ t ∈ sorted, (m0.getTile t).flipped = false)
    (hst0 : m0.status = Status.InProgress)
    (maxMines B : Nat) (hmB : maxMines ≤ B) :
    ∀ (len k p : Nat) (st : Map) (v : Nat) (tal : Nat → Nat),
      k + len ≤ 2 ^ sorted.length → 0 < k → p < k →
      countOnes p ≤ maxMines →
      (∀ x, p < x → x < k → maxMines < countOnes x) →
      MemberState m0 st sorted (fun t => p.testBit t) →
      st.minesRemaining + bitCount sorted.length p = B →
      ((permLoop w sorted (groupBorders m0 sorted) maxMines
          (List.range' k len) (st, v, tal)).2.1 =
        v + ((List.range' k len).filter (fun i =>
          decide (countOnes i ≤ maxMines) &&
            subsetSatisfied m0 sorted i)).length) ∧
      (∀ t, (permLoop w sorted (groupBorders m0 sorted) maxMines
          (List.range' k len) (st, v, tal)).2.2 t =
        tal t + ((List.range' k len).filter (fun i =>
          decide (countOnes i ≤ maxMines) &&
            (subsetSatisfied m0 sorted i &&
              decide (t ∈ sorted ∧
                ((withMemberFlags m0 sorted i).getTile t).flagged
                  = true)))).length) := by
  intro len
  induction len with
  | zero =>
    intro k p st v tal _ _ _ _ _ _ _
    exact ⟨by simp [permLoop], fun t => by simp [permLoop]⟩
  | succ len ihlen =>
    intro k p st v tal hbound hkpos hpk hpok hgap hms heq
    rw [show List.range' k (len + 1) = k :: List.range' (k + 1) len from
      List.range'_succ k len 1]
    by_cases hpr : maxMines < countOnes k
    · -- pruned
      have hih := ihlen (k + 1) p st v tal (by omega) (by omega)
        (by omega) hpok
        (fun x hx1 hx2 => by
          by_cases hxk : x = k
          · subst hxk; exact hpr
          · exact hgap x hx1 (by omega))
        hms heq
      have hpred : (decide (countOnes k ≤ maxMines) &&
          subsetSatisfied m0 sorted k) = false := by
        have h1 : ¬(countOnes k ≤ maxMines) := by omega
        simp [h1]
      have hpredt : ∀ t, (decide (countOnes k ≤ maxMines) &&
          (subsetSatisfied m0 sorted k &&
            decide (t ∈ sorted ∧
              ((withMemberFlags m0 sorted k).getTile t).flagged = true)))
          = false := by
        intro t
        have h1 : ¬(countOnes k ≤ maxMines) := by omega
        simp [h1]
      have hstep : permLoop w sorted (groupBorders m0 sorted) maxMines
          (k :: List.range' (k + 1) len) (st, v, tal) =
          permLoop w sorted (groupBorders m0 sorted) maxMines
            (List.range' (k + 1) len) (st, v, tal) := by
        simp only [permLoop]
        rw [if_pos hpr]
      rw [hstep]
      constructor
      · rw [hih.1, List.filter_cons, hpred]
        simp
      · intro t
        rw [hih.2 t, List.filter_cons, hpredt t]
        simp
    · -- kept: countOnes k ≤ maxMines
      have hok : countOnes k ≤ maxMines := by omega
      have hk2n : k < 2 ^ sorted.length := by omega
      obtain ⟨lb, hh, hform⟩ := odd_part k hkpos
      have hbitlb : k.testBit lb = true := by
        rw [hform]
        exact odd_form_testBit_lb lb hh
      have hbitlow : ∀ j, j < lb → k.testBit j = false := by
        intro j hj
        rw [hform]
        exact odd_form_testBit_low lb hh j hj
      have hlbpos : (0 : Nat) < 2 ^ lb := Nat.pos_pow_of_pos _ (by omega)
      have hxlt : 2 ^ (lb + 1) * hh < k := by
        rw [hform]
        omega
      have hbck : countOnes k = bitCount sorted.length k :=
        countOnes_eq_bitCount sorted.length k hk2n
      have hbclb1k : bitCount (lb + 1) k = 1 := by
        rw [bitCount_succ, hbitlb, bitCount_eq_zero_of_low k lb hbitlow]
        simp
      have hlbn : lb + 1 ≤ sorted.length := by
        by_contra hc2
        have h2lb : 2 ^ lb ≤ k := by
          rw [hform]
          omega
        have hple : (2 : Nat) ^ sorted.length ≤ 2 ^ lb :=
          Nat.pow_le_pow_right (by omega) (by omega)
        omega
      -- the previous unpruned pattern p lies in [k - 2^lb, k)
      have hplow : 2 ^ (lb + 1) * hh ≤ p := by
        by_contra hc
        have hxgap := hgap (2 ^ (lb + 1) * hh) (by omega) (by omega)
        have hxbits_high : ∀ j, lb < j →
            (2 ^ (lb + 1) * hh).testBit j = k.testBit j := by
          intro j hj
          rw [hform]
          exact interval_testBit_high lb hh _ j hj le_rfl (by omega)
        have hxlow : ∀ j, j < lb + 1 →
            (2 ^ (lb + 1) * hh).testBit j = false := fun j hj =>
          testBit_mul_pow_low lb hh j (by omega)
        have hbcx : countOnes (2 ^ (lb + 1) * hh) =
            bitCount sorted.length (2 ^ (lb + 1) * hh) :=
          countOnes_eq_bitCount sorted.length _ (by omega)
        have hcong := bitCount_congr_above (2 ^ (lb + 1) * hh) k
          sorted.length (lb + 1) hlbn
          (fun t ht1 ht2 => hxbits_high t (by omega))
        have hbcx0 : bitCount (lb + 1) (2 ^ (lb + 1) * hh) = 0 :=
          bitCount_eq_zero_of_low _ _ hxlow
        omega
      have hphi : p < 2 ^ (lb + 1) * hh + 2 ^ lb := by
        rw [← hform]
        omega
      have hplb : p.testBit lb = false :=
        interval_testBit_lb lb hh p hplow hphi
      have hphigh : ∀ j, lb < j → p.testBit j = k.testBit j := by
        intro j hj
        rw [hform]
        exact interval_testBit_high lb hh p j hj hplow hphi
      have hbudget : bitCount sorted.length k ≤ B := by omega
      have hupd := permUpdateAux_spec m0 w hw0 sorted hnd hrange hunfl
        hst0 k p lb B hbitlb hbitlow hplb hphigh hbudget
        sorted 0 st (List.drop_zero sorted).symm (by omega)
        (memberState_congr m0 st sorted _ _ hms
          (fun t _ => by simp))
        (by
          show st.minesRemaining + bitCount 0 k +
            bitCount sorted.length p = B + bitCount 0 p
          show st.minesRemaining + 0 + bitCount sorted.length p = B + 0
          omega)
      obtain ⟨hms1, heq1⟩ := hupd
      have hchk := loop_check_eq m0 w hw0 sorted k
        (permUpdateAux w k sorted 0 st) hnd hrange hms1
      have hgt := memberState_eq_withMemberFlags m0
        (permUpdateAux w k sorted 0 st) sorted k hnd hrange hms1
      have hstep : permLoop w sorted (groupBorders m0 sorted) maxMines
          (k :: List.range' (k + 1) len) (st, v, tal) =
          (if (groupBorders m0 sorted).all (fun b =>
              (permUpdateAux w k sorted 0 st).isTileSatisfied
                (fromIndex b w)) then
            permLoop w sorted (groupBorders m0 sorted) maxMines
              (List.range' (k + 1) len)
              (permUpdateAux w k sorted 0 st, v + 1,
                fun t => if t ∈ sorted ∧
                    ((permUpdateAux w k sorted 0 st).getTile t).flagged then
                  tal t + 1 else tal t)
          else
            permLoop w sorted (groupBorders m0 sorted) maxMines
              (List.range' (k + 1) len)
              (permUpdateAux w k sorted 0 st, v, tal)) := by
        simp only [permLoop]
        rw [if_neg (by omega)]
      rw [hstep]
      have hih := ihlen (k + 1) k (permUpdateAux w k sorted 0 st)
      by_cases hsat : subsetSatisfied m0 sorted k = true
      · rw [if_pos (by rw [hchk]; exact hsat)]
        have hih2 := hih (v + 1)
          (fun t => if t ∈ sorted ∧
              ((permUpdateAux w k sorted 0 st).getTile t).flagged = true
            then tal t + 1 else tal t)
          (by omega) (by omega) (by omega) hok
          (fun x hx1 hx2 => by omega) hms1 heq1
        constructor
        · rw [hih2.1, List.filter_cons]
          rw [if_pos (by
            show (decide (countOnes k ≤ maxMines) &&
              subsetSatisfied m0 sorted k) = true
            simp [hok, hsat])]
          simp only [List.length_cons]
          omega
        · intro t
          rw [hih2.2 t, List.filter_cons]
          by_cases htc : t ∈ sorted ∧
              ((withMemberFlags m0 sorted k).getTile t).flagged = true
          · rw [if_pos (by
              show (decide (countOnes k ≤ maxMines) &&
                (subsetSatisfied m0 sorted k &&
                  decide (t ∈ sorted ∧
                    ((withMemberFlags m0 sorted k).getTile t).flagged
                      = true))) = true
              simp [hok, hsat, htc])]
            show (if t ∈ sorted ∧
                ((permUpdateAux w k sorted 0 st).getTile t).flagged = true
              then tal t + 1 else tal t) + _ = _
            rw [if_pos (by rw [hgt t]; exact htc)]
            simp only [List.length_cons]
            omega
          · rw [if_neg (by
              show ¬((decide (countOnes k ≤ maxMines) &&
                (subsetSatisfied m0 sorted k &&
                  decide (t ∈ sorted ∧
                    ((withMemberFlags m0 sorted k).getTile t).flagged
                      = true))) = true)
              simp [hok, hsat, htc])]
            show (if t ∈ sorted ∧
                ((permUpdateAux w k sorted 0 st).getTile t).flagged = true
              then tal t + 1 else tal t) + _ = _
            rw [if_neg (by rw [hgt t]; exact htc)]
      · rw [if_neg (by rw [hchk]; exact hsat)]
        have hih2 := hih v tal (by omega) (by omega) (by omega) hok
          (fun x hx1 hx2 => by omega) hms1 heq1
        have hsat' : subsetSatisfied m0 sorted k = false := by
          simpa using hsat
        constructor
        · rw [hih2.1, List.filter_cons]
          rw [if_neg (by
            show ¬((decide (countOnes k ≤ maxMines) &&
              subsetSatisfied m0 sorted k) = true)
            simp [hsat'])]
        · intro t
          rw [hih2.2 t, List.filter_cons]
          rw [if_neg (by
            show ¬((decide (countOnes k ≤ maxMines) &&
              (subsetSatisfied m0 sorted k &&
                decide (t ∈ sorted ∧
                  ((withMemberFlags m0 sorted k).getTile t).flagged
                    = true))) = true)
            simp [hsat'])]

theorem permLoop_full (m : Map) (sorted : List Nat)
    (hst : m.status = Status.InProgress) (hnd : sorted.Nodup)
    (hrange : ∀ t ∈ sorted, t < m.tiles.length)
    (hunfl : ∀ t ∈ sorted, (m.getTile t).flipped = false)
    (maxMines : Nat) (hmm : maxMines ≤ m.minesRemaining) :
    ((permLoop m.width sorted (groupBorders m sorted) maxMines
        (List.range (2 ^ sorted.length)) (m, 0, fun _ => 0)).2.1 =
      ((List.range (2 ^ sorted.length)).filter (fun i =>
        decide (countOnes i ≤ maxMines) &&
          subsetSatisfied m sorted i)).length) ∧
    (∀ t, (permLoop m.width sorted (groupBorders m sorted) maxMines
        (List.range (2 ^ sorted.length)) (m, 0, fun _ => 0)).2.2 t =
      ((List.range (2 ^ sorted.length)).filter (fun i =>
        decide (countOnes i ≤ maxMines) &&
          (subsetSatisfied m sorted i &&
            decide (t ∈ sorted ∧
              ((withMemberFlags m sorted i).getTile t).flagged =
                true)))).length) := by
  obtain ⟨len1, hlen1⟩ : ∃ l, 2 ^ sorted.length = l + 1 :=
    ⟨2 ^ sorted.length - 1, by
      have h2 : 0 < 2 ^ sorted.length :=
        Nat.pos_pow_of_pos _ (by omega)
      omega⟩
  rw [List.range_eq_range', hlen1, List.range'_succ 0 len1 1]
  simp only [Nat.zero_add]
  have hc0 : countOnes 0 = 0 := rfl
  have hzero := permUpdateAux_zero m.width sorted 0 m hst rfl hnd
    hrange hunfl
  obtain ⟨⟨hzw, hzh, hzs, hztm, hztf, hzlen⟩, hzoff, hzmem, hzmr⟩ :=
    hzero
  have hms0 : MemberState m (permUpdateAux m.width 0 sorted 0 m) sorted
      (fun t => (0 : Nat).testBit t) := by
    refine ⟨hzw, hzh, hzs, hztm, hztf, hzlen, hzoff, ?_⟩
    intro k hk
    rw [hzmem _ (getD_mem_of_lt _ k hk)]
    simp [Nat.zero_testBit]
  have heq0 : (permUpdateAux m.width 0 sorted 0 m).minesRemaining +
      bitCount sorted.length 0 =
      m.minesRemaining +
        (sorted.filter (fun x => (m.getTile x).flagged)).length := by
    rw [hzmr, bitCount_zero_arg]
    omega
  have hmB : maxMines ≤ m.minesRemaining +
      (sorted.filter (fun x => (m.getTile x).flagged)).length := by
    omega
  have hchk := loop_check_eq m m.width rfl sorted 0
    (permUpdateAux m.width 0 sorted 0 m) hnd hrange hms0
  have hgt := memberState_eq_withMemberFlags m
    (permUpdateAux m.width 0 sorted 0 m) sorted 0 hnd hrange hms0
  have hloop := permLoop_spec m m.width rfl sorted hnd hrange hunfl hst
    maxMines
    (m.minesRemaining +
      (sorted.filter (fun x => (m.getTile x).flagged)).length) hmB
    len1 1 0 (permUpdateAux m.width 0 sorted 0 m)
  have hstep : permLoop m.width sorted (groupBorders m sorted) maxMines
      (0 :: List.range' 1 len1) (m, 0, fun _ => (0 : Nat)) =
      (if (groupBorders m sorted).all (fun b =>
          (permUpdateAux m.width 0 sorted 0 m).isTileSatisfied
            (fromIndex b m.width)) = true then
        permLoop m.width sorted (groupBorders m sorted) maxMines
          (List.range' 1 len1)
          (permUpdateAux m.width 0 sorted 0 m, 1,
            fun t => if t ∈ sorted ∧
                ((permUpdateAux m.width 0 sorted 0 m).getTile t).flagged
                  = true then
              1 else 0)
      else
        permLoop m.width sorted (groupBorders m sorted) maxMines
          (List.range' 1 len1)
          (permUpdateAux m.width 0 sorted 0 m, 0, fun _ => 0)) := by
    simp only [permLoop]
    rw [if_neg (by rw [hc0]; omega)]
  rw [hstep]
  by_cases hsat0 : subsetSatisfied m sorted 0 = true
  · rw [if_pos (by rw [hchk]; exact hsat0)]
    have hih2 := hloop 1
      (fun t => if t ∈ sorted ∧
          ((permUpdateAux m.width 0 sorted 0 m).getTile t).flagged = true
        then 1 else 0)
      (by omega) (by omega) (by omega)
      (by rw [hc0]; exact Nat.zero_le _)
      (fun x hx1 hx2 => by omega) hms0 heq0
    constructor
    · rw [hih2.1, List.filter_cons]
      rw [if_pos (by
        show (decide (countOnes 0 ≤ maxMines) &&
          subsetSatisfied m sorted 0) = true
        simp [hc0, hsat0])]
      simp only [List.length_cons]
      omega
    · intro t
      rw [hih2.2 t, List.filter_cons]
      by_cases htc : t ∈ sorted ∧
          ((withMemberFlags m sorted 0).getTile t).flagged = true
      · rw [if_pos (by
          show (decide (countOnes 0 ≤ maxMines) &&
            (subsetSatisfied m sorted 0 &&
              decide (t ∈ sorted ∧
                ((withMemberFlags m sorted 0).getTile t).flagged
                  = true))) = true
          simp [hc0, hsat0, htc])]
        show (if t ∈ sorted ∧
            ((permUpdateAux m.width 0 sorted 0 m).getTile t).flagged
              = true
          then 1 else 0) + _ = _
        rw [if_pos (by rw [hgt t]; exact htc)]
        simp only [List.length_cons]
        omega
      · rw [if_neg (by
          show ¬((decide (countOnes 0 ≤ maxMines) &&
            (subsetSatisfied m sorted 0 &&
              decide (t ∈ sorted ∧
                ((withMemberFlags m sorted 0).getTile t).flagged
                  = true))) = true)
          simp [hc0, hsat0, htc])]
        show (if t ∈ sorted ∧
            ((permUpdateAux m.width 0 sorted 0 m).getTile t).flagged
              = true
          then 1 else 0) + _ = _
        rw [if_neg (by rw [hgt t]; exact htc)]
        omega
  · rw [if_neg (by rw [hchk]; exact hsat0)]
    have hih2 := hloop 0 (fun _ => 0) (by omega) (by omega) (by omega)
      (by rw [hc0]; exact Nat.zero_le _)
      (fun x hx1 hx2 => by omega) hms0 heq0
    have hsat0' : subsetSatisfied m sorted 0 = false := by
      simpa using hsat0
    constructor
    · rw [hih2.1, List.filter_cons]
      rw [if_neg (by
        show ¬((decide (countOnes 0 ≤ maxMines) &&
          subsetSatisfied m sorted 0) = true)
        simp [hsat0'])]
      simp
    · intro t
      rw [hih2.2 t, List.filter_cons]
      rw [if_neg (by
        show ¬((decide (countOnes 0 ≤ maxMines) &&
          (subsetSatisfied m sorted 0 &&
            decide (t ∈ sorted ∧
              ((withMemberFlags m sorted 0).getTile t).flagged
                = true))) = true)
        simp [hsat0'])]
      simp

/-- Claim C3: per-group enumeration considers all `2^n` bitmask subsets
of the `n` group members (the full `List.range (2^n)`); a subset is
pruned exactly when its popcount exceeds `min(mines_remaining, n)`; and
a surviving subset is counted as a valid permutation — and tallied for
every member it flags — exactly when, with precisely that subset of
members flagged on the staging clone (`withMemberFlags`, the spec-side
restatement), every flipped tile bordering a group member is satisfied
(`subsetSatisfied`).  The hypotheses are the call-site conditions of
`evaluate_group`: an in-progress board, a duplicate-free group of
in-range unflipped tiles, of size at most `GROUP_SIZE_LIMIT`. -/
theorem c3_subset_enumeration (m : Map) (tilesUnflipped : List Nat)
    (hst : m.status = Status.InProgress)
    (hnd : tilesUnflipped.Nodup)
    (hrange : ∀ t ∈ tilesUnflipped, t < m.tiles.length)
    (hunfl : ∀ t ∈ tilesUnflipped, (m.getTile t).flipped = false)
    (hsize : tilesUnflipped.length ≤ GROUP_SIZE_LIMIT) :
    ((evaluateGroupCore m tilesUnflipped).2.1 =
      ((List.range (2 ^ tilesUnflipped.length)).filter (fun i =>
        decide (countOnes i ≤
            min m.minesRemaining tilesUnflipped.length) &&
          subsetSatisfied m (sortNat tilesUnflipped) i)).length) ∧
    (∀ t, (evaluateGroupCore m tilesUnflipped).2.2 t =
      ((List.range (2 ^ tilesUnflipped.length)).filter (fun i =>
        decide (countOnes i ≤
            min m.minesRemaining tilesUnflipped.length) &&
          (subsetSatisfied m (sortNat tilesUnflipped) i &&
            decide (t ∈ sortNat tilesUnflipped ∧
              ((withMemberFlags m (sortNat tilesUnflipped) i).getTile
                t).flagged = true)))).length) := by
  have hnd' : (sortNat tilesUnflipped).Nodup :=
    nodup_sortNat tilesUnflipped hnd
  have hrange' : ∀ t ∈ sortNat tilesUnflipped, t < m.tiles.length :=
    fun t ht => hrange t ((mem_sortNat t tilesUnflipped).mp ht)
  have hunfl' : ∀ t ∈ sortNat tilesUnflipped,
      (m.getTile t).flipped = false :=
    fun t ht => hunfl t ((mem_sortNat t tilesUnflipped).mp ht)
  have hlen' : (sortNat tilesUnflipped).length =
      tilesUnflipped.length := length_sortNat tilesUnflipped
  have hfull := permLoop_full m (sortNat tilesUnflipped) hst hnd'
    hrange' hunfl' (min m.minesRemaining tilesUnflipped.length)
    (Nat.min_le_left _ _)
  rw [hlen'] at hfull
  have huc : min GROUP_SIZE_LIMIT tilesUnflipped.length =
      tilesUnflipped.length := Nat.min_eq_right hsize
  have hunfold : evaluateGroupCore m tilesUnflipped =
      permLoop m.width (sortNat tilesUnflipped)
        (groupBorders m (sortNat tilesUnflipped))
        (min m.minesRemaining
          (min GROUP_SIZE_LIMIT tilesUnflipped.length))
        (List.range (2 ^ min GROUP_SIZE_LIMIT tilesUnflipped.length))
        (m, 0, fun _ => 0) := rfl
  rw [hunfold, huc]
  exact hfull

/-- Witness for claim C3 at the 3x1 risk board with member group
`{0, 2}`: 2 valid permutations of 4 candidates, each member tallied
once. -/
theorem c3_witness :
    riskBoard.status = Status.InProgress ∧
      (evaluateGroupCore riskBoard [0, 2]).2.1 =
        ((List.range (2 ^ ([0, 2] : List Nat).length)).filter (fun i =>
          decide (countOnes i ≤
              min riskBoard.minesRemaining
                ([0, 2] : List Nat).length) &&
            subsetSatisfied riskBoard (sortNat [0, 2]) i)).length :=
  ⟨by decide,
    (c3_subset_enumeration riskBoard [0, 2] (by decide) (by decide)
      (by decide) (by decide) (by decide)).1⟩

/-! ## Claims C8 and C10: flag budget and flag/flip exclusion -/

theorem flag_noop_budget (m : Map) (p : Point)
    (h0 : m.minesRemaining = 0)
    (hg : (m.getTile (p.toIndex m.width)).flagged = false) :
    m.flag p = m := by
  have hg' : (m.tiles.getD (p.toIndex m.width) default).flagged = false := hg
  unfold Map.flag
  dsimp only
  split_ifs with hs hb hf hgg hr
  · rfl
  · rfl
  · rw [hg'] at hgg
    cases hgg
  · omega
  · rfl
  · rfl

theorem flag_noop_flipped (m : Map) (p : Point)
    (hf : (m.getTile (p.toIndex m.width)).flipped = true) :
    m.flag p = m := by
  have hf' : (m.tiles.getD (p.toIndex m.width) default).flipped = true := hf
  unfold Map.flag
  dsimp only
  split_ifs <;> rfl

/-- C8: on every board reachable from a generated board by flag/flip
calls, `minesRemaining` stays within `[0, totalMines]` (it is a `Nat`,
so never negative), flagging an unflagged tile with the budget
exhausted leaves the board completely unchanged, and `flag` is equally
a complete no-op when the game is no longer `InProgress` or when the
target tile is flipped. -/
theorem c8_flag_budget (w h : Nat) (mines : List Point) (b : Map)
    (hg : generateMapWithMines w h mines = some b) (moves : List Move) :
    FlagBudgetOk (b.applyMoves moves) := by
  have hInv := applyMoves_inv (generate_inv w h mines b hg) moves
  obtain ⟨h1, _, _, _⟩ := hInv
  refine ⟨by omega, ?_, ?_, ?_⟩
  · intro p h0 hgf
    exact flag_noop_budget _ p h0 hgf
  · intro p hs
    exact flag_of_not_inProgress _ p hs
  · intro p hf
    exact flag_noop_flipped _ p hf

theorem c8_witness :
    generateMapWithMines 2 1 [⟨0, 0⟩] = some (genBoard 2 1 [⟨0, 0⟩]) ∧
      FlagBudgetOk
        ((genBoard 2 1 [⟨0, 0⟩]).applyMoves
          [⟨⟨1, 0⟩, MoveType.Flip⟩]) :=
  ⟨by decide,
    c8_flag_budget 2 1 [⟨0, 0⟩] (genBoard 2 1 [⟨0, 0⟩]) (by decide)
      [⟨⟨1, 0⟩, MoveType.Flip⟩]⟩

/-- C10: on every board reachable from a generated board by flag/flip
calls, no tile is ever both flagged and flipped, so around every tile
the flagged-neighbour count is at most the unflipped-neighbour count
and the `u8` subtraction `unflipped - flagged` of
`solver::evaluate_neighbours` never underflows. -/
theorem c10_no_flag_flip (w h : Nat) (mines : List Point) (b : Map)
    (hg : generateMapWithMines w h mines = some b) (moves : List Move) :
    FlagFlipExclusion (b.applyMoves moves) := by
  have hInv := applyMoves_inv (generate_inv w h mines b hg) moves
  obtain ⟨_, _, h3, _⟩ := hInv
  refine ⟨h3, ?_⟩
  intro index
  apply length_filter_le_of_imp
  intro q hq
  simp only [decide_eq_true_eq] at hq ⊢
  intro hcontra
  rw [h3 _ hq] at hcontra
  cases hcontra

theorem c10_witness :
    generateMapWithMines 2 1 [⟨1, 0⟩] = some (genBoard 2 1 [⟨1, 0⟩]) ∧
      FlagFlipExclusion
        ((genBoard 2 1 [⟨1, 0⟩]).applyMoves
          [⟨⟨1, 0⟩, MoveType.Flag⟩]) :=
  ⟨by decide,
    c10_no_flag_flip 2 1 [⟨1, 0⟩] (genBoard 2 1 [⟨1, 0⟩]) (by decide)
      [⟨⟨1, 0⟩, MoveType.Flag⟩]⟩

/-! ## Claim C7: the flood fill -/

/-- Counterexample to claim C7: on a generated 2×2 board with its only
mine at (0,0), the mine tile itself has value 0 (it has no mine
neighbours), is unflipped and unflagged, and the board is InProgress —
so the claim applies to flipping it.  But the flip flips exactly one
tile, the mine itself: a mine tile **is** flipped by the call, and the
bordering nonzero tile (1,0) (tile index 1, part of the claimed
one-tile-thick border of the zero region `{(0,0)}`) is **not**
flipped. -/
theorem c7_counterexample :
    ((genBoard 2 2 [⟨0, 0⟩]).getTile 0).value = 0 ∧
      ((genBoard 2 2 [⟨0, 0⟩]).getTile 0).flipped = false ∧
      ((genBoard 2 2 [⟨0, 0⟩]).getTile 0).flagged = false ∧
      (genBoard 2 2 [⟨0, 0⟩]).status = Status.InProgress ∧
      ((genBoard 2 2 [⟨0, 0⟩]).getTile 0).mine = true ∧
      (((genBoard 2 2 [⟨0, 0⟩]).flip ⟨0, 0⟩).1.getTile 0).flipped = true ∧
      (((genBoard 2 2 [⟨0, 0⟩]).flip ⟨0, 0⟩).1.getTile 1).flipped
        = false := by
  decide

/-- Claim C7 as amended: flipping an unflipped, unflagged, **non-mine**
tile of value 0 on an InProgress board whose values are consistent
flips exactly the tiles `Reach`-able from it (the connected zero-value
region reachable through unflipped unflagged tiles, plus the
one-tile-thick border of nonzero tiles around it) that are not
flagged, in addition to the already-flipped tiles; and no mine tile is
ever reached by this fan-out (so no mine is flipped).  The non-mine
hypothesis is necessary: a value-0 tile can itself be a mine (see the
counterexample). -/
theorem c7_flood_fill_amended (m : Map) (s : Point)
    (hst : m.status = Status.InProgress) (hvc : ValuesConsistent m)
    (hs : properPt m s) (hopen : OpenAt m s)
    (_hz : (m.getTile (s.toIndex m.width)).value = 0)
    (hnm : (m.getTile (s.toIndex m.width)).mine = false) :
    (∀ q : Point, properPt m q →
      (((m.flip s).1.getTile (q.toIndex m.width)).flipped = true ↔
        ((m.getTile (q.toIndex m.width)).flipped = true ∨
          (Reach m s q ∧
            (m.getTile (q.toIndex m.width)).flagged = false)))) ∧
    (∀ q : Point, Reach m s q →
      (m.getTile (q.toIndex m.width)).mine = false) :=
  ⟨flip_characterization m s hst hvc hs hopen hnm,
    fun _ hr => reach_nonmine hvc hs hnm hr⟩

theorem c7_witness :
    ((genBoard 3 3 [⟨2, 2⟩]).status = Status.InProgress ∧
      ValuesConsistent (genBoard 3 3 [⟨2, 2⟩]) ∧
      properPt (genBoard 3 3 [⟨2, 2⟩]) ⟨0, 0⟩ ∧
      OpenAt (genBoard 3 3 [⟨2, 2⟩]) ⟨0, 0⟩ ∧
      ((genBoard 3 3 [⟨2, 2⟩]).getTile
        (Point.toIndex ⟨0, 0⟩ (genBoard 3 3 [⟨2, 2⟩]).width)).value = 0 ∧
      ((genBoard 3 3 [⟨2, 2⟩]).getTile
        (Point.toIndex ⟨0, 0⟩ (genBoard 3 3 [⟨2, 2⟩]).width)).mine
          = false) ∧
    ((∀ q : Point, properPt (genBoard 3 3 [⟨2, 2⟩]) q →
        ((((genBoard 3 3 [⟨2, 2⟩]).flip ⟨0, 0⟩).1.getTile
            (q.toIndex (genBoard 3 3 [⟨2, 2⟩]).width)).flipped = true ↔
          (((genBoard 3 3 [⟨2, 2⟩]).getTile
              (q.toIndex (genBoard 3 3 [⟨2, 2⟩]).width)).flipped = true ∨
            (Reach (genBoard 3 3 [⟨2, 2⟩]) ⟨0, 0⟩ q ∧
              ((genBoard 3 3 [⟨2, 2⟩]).getTile
                (q.toIndex (genBoard 3 3 [⟨2, 2⟩]).width)).flagged
                  = false)))) ∧
      (∀ q : Point, Reach (genBoard 3 3 [⟨2, 2⟩]) ⟨0, 0⟩ q →
        ((genBoard 3 3 [⟨2, 2⟩]).getTile
          (q.toIndex (genBoard 3 3 [⟨2, 2⟩]).width)).mine = false)) :=
  ⟨⟨by decide, by decide, by decide, by decide, by decide, by decide⟩,
    c7_flood_fill_amended (genBoard 3 3 [⟨2, 2⟩]) ⟨0, 0⟩ (by decide)
      (by decide) (by decide) (by decide) (by decide) (by decide)⟩

/-! ## Claim C5: completion -/

/-- Counterexample to claim C5: on the generated 1×1 board whose only
tile is a mine, the completion equation
`tiles_flipped + total_mines = width*height` (0 + 1 = 1) holds from
the start while the status is InProgress, yet the status is not
Complete — so "the status becomes Complete if and only if the equation
is reached while InProgress" fails in the only-if-to-if direction: the
equation is only *checked* (and the status only promoted) inside a
`flip` call, never by `flag` or at construction. -/
theorem c5_counterexample :
    (genBoard 1 1 [⟨0, 0⟩]).tilesFlipped +
        (genBoard 1 1 [⟨0, 0⟩]).totalMines =
      (genBoard 1 1 [⟨0, 0⟩]).width * (genBoard 1 1 [⟨0, 0⟩]).height ∧
    (genBoard 1 1 [⟨0, 0⟩]).status = Status.InProgress ∧
    ¬(genBoard 1 1 [⟨0, 0⟩]).status = Status.Complete := by
  decide

/-- Claim C5 as amended: (1) `flag` never changes the status, so the
completion equation is only examined by `flip`; (2) the completion
check performed at the end of every `flip` call promotes the status to
Complete exactly when the board is InProgress and
`tiles_flipped + total_mines` equals the number of tiles (which is
`width*height` on generated boards); (3) in particular, on a generated
board with zero mines, flipping any in-bounds tile immediately yields
Complete (the flood fill reaches and flips every tile). -/
theorem c5_completion_amended :
    (∀ (m : Map) (p : Point), (m.flag p).status = m.status) ∧
    (∀ m : Map, m.checkCompleted.status = Status.Complete ↔
      (m.status = Status.Complete ∨
        (m.status = Status.InProgress ∧
          m.tilesFlipped + m.totalMines = m.tiles.length))) ∧
    (∀ (w h : Nat) (b : Map) (p : Point),
      generateMapWithMines w h [] = some b → properPt b p →
      (b.flip p).1.status = Status.Complete) :=
  ⟨flag_status, checkCompleted_complete_iff, flip_completes_empty⟩

theorem c5_witness :
    (generateMapWithMines 2 2 [] = some (genBoard 2 2 []) ∧
      properPt (genBoard 2 2 []) ⟨0, 0⟩) ∧
    ((genBoard 2 2 []).flip ⟨0, 0⟩).1.status = Status.Complete :=
  ⟨⟨by decide, by decide⟩,
    c5_completion_amended.2.2 2 2 (genBoard 2 2 []) ⟨0, 0⟩
      (by decide) (by decide)⟩

end Casspir
